import Mathlib

/-!
# Verification of the md5sum-uring scheduler

A shallow embedding of the bounded-concurrency checksum engine
(`src/lib.rs`, `src/simple_uring.rs`, `src/with_register_files.rs`,
`src/with_fixed_buffers.rs`, `src/without_uring.rs`) together with proofs
about its data model and scheduler loop.

Modelling conventions:
* bytes are naturals, a file is a list of bytes, and the file system is a
  partial map from paths (opaque identifiers) to file contents; `File::open`
  and `metadata()` succeed exactly when the map is defined at the path;
* the md5 accumulator is opaque (as the spec treats it): its state is the
  concatenation of all byte slices fed to `update`, and two digests are
  equal iff those byte streams are equal;
* the io_uring kernel interface is modelled at completion granularity: a
  completion for slot `i` means the kernel wrote the transferred bytes of
  the file at the slot's current offset into the slot's buffer; the choice
  of which in-flight slot completes next is an arbitrary oracle
  (`choices : Nat → Nat`), so theorems hold for every completion order;
* the outer scheduler loop is run with explicit fuel; `Outcome.done` marks
  a run in which the loop reached its normal exit;
* the sequence of observable actions (probe registration, file opens, read
  submissions, channel sends) is recorded in an event log, and the run
  returns the list of intermediate scheduler states so that "at every point
  during a run" properties can be stated as properties of every trace
  element.
-/

/-- Bytes: `u8` values; the 256 bound is irrelevant to every property proved
here, so plain naturals are used. -/
abbrev Byte := Nat

/-- Paths are opaque identifiers. -/
abbrev FPath := Nat

/-- The file system: `File::open`/`metadata` succeed iff the map is defined,
in which case the file has the given contents. -/
abbrev FileSystem := FPath → Option (List Byte)

/-- `RING_SIZE` from src/lib.rs. -/
def RING_SIZE : Nat := 16

/-- `MAX_READ_SIZE` from src/lib.rs. -/
def MAX_READ_SIZE : Nat := 4096 * 16

/-- `ALIGNMENT` from src/lib.rs. -/
def ALIGNMENT : Nat := 4096

/-- The md5 accumulator (`md5::Md5`), treated as opaque: its state is the
stream of bytes fed so far. -/
structure Md5 where
  fed : List Byte
deriving DecidableEq, Repr

/-- `Md5::new()`. -/
def Md5.new : Md5 := ⟨[]⟩

/-- `ctx.update(bytes)`: append the slice to the fed stream. -/
def Md5.update (c : Md5) (bytes : List Byte) : Md5 := ⟨c.fed ++ bytes⟩

/-- A message on the result channel: `(path, Ok(md5) | Err(_))`. -/
inductive Msg where
  | ok (path : FPath) (digest : Md5)
  | err (path : FPath)
deriving DecidableEq, Repr

/-- The path a message reports on. -/
def Msg.path : Msg → FPath
  | .ok p _ => p
  | .err p => p

/-- Observable actions of a run, in chronological order. -/
inductive Event where
  | probe
  | openOk (path : FPath)
  | openErr (path : FPath)
  | submitRead (idx : Nat) (path : FPath) (len : Nat) (off : Nat)
  | send (m : Msg)
deriving DecidableEq, Repr

/-- The transcript of the result channel: all `send` events in order. -/
def sentMsgs (events : List Event) : List Msg :=
  events.filterMap fun e =>
    match e with
    | .send m => some m
    | _ => none

/-- The paths of all sent messages. -/
def sentPaths (events : List Event) : List FPath :=
  (sentMsgs events).map Msg.path

/-- Whether the kernel interface supports each opcode the strategies probe
for: `opcode::Read::CODE`, registration opcode `2`, and
`opcode::ReadFixed::CODE`. -/
structure Probe where
  read : Bool
  register_files : Bool
  read_fixed : Bool
deriving DecidableEq, Repr

/-- How a modelled run ended: a `bail!`/`?` error (fatal), fuel exhaustion
of the model (the real loop just keeps running), or the loop's normal
exit. -/
inductive Outcome where
  | fatal (msg : String)
  | fuelOut
  | done
deriving DecidableEq, Repr

/-- `Vec::resize(n, v)` on a byte vector: truncate or pad with `v`. -/
def listResize (l : List Byte) (n : Nat) (v : Byte) : List Byte :=
  l.take n ++ List.replicate (n - l.length) v

theorem listResize_length (l : List Byte) (n : Nat) (v : Byte) :
    (listResize l n v).length = n := by
  simp [listResize, List.length_take]
  omega

/-- `AlignedBuffer` from src/lib.rs: `MAX_READ_SIZE` bytes of fixed
capacity plus a logical length.  The byte store is modelled as a total
function on indices; only indices below the logical length are ever read,
and the capacity (the `MAX_READ_SIZE` array) is fixed by construction. -/
structure AlignedBuffer where
  buf : Nat → Byte
  len : Nat

/-- `AlignedBuffer::new()`: zeroed storage, logical length `MAX_READ_SIZE`. -/
def AlignedBuffer.new : AlignedBuffer := ⟨fun _ => 0, MAX_READ_SIZE⟩

/-- `AlignedBuffer::resize(len)`: `assert!(len <= MAX_READ_SIZE)` then set
the logical length, leaving the storage untouched.  `none` models the
panic of the failed assertion. -/
def AlignedBuffer.resize (b : AlignedBuffer) (len : Nat) : Option AlignedBuffer :=
  if len ≤ MAX_READ_SIZE then some { b with len := len } else none

/-- The `Deref` view of the buffer: its first `len` bytes. -/
def AlignedBuffer.bytes (b : AlignedBuffer) : List Byte :=
  (List.range b.len).map b.buf

/-- The kernel writing `data` at the start of the buffer's storage. -/
def AlignedBuffer.writeBytes (b : AlignedBuffer) (data : List Byte) : AlignedBuffer :=
  { b with buf := fun i => (data.get? i).getD (b.buf i) }

theorem AlignedBuffer.bytes_length (b : AlignedBuffer) : b.bytes.length = b.len := by
  simp [AlignedBuffer.bytes]

theorem AlignedBuffer.writeBytes_len (b : AlignedBuffer) (data : List Byte) :
    (b.writeBytes data).len = b.len := rfl

theorem AlignedBuffer.writeBytes_bytes (b : AlignedBuffer) (data : List Byte)
    (h : data.length = b.len) : (b.writeBytes data).bytes = data := by
  apply List.ext_get
  · simp [AlignedBuffer.bytes, AlignedBuffer.writeBytes, h]
  · intro i h1 h2
    simp only [AlignedBuffer.bytes, AlignedBuffer.writeBytes] at h1 ⊢
    simp only [List.length_map, List.length_range] at h1
    rw [List.get_map]
    simp only [List.get_range]
    rw [List.get?_eq_get h2]
    rfl

/-! ### List helper lemmas for the slot table -/

theorem filterMap_set_none_perm {α : Type} (l : List (Option α)) (i : Nat) (b : α)
    (h : l.get? i = some (some b)) :
    List.Perm (l.filterMap id) (b :: (l.set i none).filterMap id) := by
  induction l generalizing i with
  | nil => simp at h
  | cons a t ih =>
    cases i with
    | zero =>
      simp at h
      subst h
      simp
    | succ j =>
      simp only [List.get?_cons_succ] at h
      cases a with
      | none =>
        simpa using ih j h
      | some c =>
        simp only [List.set_cons_succ, List.filterMap_cons, id_eq]
        exact ((ih j h).cons c).trans (List.Perm.swap b c _)

theorem filterMap_set_some_perm {α : Type} (l : List (Option α)) (i : Nat) (x : α)
    (h : l.get? i = some none) :
    List.Perm ((l.set i (some x)).filterMap id) (x :: l.filterMap id) := by
  induction l generalizing i with
  | nil => simp at h
  | cons a t ih =>
    cases i with
    | zero =>
      simp at h
      subst h
      simp
    | succ j =>
      simp only [List.get?_cons_succ] at h
      cases a with
      | none =>
        simpa using ih j h
      | some c =>
        simp only [List.set_cons_succ, List.filterMap_cons, id_eq]
        exact ((ih j h).cons c).trans (List.Perm.swap x c _)

theorem sentMsgs_append (e1 e2 : List Event) :
    sentMsgs (e1 ++ e2) = sentMsgs e1 ++ sentMsgs e2 := by
  simp [sentMsgs, List.filterMap_append]

theorem sentPaths_append (e1 e2 : List Event) :
    sentPaths (e1 ++ e2) = sentPaths e1 ++ sentPaths e2 := by
  simp [sentPaths, sentMsgs_append]

theorem getD_get?_replicate_none {α : Type} (n i : Nat) :
    ((List.replicate n (none : Option α)).get? i).getD none = none := by
  induction n generalizing i with
  | zero => simp
  | succ n ih =>
    cases i with
    | zero => simp [List.replicate_succ]
    | succ j => simpa [List.replicate_succ] using ih j

theorem getD_get?_set_ne {α : Type} (l : List (Option α)) (i j : Nat) (v : Option α)
    (h : i ≠ j) : ((l.set i v).get? j).getD none = (l.get? j).getD none := by
  rw [List.get?_set_ne _ _ h]

theorem getD_get?_set_eq {α : Type} (l : List (Option α)) (i : Nat) (v : Option α)
    (h : i < l.length) : ((l.set i v).get? i).getD none = v := by
  rw [List.get?_set_eq_of_lt _ h]
  rfl

namespace SimpleUring

/-! ## src/simple_uring.rs -/

/-- The per-file state from src/simple_uring.rs (`struct Buffer`): open
handle (modelled by the file's contents), total length, growable `Vec<u8>`
read buffer, cursor, and digest accumulator. -/
structure Buffer where
  path : FPath
  contents : List Byte
  file_len : Nat
  buf : List Byte
  position : Nat
  ctx : Md5
deriving DecidableEq, Repr

/-- `Buffer::set_buffer_size`: resize `buf` to
`min(file_len - position, MAX_READ_SIZE)`. -/
def Buffer.set_buffer_size (b : Buffer) : Buffer :=
  let needed_bytes := min (b.file_len - b.position) MAX_READ_SIZE
  { b with buf := listResize b.buf needed_bytes 0 }

/-- `Buffer::new`: open the file, stat its length, start with an empty
digest at position 0, and size the buffer.  `none` models the `?` error
when the file cannot be opened or statted. -/
def Buffer.new (fsys : FileSystem) (path : FPath) : Option Buffer :=
  match fsys path with
  | none => none
  | some contents =>
      some (Buffer.set_buffer_size
        { path := path, contents := contents, file_len := contents.length,
          buf := [], position := 0, ctx := Md5.new })

/-- The scheduler's mutable state: the slot table, the free-index list, the
not-yet-admitted input paths, and the event log. -/
structure SState where
  shared_buffers : List (Option Buffer)
  free_index_list : List Nat
  events : List Event
deriving Repr, DecidableEq

/-- The slot table entry at index `i`. -/
def slotAt (s : SState) (i : Nat) : Option Buffer :=
  (s.shared_buffers.get? i).getD none

/-- The number of occupied slots. -/
def occupiedCount (s : SState) : Nat :=
  (s.shared_buffers.filterMap id).length

/-- Paths of the files currently in flight (one per occupied slot). -/
def inFlightPaths (s : SState) : List FPath :=
  (s.shared_buffers.filterMap id).map Buffer.path

/-- `submit_for_read`: queue a read of the slot's current buffer length at
the slot's current offset, tagged with the slot index. -/
def submit_for_read (s : SState) (b : Buffer) (idx : Nat) : SState :=
  { s with events := s.events ++ [.submitRead idx b.path b.buf.length b.position] }

/-- The refill phase (`while let Some(free_idx) = free_index_list.pop()`):
admit pending paths into free slots.  On an open/stat error the index is
pushed back, the error is sent, and the loop continues; when the path list
is exhausted the index is pushed back and the loop breaks.  Returns the
final state, the `new_work_queued` flag, and the intermediate states (one
per admission or error). -/
def refill (fsys : FileSystem) (files : List FPath) (s : SState) (queued : Bool) :
    List FPath × SState × Bool × List SState :=
  match s.free_index_list with
  | [] => (files, s, queued, [])
  | free_idx :: rest =>
    match files with
    | [] =>
        -- files.next() was None: push the index back (pop then push leaves
        -- the list unchanged) and break
        (files, s, queued, [])
    | path :: more =>
      match Buffer.new fsys path with
      | none =>
          -- Buffer::new failed: return the index, report the error, continue
          let s' : SState :=
            { s with events := s.events ++ [.openErr path, .send (.err path)] }
          let r := refill fsys more s' queued
          (r.1, r.2.1, r.2.2.1, s' :: r.2.2.2)
      | some buffer =>
          -- place the buffer in the slot and submit a read tagged with it
          let s1 : SState :=
            { s with free_index_list := rest,
                     shared_buffers := s.shared_buffers.set free_idx (some buffer),
                     events := s.events ++ [.openOk path] }
          let s2 := submit_for_read s1 buffer free_idx
          let r := refill fsys more s2 true
          (r.1, r.2.1, r.2.2.1, s2 :: r.2.2.2)

/-- The indices of the occupied slots: each has exactly one read in
flight. -/
def occupiedIndices (s : SState) : List Nat :=
  (List.range RING_SIZE).filter fun i => (slotAt s i).isSome

/-- The body of `submit_wait_and_handle_result` for a completion on slot
`completed_idx` whose read transferred `k` bytes: the kernel has written
the transferred bytes of the file at the current offset into the buffer;
the code then advances the cursor by the full requested buffer length,
feeds the whole buffer to the digest, resizes the buffer, and either frees
the slot and sends the digest or resubmits.  (The code reads only
`user_data` from the completion entry; the transferred count `k` enters
only through the kernel's write.)  If the slot is empty the code would
panic; the model returns the state unchanged (the caller only picks
occupied slots). -/
def handle_result (s : SState) (completed_idx : Nat) (k : Nat) : SState :=
  match slotAt s completed_idx with
  | none => s
  | some buffer =>
      let written :=
        (buffer.contents.drop buffer.position).take (min k buffer.buf.length)
      let b1 : Buffer := { buffer with buf := written ++ buffer.buf.drop written.length }
      -- buffer.position += buffer.buf.len();
      let b2 : Buffer := { b1 with position := b1.position + b1.buf.length }
      -- buffer.ctx.update(&buffer.buf);
      let b3 : Buffer := { b2 with ctx := b2.ctx.update b2.buf }
      -- buffer.set_buffer_size();
      let b4 := Buffer.set_buffer_size b3
      if b4.buf.length = 0 then
        { s with shared_buffers := s.shared_buffers.set completed_idx none,
                 free_index_list := completed_idx :: s.free_index_list,
                 events := s.events ++ [.send (.ok b4.path b4.ctx)] }
      else
        let s1 : SState :=
          { s with shared_buffers := s.shared_buffers.set completed_idx (some b4) }
        submit_for_read s1 b4 completed_idx

/-- The requested length of the read in flight on slot `i` (0 if free). -/
def requestedAt (s : SState) (i : Nat) : Nat :=
  match slotAt s i with
  | none => 0
  | some b => b.buf.length

/-- `submit_wait_and_handle_result`: wait for one completion — the oracle
`choice` picks which in-flight read completes — and handle it.  Every
completed read transfers exactly the requested number of bytes (the
full-transfer assumption under which the engine is analysed). -/
def submit_wait_and_handle_result (s : SState) (choice : Nat) : SState :=
  match occupiedIndices s with
  | [] => s      -- the scheduler only waits while work is in flight
  | i :: rest =>
      let occ := i :: rest
      let completed_idx := occ.getD (choice % occ.length) 0
      handle_result s completed_idx (requestedAt s completed_idx)

/-- The final drain (`while free_index_list.len() < RING_SIZE`): handle
completions until every slot is free. -/
def drain (choices : Nat → Nat) :
    Nat → Nat → SState → Outcome × SState × List SState
  | 0, _, s =>
      if s.free_index_list.length < RING_SIZE then (.fuelOut, s, [])
      else (.done, s, [])
  | fuel + 1, t, s =>
      if s.free_index_list.length < RING_SIZE then
        let s' := submit_wait_and_handle_result s (choices t)
        let r := drain choices fuel (t + 1) s'
        (r.1, r.2.1, s' :: r.2.2)
      else (.done, s, [])

/-- The main loop of `get_checksums`: refill, then either wait for and
handle one completion (when work was queued or paths remain) or drain the
remaining completions and stop. -/
def runLoop (fsys : FileSystem) (choices : Nat → Nat) :
    Nat → Nat → List FPath → SState → Outcome × List FPath × SState × List SState
  | 0, _, files, s => (.fuelOut, files, s, [])
  | fuel + 1, t, files, s =>
      let rf := refill fsys files s false
      let files1 := rf.1
      let s1 := rf.2.1
      if rf.2.2.1 || !files1.isEmpty then
        let s2 := submit_wait_and_handle_result s1 (choices t)
        let r := runLoop fsys choices fuel (t + 1) files1 s2
        (r.1, r.2.1, r.2.2.1, rf.2.2.2 ++ s2 :: r.2.2.2)
      else
        let r := drain choices fuel t s1
        (r.1, files1, r.2.1, rf.2.2.2 ++ r.2.2)

/-- The scheduler's state right after the ring and probe are set up: empty
slot table, free indices `15, 14, …, 0` (a `Vec` popped from the back), and
the probe registration logged.  The pending path list (the `files`
iterator, a separate local in the source) is threaded alongside. -/
def initState : SState :=
  { shared_buffers := List.replicate RING_SIZE none,
    free_index_list := (List.range RING_SIZE).reverse,
    events := [.probe] }

/-- `simple_uring::get_checksums`: register the probe, bail if `Read` is
unsupported, then run the scheduler loop.  Returns the outcome, the
leftover pending paths (empty when the loop exits normally), the final
state, and the trace of intermediate states. -/
def get_checksums (probe : Probe) (fsys : FileSystem) (choices : Nat → Nat)
    (files : List FPath) (fuel : Nat) :
    Outcome × List FPath × SState × List SState :=
  if !probe.read then
    (.fatal "Reading files is not supported. Try a newer kernel.", files, initState, [])
  else
    let r := runLoop fsys choices fuel 0 files initState
    (r.1, r.2.1, r.2.2.1, initState :: r.2.2.2)

/-! ### Scheduler invariant for simple_uring -/

/-- Well-formedness of a per-file state while its file is in flight: the
handle matches the file system, the recorded length is the true length, the
cursor never passes the end, the digest has been fed exactly the bytes
before the cursor, and the buffer length is the chunk formula
`min(total_length - cursor, MAX_READ_SIZE)`. -/
def BufferWF (fsys : FileSystem) (b : Buffer) : Prop :=
  fsys b.path = some b.contents ∧
  b.file_len = b.contents.length ∧
  b.position ≤ b.file_len ∧
  b.ctx = Md5.mk (b.contents.take b.position) ∧
  b.buf.length = min (b.file_len - b.position) MAX_READ_SIZE

/-- The scheduler loop invariant, relative to the file system and the
original input path list. -/
structure Inv (fsys : FileSystem) (input : List FPath) (files : List FPath)
    (s : SState) : Prop where
  len_sb : s.shared_buffers.length = RING_SIZE
  nodup : s.free_index_list.Nodup
  free_lt : ∀ i ∈ s.free_index_list, i < RING_SIZE
  free_none : ∀ i ∈ s.free_index_list, slotAt s i = none
  none_free : ∀ i, i < RING_SIZE → slotAt s i = none → i ∈ s.free_index_list
  count_eq : s.free_index_list.length + occupiedCount s = RING_SIZE
  wf : ∀ i b, slotAt s i = some b → BufferWF fsys b
  sent_ok : ∀ p d, Msg.ok p d ∈ sentMsgs s.events → fsys p = some d.fed
  sent_err : ∀ p, Msg.err p ∈ sentMsgs s.events → fsys p = none
  submits : ∀ i p len off, Event.submitRead i p len off ∈ s.events →
      ∃ c, fsys p = some c ∧ off ≤ c.length ∧ len = min (c.length - off) MAX_READ_SIZE
  probe_once : s.events.count Event.probe = 1
  acct : List.Perm (files ++ inFlightPaths s ++ sentPaths s.events) input

theorem slotAt_get?_of_some {s : SState} {i : Nat} {b : Buffer}
    (h : slotAt s i = some b) : s.shared_buffers.get? i = some (some b) := by
  unfold slotAt at h
  cases hg : s.shared_buffers.get? i with
  | none => rw [hg] at h; simp at h
  | some v =>
    rw [hg] at h
    simp only [Option.getD_some] at h
    exact congrArg some h

theorem slotAt_lt_of_some {s : SState} {i : Nat} {b : Buffer}
    (h : slotAt s i = some b) : i < s.shared_buffers.length :=
  List.get?_eq_some.mp (slotAt_get?_of_some h) |>.1

theorem slotAt_get?_of_none {s : SState} {i : Nat}
    (hlt : i < s.shared_buffers.length) (h : slotAt s i = none) :
    s.shared_buffers.get? i = some none := by
  unfold slotAt at h
  cases hg : s.shared_buffers.get? i with
  | none => exact absurd (List.get?_eq_none.mp hg) (by omega)
  | some v =>
    rw [hg] at h
    simp only [Option.getD_some] at h
    exact congrArg some h

/-- `Buffer::new` produces a well-formed state whenever it succeeds. -/
theorem Buffer.new_wf {fsys : FileSystem} {path : FPath} {b : Buffer}
    (h : Buffer.new fsys path = some b) :
    BufferWF fsys b ∧ b.path = path ∧ b.position = 0 := by
  unfold Buffer.new at h
  cases hf : fsys path with
  | none => rw [hf] at h; simp at h
  | some contents =>
    rw [hf] at h
    simp only [Option.some.injEq] at h
    subst h
    refine ⟨⟨?_, ?_, ?_, ?_, ?_⟩, rfl, rfl⟩ <;>
      simp [Buffer.set_buffer_size, hf, Md5.new, listResize_length]

/-- `Buffer::new` fails exactly when the path cannot be opened. -/
theorem Buffer.new_eq_none {fsys : FileSystem} {path : FPath} :
    Buffer.new fsys path = none ↔ fsys path = none := by
  unfold Buffer.new
  cases hf : fsys path <;> simp

/-- The per-file state produced inside `handle_result` when the completed
read transferred the full requested length: cursor advanced by the request,
the chunk fed to the digest, buffer resized for the next chunk
(proof-side abbreviation). -/
def fullReadNext (b : Buffer) : Buffer :=
  let written := (b.contents.drop b.position).take b.buf.length
  Buffer.set_buffer_size
    { b with buf := written,
             position := b.position + b.buf.length,
             ctx := b.ctx.update written }

theorem written_length {b : Buffer}
    (hwlen : b.buf.length ≤ b.contents.length - b.position) :
    ((b.contents.drop b.position).take b.buf.length).length = b.buf.length := by
  simp only [List.length_take, List.length_drop]
  omega

theorem handle_result_full_eq {s : SState} {idx : Nat} {b : Buffer}
    (hb : slotAt s idx = some b)
    (hwlen : b.buf.length ≤ b.contents.length - b.position) :
    handle_result s idx b.buf.length =
      if (fullReadNext b).buf.length = 0 then
        { s with shared_buffers := s.shared_buffers.set idx none,
                 free_index_list := idx :: s.free_index_list,
                 events := s.events ++
                   [.send (.ok (fullReadNext b).path (fullReadNext b).ctx)] }
      else
        submit_for_read
          { s with shared_buffers := s.shared_buffers.set idx (some (fullReadNext b)) }
          (fullReadNext b) idx := by
  have hw := written_length hwlen
  unfold handle_result fullReadNext
  rw [hb]
  simp only [min_self, hw, List.drop_length, List.append_nil, Buffer.set_buffer_size]

/-- Projections of the successor state of a full read. -/
theorem fullReadNext_path (b : Buffer) : (fullReadNext b).path = b.path := rfl

theorem fullReadNext_contents (b : Buffer) : (fullReadNext b).contents = b.contents := rfl

theorem fullReadNext_file_len (b : Buffer) : (fullReadNext b).file_len = b.file_len := rfl

theorem fullReadNext_position (b : Buffer) :
    (fullReadNext b).position = b.position + b.buf.length := rfl

theorem fullReadNext_ctx (b : Buffer) :
    (fullReadNext b).ctx = b.ctx.update ((b.contents.drop b.position).take b.buf.length) := rfl

theorem fullReadNext_buf_length (b : Buffer) :
    (fullReadNext b).buf.length =
      min (b.file_len - (b.position + b.buf.length)) MAX_READ_SIZE := by
  simp [fullReadNext, Buffer.set_buffer_size, listResize_length]

/-- A full read keeps the per-file state well formed. -/
theorem fullReadNext_wf {fsys : FileSystem} {b : Buffer} (h : BufferWF fsys b) :
    BufferWF fsys (fullReadNext b) := by
  obtain ⟨hfs, hfl, hpos, hctx, hblen⟩ := h
  refine ⟨?_, ?_, ?_, ?_, ?_⟩
  · rw [fullReadNext_path, fullReadNext_contents]
    exact hfs
  · rw [fullReadNext_file_len, fullReadNext_contents]
    exact hfl
  · rw [fullReadNext_position, fullReadNext_file_len]
    omega
  · rw [fullReadNext_ctx, fullReadNext_contents, fullReadNext_position, hctx]
    show Md5.mk (b.contents.take b.position ++ _) = _
    rw [← List.take_add]
  · rw [fullReadNext_buf_length, fullReadNext_position, fullReadNext_file_len]

/-- When the resized buffer is empty the file is fully digested. -/
theorem fullReadNext_finished {fsys : FileSystem} {b : Buffer} (h : BufferWF fsys b)
    (h0 : (fullReadNext b).buf.length = 0) :
    (fullReadNext b).ctx = Md5.mk b.contents := by
  obtain ⟨hfs2, hfl2, hpos2, hctx2, hlen2⟩ := fullReadNext_wf h
  obtain ⟨hfs, hfl, hpos, hctx, hblen⟩ := h
  rw [fullReadNext_buf_length] at h0
  have hmax : MAX_READ_SIZE ≠ 0 := by decide
  have hend : (fullReadNext b).position = (fullReadNext b).contents.length := by
    rw [fullReadNext_position, fullReadNext_contents]
    omega
  rw [hctx2, hend, List.take_length]
  rw [fullReadNext_contents]

/-- Handling a full-transfer completion on an occupied slot preserves the
scheduler invariant. -/
theorem handle_result_full_inv {fsys : FileSystem} {input files : List FPath}
    {s : SState} {idx : Nat} {b : Buffer} (hb : slotAt s idx = some b)
    (hInv : Inv fsys input files s) :
    Inv fsys input files (handle_result s idx b.buf.length) := by
  have hwf := hInv.wf idx b hb
  obtain ⟨hfs, hfl, hpos, hctx, hblen⟩ := hwf
  have hget := slotAt_get?_of_some hb
  have hlt : idx < s.shared_buffers.length := slotAt_lt_of_some hb
  have hwlen : b.buf.length ≤ b.contents.length - b.position := by omega
  have hnotfree : idx ∉ s.free_index_list := fun hmem => by
    have := hInv.free_none idx hmem
    rw [hb] at this
    exact Option.noConfusion this
  have hwf' : BufferWF fsys (fullReadNext b) :=
    fullReadNext_wf ⟨hfs, hfl, hpos, hctx, hblen⟩
  have hperm1 : List.Perm (s.shared_buffers.filterMap id)
      (b :: (s.shared_buffers.set idx none).filterMap id) :=
    filterMap_set_none_perm _ _ _ hget
  rw [handle_result_full_eq hb hwlen]
  by_cases h0 : (fullReadNext b).buf.length = 0
  · -- the file is finished: free the slot and send the digest
    rw [if_pos h0]
    have hdone := fullReadNext_finished ⟨hfs, hfl, hpos, hctx, hblen⟩ h0
    refine ⟨?_, ?_, ?_, ?_, ?_, ?_, ?_, ?_, ?_, ?_, ?_, ?_⟩
    · simpa using hInv.len_sb
    · exact List.Nodup.cons hnotfree hInv.nodup
    · intro i hi
      rcases List.mem_cons.mp hi with rfl | hi
      · exact hInv.len_sb ▸ hlt
      · exact hInv.free_lt i hi
    · intro i hi
      rcases List.mem_cons.mp hi with rfl | hi
      · show ((s.shared_buffers.set i none).get? i).getD none = none
        exact getD_get?_set_eq _ _ _ hlt
      · have hne : i ≠ idx := fun he => hnotfree (he ▸ hi)
        show ((s.shared_buffers.set idx none).get? i).getD none = none
        rw [getD_get?_set_ne _ _ _ _ (Ne.symm hne)]
        exact hInv.free_none i hi
    · intro i hilt hslot
      replace hslot : ((s.shared_buffers.set idx none).get? i).getD none = none := hslot
      by_cases hne : i = idx
      · exact hne ▸ List.mem_cons_self _ _
      · rw [getD_get?_set_ne _ _ _ _ (Ne.symm hne)] at hslot
        exact List.mem_cons_of_mem _ (hInv.none_free i hilt hslot)
    · have hlen1 := hperm1.length_eq
      have hc := hInv.count_eq
      simp only [occupiedCount, List.length_cons] at hlen1 hc ⊢
      omega
    · intro i c hslot
      replace hslot : ((s.shared_buffers.set idx none).get? i).getD none = some c := hslot
      by_cases hne : i = idx
      · subst hne
        rw [getD_get?_set_eq _ _ _ hlt] at hslot
        exact Option.noConfusion hslot
      · rw [getD_get?_set_ne _ _ _ _ (Ne.symm hne)] at hslot
        exact hInv.wf i c hslot
    · intro p d hmem
      replace hmem : Msg.ok p d ∈ sentMsgs (s.events ++
          [Event.send (Msg.ok (fullReadNext b).path (fullReadNext b).ctx)]) := hmem
      rw [sentMsgs_append] at hmem
      rcases List.mem_append.mp hmem with hmem | hmem
      · exact hInv.sent_ok p d hmem
      · simp [sentMsgs] at hmem
        obtain ⟨hp, hd⟩ := hmem
        subst hp
        subst hd
        rw [fullReadNext_path, hdone, hfs]
    · intro p hmem
      replace hmem : Msg.err p ∈ sentMsgs (s.events ++
          [Event.send (Msg.ok (fullReadNext b).path (fullReadNext b).ctx)]) := hmem
      rw [sentMsgs_append] at hmem
      rcases List.mem_append.mp hmem with hmem | hmem
      · exact hInv.sent_err p hmem
      · simp [sentMsgs] at hmem
    · intro i p len off hmem
      rcases List.mem_append.mp hmem with hmem | hmem
      · exact hInv.submits i p len off hmem
      · simp at hmem
    · show (s.events ++
          [Event.send (Msg.ok (fullReadNext b).path (fullReadNext b).ctx)]).count
          Event.probe = 1
      simp [List.count_append, List.count_singleton, hInv.probe_once]
    · refine List.perm_iff_count.mpr fun a => ?_
      have hacct := hInv.acct.count_eq a
      have hifp := (hperm1.map Buffer.path).count_eq a
      show (files ++ ((s.shared_buffers.set idx none).filterMap id).map Buffer.path ++
          sentPaths (s.events ++
            [Event.send (Msg.ok (fullReadNext b).path (fullReadNext b).ctx)])).count a =
          input.count a
      rw [sentPaths_append]
      have hsp : sentPaths
          [Event.send (Msg.ok (fullReadNext b).path (fullReadNext b).ctx)] = [b.path] := by
        simp [sentPaths, sentMsgs, Msg.path, fullReadNext_path]
      rw [hsp]
      simp only [List.count_append, List.map_cons, List.count_cons,
        List.count_singleton, inFlightPaths] at hacct hifp ⊢
      by_cases hab : a = b.path <;> simp [hab, beq_iff_eq] at hacct hifp ⊢ <;> omega
  · -- more to read: resubmit the slot
    rw [if_neg h0]
    have hset : s.shared_buffers.set idx (some (fullReadNext b)) =
        (s.shared_buffers.set idx none).set idx (some (fullReadNext b)) :=
      (List.set_set _ _ _ _).symm
    have hlt2 : idx < (s.shared_buffers.set idx none).length := by simpa using hlt
    have hperm2 : List.Perm
        ((s.shared_buffers.set idx (some (fullReadNext b))).filterMap id)
        (fullReadNext b :: (s.shared_buffers.set idx none).filterMap id) := by
      rw [hset]
      exact filterMap_set_some_perm _ _ _ (List.get?_set_eq_of_lt none hlt)
    obtain ⟨hfs2, hfl2, hpos2, hctx2, hlen2⟩ := hwf'
    refine ⟨?_, ?_, ?_, ?_, ?_, ?_, ?_, ?_, ?_, ?_, ?_, ?_⟩
    · show (s.shared_buffers.set idx (some (fullReadNext b))).length = RING_SIZE
      simpa using hInv.len_sb
    · exact hInv.nodup
    · exact hInv.free_lt
    · intro i hi
      have hne : i ≠ idx := fun he => hnotfree (he ▸ hi)
      show ((s.shared_buffers.set idx (some (fullReadNext b))).get? i).getD none = none
      rw [getD_get?_set_ne _ _ _ _ (Ne.symm hne)]
      exact hInv.free_none i hi
    · intro i hilt hslot
      replace hslot : ((s.shared_buffers.set idx (some (fullReadNext b))).get? i).getD
          none = none := hslot
      by_cases hne : i = idx
      · subst hne
        rw [getD_get?_set_eq _ _ _ hlt] at hslot
        exact Option.noConfusion hslot
      · rw [getD_get?_set_ne _ _ _ _ (Ne.symm hne)] at hslot
        exact hInv.none_free i hilt hslot
    · have hlen1 := hperm1.length_eq
      have hlen2' := hperm2.length_eq
      have hc := hInv.count_eq
      simp only [occupiedCount, submit_for_read, List.length_cons] at hlen1 hlen2' hc ⊢
      omega
    · intro i c hslot
      replace hslot : ((s.shared_buffers.set idx (some (fullReadNext b))).get? i).getD
          none = some c := hslot
      by_cases hne : i = idx
      · subst hne
        rw [getD_get?_set_eq _ _ _ hlt] at hslot
        obtain rfl : fullReadNext b = c := Option.some.inj hslot
        exact ⟨hfs2, hfl2, hpos2, hctx2, hlen2⟩
      · rw [getD_get?_set_ne _ _ _ _ (Ne.symm hne)] at hslot
        exact hInv.wf i c hslot
    · intro p d hmem
      replace hmem : Msg.ok p d ∈ sentMsgs (s.events ++
          [Event.submitRead idx (fullReadNext b).path (fullReadNext b).buf.length
            (fullReadNext b).position]) := hmem
      rw [sentMsgs_append] at hmem
      rcases List.mem_append.mp hmem with hmem | hmem
      · exact hInv.sent_ok p d hmem
      · simp [sentMsgs] at hmem
    · intro p hmem
      replace hmem : Msg.err p ∈ sentMsgs (s.events ++
          [Event.submitRead idx (fullReadNext b).path (fullReadNext b).buf.length
            (fullReadNext b).position]) := hmem
      rw [sentMsgs_append] at hmem
      rcases List.mem_append.mp hmem with hmem | hmem
      · exact hInv.sent_err p hmem
      · simp [sentMsgs] at hmem
    · intro i p len off hmem
      replace hmem : Event.submitRead i p len off ∈ s.events ++
          [Event.submitRead idx (fullReadNext b).path (fullReadNext b).buf.length
            (fullReadNext b).position] := hmem
      rcases List.mem_append.mp hmem with hmem | hmem
      · exact hInv.submits i p len off hmem
      · simp at hmem
        obtain ⟨-, hp, hlen, hoff⟩ := hmem
        subst hp
        subst hlen
        subst hoff
        refine ⟨(fullReadNext b).contents, hfs2, ?_, ?_⟩
        · rw [← hfl2]
          exact hpos2
        · rw [← hfl2]
          exact hlen2
    · show (s.events ++
          [Event.submitRead idx (fullReadNext b).path (fullReadNext b).buf.length
            (fullReadNext b).position]).count Event.probe = 1
      simp [List.count_append, List.count_singleton, hInv.probe_once]
    · refine List.perm_iff_count.mpr fun a => ?_
      have hacct := hInv.acct.count_eq a
      have hifp1 := (hperm1.map Buffer.path).count_eq a
      have hifp2 := (hperm2.map Buffer.path).count_eq a
      show (files ++
          ((s.shared_buffers.set idx (some (fullReadNext b))).filterMap id).map Buffer.path ++
          sentPaths (s.events ++
            [Event.submitRead idx (fullReadNext b).path (fullReadNext b).buf.length
              (fullReadNext b).position])).count a = input.count a
      rw [sentPaths_append]
      have hsp : sentPaths
          [Event.submitRead idx (fullReadNext b).path (fullReadNext b).buf.length
            (fullReadNext b).position] = [] := rfl
      rw [hsp]
      simp only [List.count_append, List.map_cons, List.count_cons, List.count_nil,
        fullReadNext_path, inFlightPaths] at hacct hifp1 hifp2 ⊢
      by_cases hab : a = b.path <;> simp [hab, beq_iff_eq] at hacct hifp1 hifp2 ⊢ <;> omega
/-- Admitting a path whose open fails preserves the invariant: the error is
sent and the path leaves the pending list. -/
theorem refill_err_inv {fsys : FileSystem} {input : List FPath} {s : SState}
    {path : FPath} {more : List FPath}
    (hInv : Inv fsys input (path :: more) s) (hnew : Buffer.new fsys path = none) :
    Inv fsys input more
      { s with events := s.events ++ [.openErr path, .send (.err path)] } := by
  have hfsn : fsys path = none := Buffer.new_eq_none.mp hnew
  refine ⟨hInv.len_sb, hInv.nodup, hInv.free_lt, hInv.free_none, hInv.none_free,
    hInv.count_eq, hInv.wf, ?_, ?_, ?_, ?_, ?_⟩
  · intro p d hmem
    replace hmem : Msg.ok p d ∈ sentMsgs (s.events ++
        [Event.openErr path, Event.send (Msg.err path)]) := hmem
    rw [sentMsgs_append] at hmem
    rcases List.mem_append.mp hmem with hmem | hmem
    · exact hInv.sent_ok p d hmem
    · simp [sentMsgs] at hmem
  · intro p hmem
    replace hmem : Msg.err p ∈ sentMsgs (s.events ++
        [Event.openErr path, Event.send (Msg.err path)]) := hmem
    rw [sentMsgs_append] at hmem
    rcases List.mem_append.mp hmem with hmem | hmem
    · exact hInv.sent_err p hmem
    · simp [sentMsgs] at hmem
      exact hmem ▸ hfsn
  · intro i p len off hmem
    replace hmem : Event.submitRead i p len off ∈ s.events ++
        [Event.openErr path, Event.send (Msg.err path)] := hmem
    rcases List.mem_append.mp hmem with hmem | hmem
    · exact hInv.submits i p len off hmem
    · simp at hmem
  · show (s.events ++ [Event.openErr path, Event.send (Msg.err path)]).count
        Event.probe = 1
    simp [List.count_append, List.count_cons, hInv.probe_once]
  · refine List.perm_iff_count.mpr fun a => ?_
    have hacct := hInv.acct.count_eq a
    show (more ++ inFlightPaths s ++
        sentPaths (s.events ++ [Event.openErr path, Event.send (Msg.err path)])).count a =
        input.count a
    rw [sentPaths_append]
    have hsp : sentPaths [Event.openErr path, Event.send (Msg.err path)] = [path] := rfl
    rw [hsp]
    simp only [List.count_append, List.count_cons, List.count_singleton] at hacct ⊢
    by_cases hap : a = path <;> simp [hap, beq_iff_eq] at hacct ⊢ <;> omega

/-- Admitting a path into a free slot and submitting its first read
preserves the invariant. -/
theorem refill_ok_inv {fsys : FileSystem} {input : List FPath} {s : SState}
    {path : FPath} {more : List FPath} {free_idx : Nat} {rest : List Nat}
    {buffer : Buffer}
    (hInv : Inv fsys input (path :: more) s) (hfree : s.free_index_list = free_idx :: rest)
    (hnew : Buffer.new fsys path = some buffer) :
    Inv fsys input more
      (submit_for_read
        { s with free_index_list := rest,
                 shared_buffers := s.shared_buffers.set free_idx (some buffer),
                 events := s.events ++ [.openOk path] } buffer free_idx) := by
  obtain ⟨hwf, hbpath, hbpos⟩ := Buffer.new_wf hnew
  obtain ⟨hfs, hfl, hpos, hctx, hblen⟩ := hwf
  have hmemfree : free_idx ∈ s.free_index_list := hfree ▸ List.mem_cons_self _ _
  have hlt : free_idx < s.shared_buffers.length :=
    hInv.len_sb ▸ hInv.free_lt free_idx hmemfree
  have hslotn : slotAt s free_idx = none := hInv.free_none free_idx hmemfree
  have hget : s.shared_buffers.get? free_idx = some none :=
    slotAt_get?_of_none hlt hslotn
  have hnodup := hInv.nodup
  rw [hfree] at hnodup
  have hperm : List.Perm ((s.shared_buffers.set free_idx (some buffer)).filterMap id)
      (buffer :: s.shared_buffers.filterMap id) :=
    filterMap_set_some_perm _ _ _ hget
  refine ⟨?_, ?_, ?_, ?_, ?_, ?_, ?_, ?_, ?_, ?_, ?_, ?_⟩
  · show (s.shared_buffers.set free_idx (some buffer)).length = RING_SIZE
    simpa using hInv.len_sb
  · exact hnodup.of_cons
  · intro i hi
    exact hInv.free_lt i (hfree ▸ List.mem_cons_of_mem _ hi)
  · intro i hi
    have hne : i ≠ free_idx := fun he => (List.nodup_cons.mp hnodup).1 (he ▸ hi)
    show ((s.shared_buffers.set free_idx (some buffer)).get? i).getD none = none
    rw [getD_get?_set_ne _ _ _ _ (Ne.symm hne)]
    exact hInv.free_none i (hfree ▸ List.mem_cons_of_mem _ hi)
  · intro i hilt hslot
    replace hslot : ((s.shared_buffers.set free_idx (some buffer)).get? i).getD none =
        none := hslot
    by_cases hne : i = free_idx
    · subst hne
      rw [getD_get?_set_eq _ _ _ hlt] at hslot
      exact Option.noConfusion hslot
    · rw [getD_get?_set_ne _ _ _ _ (Ne.symm hne)] at hslot
      have := hInv.none_free i hilt hslot
      rw [hfree] at this
      rcases List.mem_cons.mp this with rfl | h
      · exact absurd rfl hne
      · exact h
  · have hc := hInv.count_eq
    have hl := hperm.length_eq
    rw [hfree] at hc
    simp only [occupiedCount, submit_for_read, List.length_cons] at hc hl ⊢
    omega
  · intro i c hslot
    replace hslot : ((s.shared_buffers.set free_idx (some buffer)).get? i).getD none =
        some c := hslot
    by_cases hne : i = free_idx
    · subst hne
      rw [getD_get?_set_eq _ _ _ hlt] at hslot
      obtain rfl : buffer = c := Option.some.inj hslot
      exact ⟨hfs, hfl, hpos, hctx, hblen⟩
    · rw [getD_get?_set_ne _ _ _ _ (Ne.symm hne)] at hslot
      exact hInv.wf i c hslot
  · intro p d hmem
    replace hmem : Msg.ok p d ∈ sentMsgs ((s.events ++ [Event.openOk path]) ++
        [Event.submitRead free_idx buffer.path buffer.buf.length buffer.position]) := hmem
    rw [sentMsgs_append, sentMsgs_append] at hmem
    rcases List.mem_append.mp hmem with hmem | hmem
    · rcases List.mem_append.mp hmem with hmem | hmem
      · exact hInv.sent_ok p d hmem
      · simp [sentMsgs] at hmem
    · simp [sentMsgs] at hmem
  · intro p hmem
    replace hmem : Msg.err p ∈ sentMsgs ((s.events ++ [Event.openOk path]) ++
        [Event.submitRead free_idx buffer.path buffer.buf.length buffer.position]) := hmem
    rw [sentMsgs_append, sentMsgs_append] at hmem
    rcases List.mem_append.mp hmem with hmem | hmem
    · rcases List.mem_append.mp hmem with hmem | hmem
      · exact hInv.sent_err p hmem
      · simp [sentMsgs] at hmem
    · simp [sentMsgs] at hmem
  · intro i p len off hmem
    replace hmem : Event.submitRead i p len off ∈ (s.events ++ [Event.openOk path]) ++
        [Event.submitRead free_idx buffer.path buffer.buf.length buffer.position] := hmem
    rcases List.mem_append.mp hmem with hmem | hmem
    · rcases List.mem_append.mp hmem with hmem | hmem
      · exact hInv.submits i p len off hmem
      · simp at hmem
    · simp at hmem
      obtain ⟨-, hp, hlen, hoff⟩ := hmem
      subst hp
      subst hlen
      subst hoff
      refine ⟨buffer.contents, hfs, ?_, ?_⟩
      · rw [hbpos]
        omega
      · rw [hblen, hbpos, hfl]
  · show ((s.events ++ [Event.openOk path]) ++
        [Event.submitRead free_idx buffer.path buffer.buf.length buffer.position]).count
        Event.probe = 1
    simp [List.count_append, List.count_singleton, hInv.probe_once]
  · refine List.perm_iff_count.mpr fun a => ?_
    have hacct := hInv.acct.count_eq a
    have hifp := (hperm.map Buffer.path).count_eq a
    show (more ++ ((s.shared_buffers.set free_idx (some buffer)).filterMap id).map
        Buffer.path ++
        sentPaths ((s.events ++ [Event.openOk path]) ++
          [Event.submitRead free_idx buffer.path buffer.buf.length
            buffer.position])).count a = input.count a
    rw [sentPaths_append, sentPaths_append]
    have hsp1 : sentPaths [Event.openOk path] = [] := rfl
    have hsp2 : sentPaths
        [Event.submitRead free_idx buffer.path buffer.buf.length buffer.position] =
        [] := rfl
    rw [hsp1, hsp2]
    simp only [List.count_append, List.count_cons, List.count_nil, List.map_cons,
      List.append_nil, inFlightPaths] at hacct hifp ⊢
    rw [hbpath] at hifp
    by_cases hap : a = path <;> simp [hap, beq_iff_eq] at hacct hifp ⊢ <;> omega

/-- The refill phase preserves the invariant, at its result and at every
intermediate state. -/
theorem refill_inv {fsys : FileSystem} {input : List FPath} (files : List FPath)
    (s : SState) (q : Bool) (hInv : Inv fsys input files s) :
    Inv fsys input (refill fsys files s q).1 (refill fsys files s q).2.1 ∧
      ∀ x ∈ (refill fsys files s q).2.2.2, ∃ fs', Inv fsys input fs' x := by
  induction files, s, q using refill.induct fsys with
  | case1 files s q hfree =>
    rw [refill]
    simp only [hfree]
    exact ⟨hInv, by simp⟩
  | case2 s q free_idx rest hfree =>
    rw [refill]
    simp only [hfree]
    exact ⟨hInv, by simp⟩
  | case3 s q free_idx rest hfree path more hnew s' ih =>
    rw [refill]
    simp only [hfree, hnew]
    rw [← hfree]
    have hInv' : Inv fsys input more s' := refill_err_inv hInv hnew
    obtain ⟨h1, h2⟩ := ih hInv'
    refine ⟨h1, fun x hx => ?_⟩
    rcases List.mem_cons.mp hx with rfl | hx
    · exact ⟨more, hInv'⟩
    · exact h2 x hx
  | case4 s q free_idx rest hfree path more buffer hnew s1 s2 ih =>
    rw [refill]
    simp only [hfree, hnew]
    have hInv' : Inv fsys input more s2 := refill_ok_inv hInv hfree hnew
    obtain ⟨h1, h2⟩ := ih hInv'
    refine ⟨h1, fun x hx => ?_⟩
    rcases List.mem_cons.mp hx with rfl | hx
    · exact ⟨more, hInv'⟩
    · exact h2 x hx

/-- The wait-and-handle step preserves the invariant for every completion
choice. -/
theorem swhr_inv {fsys : FileSystem} {input files : List FPath} {s : SState}
    (hInv : Inv fsys input files s) (choice : Nat) :
    Inv fsys input files (submit_wait_and_handle_result s choice) := by
  unfold submit_wait_and_handle_result
  cases hocc : occupiedIndices s with
  | nil => exact hInv
  | cons i rest =>
    have hlen : choice % (i :: rest).length < (i :: rest).length :=
      Nat.mod_lt _ (by simp)
    have hmem : (i :: rest).getD (choice % (i :: rest).length) 0 ∈ i :: rest := by
      rw [List.getD_eq_get _ _ hlen]
      exact List.get_mem _ _ _
    have hmem2 : (i :: rest).getD (choice % (i :: rest).length) 0 ∈ occupiedIndices s := by
      rw [hocc]
      exact hmem
    have hsome := (List.mem_filter.mp hmem2).2
    obtain ⟨b, hb⟩ := Option.isSome_iff_exists.mp hsome
    show Inv fsys input files
      (handle_result s ((i :: rest).getD (choice % (i :: rest).length) 0)
        (requestedAt s ((i :: rest).getD (choice % (i :: rest).length) 0)))
    have hreq : requestedAt s ((i :: rest).getD (choice % (i :: rest).length) 0) =
        b.buf.length := by
      unfold requestedAt
      rw [hb]
    rw [hreq]
    exact handle_result_full_inv hb hInv

/-- The wait-and-handle step never touches the pending path list (which is
a separate local); `drain` preserves the invariant at the same pending
list. -/
theorem drain_inv {fsys : FileSystem} {input files : List FPath} (choices : Nat → Nat) :
    ∀ fuel t s, Inv fsys input files s →
      Inv fsys input files (drain choices fuel t s).2.1 ∧
        ∀ x ∈ (drain choices fuel t s).2.2, Inv fsys input files x := by
  intro fuel
  induction fuel with
  | zero =>
    intro t s h
    unfold drain
    split <;> exact ⟨h, by simp⟩
  | succ fuel ih =>
    intro t s h
    unfold drain
    split
    · obtain ⟨h1, h2⟩ := ih (t + 1) _ (swhr_inv h (choices t))
      refine ⟨h1, fun x hx => ?_⟩
      rcases List.mem_cons.mp hx with rfl | hx
      · exact swhr_inv h (choices t)
      · exact h2 x hx
    · exact ⟨h, by simp⟩

/-- The main loop preserves the invariant, at the final state and at every
state of the trace. -/
theorem runLoop_inv {fsys : FileSystem} {input : List FPath} (choices : Nat → Nat) :
    ∀ fuel t files s, Inv fsys input files s →
      Inv fsys input (runLoop fsys choices fuel t files s).2.1
        (runLoop fsys choices fuel t files s).2.2.1 ∧
        ∀ x ∈ (runLoop fsys choices fuel t files s).2.2.2,
          ∃ fs', Inv fsys input fs' x := by
  intro fuel
  induction fuel with
  | zero =>
    intro t files s h
    exact ⟨h, by simp [runLoop]⟩
  | succ fuel ih =>
    intro t files s h
    rw [runLoop]
    obtain ⟨h1, h2⟩ := refill_inv files s false h
    split
    · obtain ⟨h3, h4⟩ := ih (t + 1) (refill fsys files s false).1
        (submit_wait_and_handle_result (refill fsys files s false).2.1 (choices t))
        (swhr_inv h1 (choices t))
      refine ⟨h3, fun x hx => ?_⟩
      rcases List.mem_append.mp hx with hx | hx
      · exact h2 x hx
      · rcases List.mem_cons.mp hx with rfl | hx
        · exact ⟨(refill fsys files s false).1, swhr_inv h1 (choices t)⟩
        · exact h4 x hx
    · obtain ⟨h3, h4⟩ := drain_inv choices fuel t (refill fsys files s false).2.1 h1
      refine ⟨h3, fun x hx => ?_⟩
      rcases List.mem_append.mp hx with hx | hx
      · exact h2 x hx
      · exact ⟨(refill fsys files s false).1, h4 x hx⟩

/-- The invariant holds at the initial state, with the whole input
pending. -/
theorem initState_inv (fsys : FileSystem) (input : List FPath) :
    Inv fsys input input initState := by
  refine ⟨?_, ?_, ?_, ?_, ?_, ?_, ?_, ?_, ?_, ?_, ?_, ?_⟩
  · simp [initState, RING_SIZE]
  · simp [initState, List.nodup_range]
  · intro i hi
    simpa [initState, List.mem_range] using hi
  · intro i hi
    exact getD_get?_replicate_none RING_SIZE i
  · intro i hi hslot
    simp [initState, List.mem_range, hi]
  · simp [initState, occupiedCount, List.filterMap_replicate]
  · intro i b hslot
    rw [show slotAt initState i =
        ((List.replicate RING_SIZE (none : Option Buffer)).get? i).getD none from rfl,
      getD_get?_replicate_none] at hslot
    exact Option.noConfusion hslot
  · intro p d hmem
    simp [initState, sentMsgs] at hmem
  · intro p hmem
    simp [initState, sentMsgs] at hmem
  · intro i p len off hmem
    simp [initState] at hmem
  · rfl
  · simp [initState, inFlightPaths, sentPaths, sentMsgs, List.filterMap_replicate]

/-- `drain` only reports `done` once every slot is back on the free
list. -/
theorem drain_done (choices : Nat → Nat) :
    ∀ fuel t s, (drain choices fuel t s).1 = .done →
      ¬ ((drain choices fuel t s).2.1.free_index_list.length < RING_SIZE) := by
  intro fuel
  induction fuel with
  | zero =>
    intro t s h
    by_cases hlt : s.free_index_list.length < RING_SIZE
    · rw [drain, if_pos hlt] at h
      simp at h
    · rw [drain, if_neg hlt]
      simpa using hlt
  | succ fuel ih =>
    intro t s h
    by_cases hlt : s.free_index_list.length < RING_SIZE
    · rw [drain, if_pos hlt] at h ⊢
      exact ih (t + 1) _ h
    · rw [drain, if_neg hlt]
      simpa using hlt

/-- A `done` run has drained the pending list and freed every slot. -/
theorem runLoop_done {fsys : FileSystem} (choices : Nat → Nat) :
    ∀ fuel t files s, (runLoop fsys choices fuel t files s).1 = .done →
      (runLoop fsys choices fuel t files s).2.1 = [] ∧
      ¬ ((runLoop fsys choices fuel t files s).2.2.1.free_index_list.length <
          RING_SIZE) := by
  intro fuel
  induction fuel with
  | zero =>
    intro t files s h
    rw [runLoop] at h
    simp at h
  | succ fuel ih =>
    intro t files s h
    by_cases hcond : ((refill fsys files s false).2.2.1 ||
        !(refill fsys files s false).1.isEmpty) = true
    · simp only [runLoop, hcond, if_true] at h ⊢
      exact ih (t + 1) _ _ h
    · have hf : ((refill fsys files s false).2.2.1 ||
          !(refill fsys files s false).1.isEmpty) = false := by
        revert hcond
        cases ((refill fsys files s false).2.2.1 ||
            !(refill fsys files s false).1.isEmpty) <;> simp
      have hempty : (refill fsys files s false).1 = [] := by
        rw [Bool.or_eq_false_iff] at hf
        have h2 := hf.2
        cases hE : (refill fsys files s false).1 with
        | nil => rfl
        | cons a l =>
          rw [hE] at h2
          simp at h2
      simp only [runLoop, hf, Bool.false_eq_true, if_false] at h ⊢
      exact ⟨hempty, drain_done choices fuel t _ h⟩

/-- With the pending list empty and every slot free, the channel
transcript is a permutation of the input. -/
theorem final_sent_perm {fsys : FileSystem} {input : List FPath} {s : SState}
    (hInv : Inv fsys input [] s)
    (hfree : ¬ (s.free_index_list.length < RING_SIZE)) :
    List.Perm (sentPaths s.events) input := by
  have hc := hInv.count_eq
  have hocc : occupiedCount s = 0 := by omega
  have hnil : s.shared_buffers.filterMap id = [] := List.length_eq_zero.mp hocc
  have hifp : inFlightPaths s = [] := by simp [inFlightPaths, hnil]
  have hacct := hInv.acct
  rw [hifp] at hacct
  simpa using hacct

/-- With `Read` supported, `get_checksums` runs the scheduler loop. -/
theorem get_checksums_read_eq {probe : Probe} (fsys : FileSystem)
    (choices : Nat → Nat) (files : List FPath) (fuel : Nat)
    (hread : probe.read = true) :
    get_checksums probe fsys choices files fuel =
      ((runLoop fsys choices fuel 0 files initState).1,
       (runLoop fsys choices fuel 0 files initState).2.1,
       (runLoop fsys choices fuel 0 files initState).2.2.1,
       initState :: (runLoop fsys choices fuel 0 files initState).2.2.2) := by
  simp [get_checksums, hread]

/-- Every state of a run's trace satisfies the invariant for some pending
list. -/
theorem get_checksums_trace_inv {probe : Probe} (fsys : FileSystem)
    (choices : Nat → Nat) (files : List FPath) (fuel : Nat)
    (hread : probe.read = true) :
    ∀ x ∈ (get_checksums probe fsys choices files fuel).2.2.2,
      ∃ fs', Inv fsys files fs' x := by
  rw [get_checksums_read_eq fsys choices files fuel hread]
  intro x hx
  rcases List.mem_cons.mp hx with rfl | hx
  · exact ⟨files, initState_inv fsys files⟩
  · exact (runLoop_inv choices fuel 0 files initState (initState_inv fsys files)).2 x hx

/-- The final state of a run satisfies the invariant at the leftover
pending list. -/
theorem get_checksums_final_inv {probe : Probe} (fsys : FileSystem)
    (choices : Nat → Nat) (files : List FPath) (fuel : Nat)
    (hread : probe.read = true) :
    Inv fsys files (get_checksums probe fsys choices files fuel).2.1
      (get_checksums probe fsys choices files fuel).2.2.1 := by
  rw [get_checksums_read_eq fsys choices files fuel hread]
  exact (runLoop_inv choices fuel 0 files initState (initState_inv fsys files)).1

/-- A `done` run drained the pending list, freed every slot, and its
channel transcript is a permutation of the input. -/
theorem get_checksums_done_perm {probe : Probe} (fsys : FileSystem)
    (choices : Nat → Nat) (files : List FPath) (fuel : Nat)
    (hread : probe.read = true)
    (hdone : (get_checksums probe fsys choices files fuel).1 = .done) :
    Inv fsys files [] (get_checksums probe fsys choices files fuel).2.2.1 ∧
    List.Perm
      (sentPaths (get_checksums probe fsys choices files fuel).2.2.1.events) files := by
  have heq := @get_checksums_read_eq probe fsys choices files fuel hread
  rw [heq] at hdone ⊢
  obtain ⟨hempty, hfree⟩ := runLoop_done choices fuel 0 files initState hdone
  have hInv := (runLoop_inv choices fuel 0 files initState (initState_inv fsys files)).1
  rw [hempty] at hInv
  exact ⟨hInv, final_sent_perm hInv hfree⟩

/-- In an invariant state, every success message for a readable file
carries exactly the sequential digest of the file's contents. -/
theorem sent_ok_unique {fsys : FileSystem} {input files : List FPath} {s : SState}
    (hInv : Inv fsys input files s) {p : FPath} {c : List Byte}
    (hfs : fsys p = some c) :
    ∀ d, Msg.ok p d ∈ sentMsgs s.events → d = Md5.mk c := by
  intro d hm
  have hd := hInv.sent_ok p d hm
  rw [hfs] at hd
  obtain rfl : d.fed = c := (Option.some.inj hd).symm
  rfl

/-- In a final invariant state whose transcript covers the input, every
readable input file received its success message. -/
theorem sent_ok_mem {fsys : FileSystem} {input : List FPath} {s : SState}
    (hInv : Inv fsys input [] s)
    (hperm : List.Perm (sentPaths s.events) input) {p : FPath} {c : List Byte}
    (hp : p ∈ input) (hfs : fsys p = some c) :
    Msg.ok p (Md5.mk c) ∈ sentMsgs s.events := by
  have hmem : p ∈ sentPaths s.events := hperm.mem_iff.mpr hp
  obtain ⟨m, hm, hmp⟩ := List.mem_map.mp hmem
  cases m with
  | err q =>
    obtain rfl : p = q := hmp.symm
    have := hInv.sent_err p hm
    rw [hfs] at this
    exact Option.noConfusion this
  | ok q d =>
    obtain rfl : p = q := hmp.symm
    have hd := hInv.sent_ok p d hm
    rw [hfs] at hd
    obtain rfl : d.fed = c := (Option.some.inj hd).symm
    exact hm

/-- In a final invariant state whose transcript covers the input, every
unreadable input path received its error message. -/
theorem sent_err_mem {fsys : FileSystem} {input : List FPath} {s : SState}
    (hInv : Inv fsys input [] s)
    (hperm : List.Perm (sentPaths s.events) input) {p : FPath}
    (hp : p ∈ input) (hfs : fsys p = none) :
    Msg.err p ∈ sentMsgs s.events := by
  have hmem : p ∈ sentPaths s.events := hperm.mem_iff.mpr hp
  obtain ⟨m, hm, hmp⟩ := List.mem_map.mp hmem
  cases m with
  | err q =>
    obtain rfl : p = q := hmp.symm
    exact hm
  | ok q d =>
    obtain rfl : p = q := hmp.symm
    have := hInv.sent_ok p d hm
    rw [hfs] at this
    exact Option.noConfusion this

end SimpleUring

namespace WithRegisterFiles

/-! ## src/with_register_files.rs

Differences from `simple_uring`: every file is opened and statted in a
pre-loop pass (`files.into_iter().filter_map(Buffer::new)`), the collected
raw fds are registered with the ring, reads target `types::Fixed(file_idx)`
and the read buffer is a `Box<AlignedBuffer>`.  The `.rev()` before
collecting and the `Vec::pop` in the loop cancel out, so the model keeps
the collected buffers in input order and pops from the front. -/

/-- src/with_register_files.rs `struct Buffer`. -/
structure Buffer where
  path : FPath
  contents : List Byte
  file_len : Nat
  buf : AlignedBuffer
  position : Nat
  ctx : Md5
  file_idx : Nat

/-- `Buffer::set_buffer_size`: `buf.resize(min(file_len - position,
MAX_READ_SIZE))`.  The argument is at most `MAX_READ_SIZE`, so the
assertion inside `resize` cannot fire; the `getD` fallback is dead code
(see `set_buffer_size_resize_some_rf`). -/
def Buffer.set_buffer_size (b : Buffer) : Buffer :=
  let needed_bytes := min (b.file_len - b.position) MAX_READ_SIZE
  { b with buf := (b.buf.resize needed_bytes).getD b.buf }

/-- The engine's only `resize` calls pass `min _ MAX_READ_SIZE ≤
MAX_READ_SIZE`, so the panic branch is unreachable. -/
theorem set_buffer_size_resize_some_rf (b : Buffer) :
    b.buf.resize (min (b.file_len - b.position) MAX_READ_SIZE) =
      some { b.buf with len := min (b.file_len - b.position) MAX_READ_SIZE } := by
  unfold AlignedBuffer.resize
  rw [if_pos (Nat.min_le_right _ _)]

theorem set_buffer_size_eq_rf (b : Buffer) :
    Buffer.set_buffer_size b =
      { b with buf :=
          { b.buf with len := min (b.file_len - b.position) MAX_READ_SIZE } } := by
  unfold Buffer.set_buffer_size
  simp only [set_buffer_size_resize_some_rf, Option.getD_some]

/-- `Buffer::new`: open (honouring `o_direct`), stat, fresh digest, size
the buffer.  `none` models the `?` error. -/
def Buffer.new (fsys : FileSystem) (path : FPath) (file_idx : Nat)
    (o_direct : Bool) : Option Buffer :=
  match fsys path with
  | none => none
  | some contents =>
      some (Buffer.set_buffer_size
        { path := path, contents := contents, file_len := contents.length,
          buf := AlignedBuffer.new, position := 0, ctx := Md5.new,
          file_idx := file_idx })

/-- Scheduler state: slot table, free-index list, event log. -/
structure SState where
  shared_buffers : List (Option Buffer)
  free_index_list : List Nat
  events : List Event

/-- The slot table entry at index `i`. -/
def slotAt (s : SState) (i : Nat) : Option Buffer :=
  (s.shared_buffers.get? i).getD none

/-- The number of occupied slots. -/
def occupiedCount (s : SState) : Nat :=
  (s.shared_buffers.filterMap id).length

/-- Paths of the files currently in flight. -/
def inFlightPaths (s : SState) : List FPath :=
  (s.shared_buffers.filterMap id).map Buffer.path

/-- `submit_for_read`: queue a read of the slot's current logical buffer
length at the slot's offset, tagged with the slot index (the fd goes
through `types::Fixed(file_idx)`, which does not change the transfer). -/
def submit_for_read (s : SState) (b : Buffer) (idx : Nat) : SState :=
  { s with events := s.events ++ [.submitRead idx b.path b.buf.len b.position] }

/-- The pre-loop pass: open and stat every path, assigning consecutive file
indices and emitting an error for every failure.  Returns the opened
buffers in input order and the events of the pass in chronological
order. -/
def setupFiles (fsys : FileSystem) (o_direct : Bool) :
    List FPath → Nat → List Buffer × List Event
  | [], _ => ([], [])
  | path :: more, file_idx =>
    match Buffer.new fsys path file_idx o_direct with
    | some buffer =>
        let r := setupFiles fsys o_direct more (file_idx + 1)
        (buffer :: r.1, .openOk path :: r.2)
    | none =>
        let r := setupFiles fsys o_direct more file_idx
        (r.1, .openErr path :: .send (.err path) :: r.2)

/-- The refill phase: admit pre-opened files (`files.pop()`) into free
slots and submit their first read. -/
def refill (files : List Buffer) (s : SState) (queued : Bool) :
    List Buffer × SState × Bool × List SState :=
  match s.free_index_list with
  | [] => (files, s, queued, [])
  | free_idx :: rest =>
    match files with
    | [] =>
        -- no file left: push the index back and break
        (files, s, queued, [])
    | buffer :: more =>
        let s1 : SState :=
          { s with free_index_list := rest,
                   shared_buffers := s.shared_buffers.set free_idx (some buffer) }
        let s2 := submit_for_read s1 buffer free_idx
        let r := refill more s2 true
        (r.1, r.2.1, r.2.2.1, s2 :: r.2.2.2)

/-- The indices of the occupied slots. -/
def occupiedIndices (s : SState) : List Nat :=
  (List.range RING_SIZE).filter fun i => (slotAt s i).isSome

/-- The body of `submit_wait_and_handle_result` for a completion on slot
`completed_idx` whose read transferred `k` bytes: the kernel wrote the
bytes into the aligned buffer; the code advances the cursor by the full
logical buffer length, feeds the whole deref'd buffer to the digest,
resizes, and frees or resubmits.  The transferred count is never read from
the completion entry. -/
def handle_result (s : SState) (completed_idx : Nat) (k : Nat) : SState :=
  match slotAt s completed_idx with
  | none => s
  | some buffer =>
      let written :=
        (buffer.contents.drop buffer.position).take (min k buffer.buf.len)
      let b1 : Buffer := { buffer with buf := buffer.buf.writeBytes written }
      -- buffer.position += buffer.buf.len() as u64;
      let b2 : Buffer := { b1 with position := b1.position + b1.buf.len }
      -- buffer.ctx.update(&*buffer.buf);
      let b3 : Buffer := { b2 with ctx := b2.ctx.update b2.buf.bytes }
      -- buffer.set_buffer_size();
      let b4 := Buffer.set_buffer_size b3
      if b4.buf.len = 0 then
        { s with shared_buffers := s.shared_buffers.set completed_idx none,
                 free_index_list := completed_idx :: s.free_index_list,
                 events := s.events ++ [.send (.ok b4.path b4.ctx)] }
      else
        let s1 : SState :=
          { s with shared_buffers := s.shared_buffers.set completed_idx (some b4) }
        submit_for_read s1 b4 completed_idx

/-- The requested length of the read in flight on slot `i`. -/
def requestedAt (s : SState) (i : Nat) : Nat :=
  match slotAt s i with
  | none => 0
  | some b => b.buf.len

/-- `submit_wait_and_handle_result` under the full-transfer assumption. -/
def submit_wait_and_handle_result (s : SState) (choice : Nat) : SState :=
  match occupiedIndices s with
  | [] => s
  | i :: rest =>
      let occ := i :: rest
      let completed_idx := occ.getD (choice % occ.length) 0
      handle_result s completed_idx (requestedAt s completed_idx)

/-- The final drain loop. -/
def drain (choices : Nat → Nat) :
    Nat → Nat → SState → Outcome × SState × List SState
  | 0, _, s =>
      if s.free_index_list.length < RING_SIZE then (.fuelOut, s, [])
      else (.done, s, [])
  | fuel + 1, t, s =>
      if s.free_index_list.length < RING_SIZE then
        let s' := submit_wait_and_handle_result s (choices t)
        let r := drain choices fuel (t + 1) s'
        (r.1, r.2.1, s' :: r.2.2)
      else (.done, s, [])

/-- The main loop. -/
def runLoop (choices : Nat → Nat) :
    Nat → Nat → List Buffer → SState → Outcome × List Buffer × SState × List SState
  | 0, _, files, s => (.fuelOut, files, s, [])
  | fuel + 1, t, files, s =>
      let rf := refill files s false
      let files1 := rf.1
      let s1 := rf.2.1
      if rf.2.2.1 || !files1.isEmpty then
        let s2 := submit_wait_and_handle_result s1 (choices t)
        let r := runLoop choices fuel (t + 1) files1 s2
        (r.1, r.2.1, r.2.2.1, rf.2.2.2 ++ s2 :: r.2.2.2)
      else
        let r := drain choices fuel t s1
        (r.1, files1, r.2.1, rf.2.2.2 ++ r.2.2)

/-- The empty slot table and full free list (indices `15, …, 0`). -/
def initState (events : List Event) : SState :=
  { shared_buffers := List.replicate RING_SIZE none,
    free_index_list := (List.range RING_SIZE).reverse,
    events := events }

/-- `with_register_files::get_checksums`: two probe checks, pre-open all
files, register the fds, then run the loop.  `register_files` is called
unconditionally; `io_uring_register` with zero files fails with `EINVAL`,
so a run in which no file opened successfully errors out (after the
per-file error messages have been sent). -/
def get_checksums (probe : Probe) (fsys : FileSystem) (choices : Nat → Nat)
    (files : List FPath) (o_direct : Bool) (fuel : Nat) :
    Outcome × List Buffer × SState × List SState :=
  if !probe.read then
    (.fatal "Reading files is not supported. Try a newer kernel.", [],
      initState [.probe], [])
  else if !probe.register_files then
    (.fatal "Registering files is not supported. Try a newer kernel.", [],
      initState [.probe], [])
  else
    let su := setupFiles fsys o_direct files 0
    let s0 := initState (Event.probe :: su.2)
    if su.1.isEmpty then
      (.fatal "register_files: Invalid argument", su.1, s0, [])
    else
      let r := runLoop choices fuel 0 su.1 s0
      (r.1, r.2.1, r.2.2.1, s0 :: r.2.2.2)

/-- Files the process currently holds open: every pre-opened pending
buffer plus every buffer bound to a slot (each wraps a `File` handle that
is dropped only when its result is sent). -/
def openFileCount (files : List Buffer) (s : SState) : Nat :=
  files.length + occupiedCount s

/-! ### Scheduler invariant for with_register_files -/

/-- Well-formedness of a per-file state. -/
def BufferWF (fsys : FileSystem) (b : Buffer) : Prop :=
  fsys b.path = some b.contents ∧
  b.file_len = b.contents.length ∧
  b.position ≤ b.file_len ∧
  b.ctx = Md5.mk (b.contents.take b.position) ∧
  b.buf.len = min (b.file_len - b.position) MAX_READ_SIZE

/-- The scheduler loop invariant; `files` is the pre-opened pending list
(in admission order). -/
structure Inv (fsys : FileSystem) (input : List FPath) (files : List Buffer)
    (s : SState) : Prop where
  len_sb : s.shared_buffers.length = RING_SIZE
  nodup : s.free_index_list.Nodup
  free_lt : ∀ i ∈ s.free_index_list, i < RING_SIZE
  free_none : ∀ i ∈ s.free_index_list, slotAt s i = none
  none_free : ∀ i, i < RING_SIZE → slotAt s i = none → i ∈ s.free_index_list
  count_eq : s.free_index_list.length + occupiedCount s = RING_SIZE
  pend_wf : ∀ b ∈ files, BufferWF fsys b
  wf : ∀ i b, slotAt s i = some b → BufferWF fsys b
  sent_ok : ∀ p d, Msg.ok p d ∈ sentMsgs s.events → fsys p = some d.fed
  sent_err : ∀ p, Msg.err p ∈ sentMsgs s.events → fsys p = none
  submits : ∀ i p len off, Event.submitRead i p len off ∈ s.events →
      ∃ c, fsys p = some c ∧ off ≤ c.length ∧ len = min (c.length - off) MAX_READ_SIZE
  probe_once : s.events.count Event.probe = 1
  acct : List.Perm (files.map Buffer.path ++ inFlightPaths s ++ sentPaths s.events) input

theorem slotAt_get?_of_some_rf {s : SState} {i : Nat} {b : Buffer}
    (h : slotAt s i = some b) : s.shared_buffers.get? i = some (some b) := by
  unfold slotAt at h
  cases hg : s.shared_buffers.get? i with
  | none => rw [hg] at h; simp at h
  | some v =>
    rw [hg] at h
    simp only [Option.getD_some] at h
    exact congrArg some h

theorem slotAt_lt_of_some_rf {s : SState} {i : Nat} {b : Buffer}
    (h : slotAt s i = some b) : i < s.shared_buffers.length :=
  List.get?_eq_some.mp (slotAt_get?_of_some_rf h) |>.1

/-- `Buffer::new` produces a well-formed state whenever it succeeds. -/
theorem Buffer.new_wf_rf {fsys : FileSystem} {path : FPath} {fi : Nat} {od : Bool}
    {b : Buffer} (h : Buffer.new fsys path fi od = some b) :
    BufferWF fsys b ∧ b.path = path ∧ b.position = 0 := by
  unfold Buffer.new at h
  cases hf : fsys path with
  | none => rw [hf] at h; simp at h
  | some contents =>
    rw [hf] at h
    simp only [Option.some.injEq] at h
    subst h
    rw [set_buffer_size_eq_rf]
    exact ⟨⟨hf, rfl, Nat.zero_le _, rfl, rfl⟩, rfl, rfl⟩

/-- `Buffer::new` fails exactly when the path cannot be opened. -/
theorem Buffer.new_eq_none_rf {fsys : FileSystem} {path : FPath} {fi : Nat}
    {od : Bool} : Buffer.new fsys path fi od = none ↔ fsys path = none := by
  unfold Buffer.new
  cases hf : fsys path <;> simp

/-- The per-file state after a full-length read completion is handled
(proof-side abbreviation). -/
def fullReadNext (b : Buffer) : Buffer :=
  let written := (b.contents.drop b.position).take b.buf.len
  Buffer.set_buffer_size
    { b with buf := b.buf.writeBytes written,
             position := b.position + b.buf.len,
             ctx := b.ctx.update written }

theorem written_length_rf {b : Buffer}
    (hwlen : b.buf.len ≤ b.contents.length - b.position) :
    ((b.contents.drop b.position).take b.buf.len).length = b.buf.len := by
  simp only [List.length_take, List.length_drop]
  omega

theorem handle_result_full_eq_rf {s : SState} {idx : Nat} {b : Buffer}
    (hb : slotAt s idx = some b)
    (hwlen : b.buf.len ≤ b.contents.length - b.position) :
    handle_result s idx b.buf.len =
      if (fullReadNext b).buf.len = 0 then
        { s with shared_buffers := s.shared_buffers.set idx none,
                 free_index_list := idx :: s.free_index_list,
                 events := s.events ++
                   [.send (.ok (fullReadNext b).path (fullReadNext b).ctx)] }
      else
        submit_for_read
          { s with shared_buffers := s.shared_buffers.set idx (some (fullReadNext b)) }
          (fullReadNext b) idx := by
  have hw := written_length_rf hwlen
  have hbytes : (b.buf.writeBytes
      ((b.contents.drop b.position).take b.buf.len)).bytes =
      (b.contents.drop b.position).take b.buf.len :=
    AlignedBuffer.writeBytes_bytes _ _ hw
  unfold handle_result fullReadNext
  rw [hb]
  simp only [min_self, AlignedBuffer.writeBytes_len, hbytes]

theorem fullReadNext_path_rf (b : Buffer) : (fullReadNext b).path = b.path := rfl

theorem fullReadNext_contents_rf (b : Buffer) :
    (fullReadNext b).contents = b.contents := rfl

theorem fullReadNext_file_len_rf (b : Buffer) :
    (fullReadNext b).file_len = b.file_len := rfl

theorem fullReadNext_position_rf (b : Buffer) :
    (fullReadNext b).position = b.position + b.buf.len := rfl

theorem fullReadNext_ctx_rf (b : Buffer) :
    (fullReadNext b).ctx = b.ctx.update ((b.contents.drop b.position).take b.buf.len) := by
  unfold fullReadNext
  rw [set_buffer_size_eq_rf]

theorem fullReadNext_buf_len_rf (b : Buffer) :
    (fullReadNext b).buf.len =
      min (b.file_len - (b.position + b.buf.len)) MAX_READ_SIZE := by
  unfold fullReadNext
  rw [set_buffer_size_eq_rf]

/-- A full read keeps the per-file state well formed. -/
theorem fullReadNext_wf_rf {fsys : FileSystem} {b : Buffer} (h : BufferWF fsys b) :
    BufferWF fsys (fullReadNext b) := by
  obtain ⟨hfs, hfl, hpos, hctx, hblen⟩ := h
  refine ⟨?_, ?_, ?_, ?_, ?_⟩
  · rw [fullReadNext_path_rf, fullReadNext_contents_rf]
    exact hfs
  · rw [fullReadNext_file_len_rf, fullReadNext_contents_rf]
    exact hfl
  · rw [fullReadNext_position_rf, fullReadNext_file_len_rf]
    omega
  · rw [fullReadNext_ctx_rf, fullReadNext_contents_rf, fullReadNext_position_rf, hctx]
    show Md5.mk (b.contents.take b.position ++ _) = _
    rw [← List.take_add]
  · rw [fullReadNext_buf_len_rf, fullReadNext_position_rf, fullReadNext_file_len_rf]

/-- When the resized buffer is empty the file is fully digested. -/
theorem fullReadNext_finished_rf {fsys : FileSystem} {b : Buffer}
    (h : BufferWF fsys b) (h0 : (fullReadNext b).buf.len = 0) :
    (fullReadNext b).ctx = Md5.mk b.contents := by
  obtain ⟨hfs2, hfl2, hpos2, hctx2, hlen2⟩ := fullReadNext_wf_rf h
  obtain ⟨hfs, hfl, hpos, hctx, hblen⟩ := h
  rw [fullReadNext_buf_len_rf] at h0
  have hmax : MAX_READ_SIZE ≠ 0 := by decide
  have hend : (fullReadNext b).position = (fullReadNext b).contents.length := by
    rw [fullReadNext_position_rf, fullReadNext_contents_rf]
    omega
  rw [hctx2, hend, List.take_length]
  rw [fullReadNext_contents_rf]

/-- Handling a full-transfer completion on an occupied slot preserves the
scheduler invariant. -/
theorem handle_result_full_inv_rf {fsys : FileSystem} {input : List FPath}
    {files : List Buffer} {s : SState} {idx : Nat} {b : Buffer} (hb : slotAt s idx = some b)
    (hInv : Inv fsys input files s) :
    Inv fsys input files (handle_result s idx b.buf.len) := by
  have hwf := hInv.wf idx b hb
  obtain ⟨hfs, hfl, hpos, hctx, hblen⟩ := hwf
  have hget := slotAt_get?_of_some_rf hb
  have hlt : idx < s.shared_buffers.length := slotAt_lt_of_some_rf hb
  have hwlen : b.buf.len ≤ b.contents.length - b.position := by omega
  have hnotfree : idx ∉ s.free_index_list := fun hmem => by
    have := hInv.free_none idx hmem
    rw [hb] at this
    exact Option.noConfusion this
  have hwf' : BufferWF fsys (fullReadNext b) :=
    fullReadNext_wf_rf ⟨hfs, hfl, hpos, hctx, hblen⟩
  have hperm1 : List.Perm (s.shared_buffers.filterMap id)
      (b :: (s.shared_buffers.set idx none).filterMap id) :=
    filterMap_set_none_perm _ _ _ hget
  rw [handle_result_full_eq_rf hb hwlen]
  by_cases h0 : (fullReadNext b).buf.len = 0
  · -- the file is finished: free the slot and send the digest
    rw [if_pos h0]
    have hdone := fullReadNext_finished_rf ⟨hfs, hfl, hpos, hctx, hblen⟩ h0
    refine ⟨?_, ?_, ?_, ?_, ?_, ?_, ?_, ?_, ?_, ?_, ?_, ?_, ?_⟩
    · simpa using hInv.len_sb
    · exact List.Nodup.cons hnotfree hInv.nodup
    · intro i hi
      rcases List.mem_cons.mp hi with rfl | hi
      · exact hInv.len_sb ▸ hlt
      · exact hInv.free_lt i hi
    · intro i hi
      rcases List.mem_cons.mp hi with rfl | hi
      · show ((s.shared_buffers.set i none).get? i).getD none = none
        exact getD_get?_set_eq _ _ _ hlt
      · have hne : i ≠ idx := fun he => hnotfree (he ▸ hi)
        show ((s.shared_buffers.set idx none).get? i).getD none = none
        rw [getD_get?_set_ne _ _ _ _ (Ne.symm hne)]
        exact hInv.free_none i hi
    · intro i hilt hslot
      replace hslot : ((s.shared_buffers.set idx none).get? i).getD none = none := hslot
      by_cases hne : i = idx
      · exact hne ▸ List.mem_cons_self _ _
      · rw [getD_get?_set_ne _ _ _ _ (Ne.symm hne)] at hslot
        exact List.mem_cons_of_mem _ (hInv.none_free i hilt hslot)
    · have hlen1 := hperm1.length_eq
      have hc := hInv.count_eq
      simp only [occupiedCount, List.length_cons] at hlen1 hc ⊢
      omega
    · exact hInv.pend_wf
    · intro i c hslot
      replace hslot : ((s.shared_buffers.set idx none).get? i).getD none = some c := hslot
      by_cases hne : i = idx
      · subst hne
        rw [getD_get?_set_eq _ _ _ hlt] at hslot
        exact Option.noConfusion hslot
      · rw [getD_get?_set_ne _ _ _ _ (Ne.symm hne)] at hslot
        exact hInv.wf i c hslot
    · intro p d hmem
      replace hmem : Msg.ok p d ∈ sentMsgs (s.events ++
          [Event.send (Msg.ok (fullReadNext b).path (fullReadNext b).ctx)]) := hmem
      rw [sentMsgs_append] at hmem
      rcases List.mem_append.mp hmem with hmem | hmem
      · exact hInv.sent_ok p d hmem
      · simp [sentMsgs] at hmem
        obtain ⟨hp, hd⟩ := hmem
        subst hp
        subst hd
        rw [fullReadNext_path_rf, hdone, hfs]
    · intro p hmem
      replace hmem : Msg.err p ∈ sentMsgs (s.events ++
          [Event.send (Msg.ok (fullReadNext b).path (fullReadNext b).ctx)]) := hmem
      rw [sentMsgs_append] at hmem
      rcases List.mem_append.mp hmem with hmem | hmem
      · exact hInv.sent_err p hmem
      · simp [sentMsgs] at hmem
    · intro i p len off hmem
      rcases List.mem_append.mp hmem with hmem | hmem
      · exact hInv.submits i p len off hmem
      · simp at hmem
    · show (s.events ++
          [Event.send (Msg.ok (fullReadNext b).path (fullReadNext b).ctx)]).count
          Event.probe = 1
      simp [List.count_append, List.count_singleton, hInv.probe_once]
    · refine List.perm_iff_count.mpr fun a => ?_
      have hacct := hInv.acct.count_eq a
      have hifp := (hperm1.map Buffer.path).count_eq a
      show (files.map Buffer.path ++ ((s.shared_buffers.set idx none).filterMap id).map Buffer.path ++
          sentPaths (s.events ++
            [Event.send (Msg.ok (fullReadNext b).path (fullReadNext b).ctx)])).count a =
          input.count a
      rw [sentPaths_append]
      have hsp : sentPaths
          [Event.send (Msg.ok (fullReadNext b).path (fullReadNext b).ctx)] = [b.path] := by
        simp [sentPaths, sentMsgs, Msg.path, fullReadNext_path_rf]
      rw [hsp]
      simp only [List.count_append, List.map_cons, List.count_cons,
        List.count_singleton, inFlightPaths] at hacct hifp ⊢
      by_cases hab : a = b.path <;> simp [hab, beq_iff_eq] at hacct hifp ⊢ <;> omega
  · -- more to read: resubmit the slot
    rw [if_neg h0]
    have hset : s.shared_buffers.set idx (some (fullReadNext b)) =
        (s.shared_buffers.set idx none).set idx (some (fullReadNext b)) :=
      (List.set_set _ _ _ _).symm
    have hlt2 : idx < (s.shared_buffers.set idx none).length := by simpa using hlt
    have hperm2 : List.Perm
        ((s.shared_buffers.set idx (some (fullReadNext b))).filterMap id)
        (fullReadNext b :: (s.shared_buffers.set idx none).filterMap id) := by
      rw [hset]
      exact filterMap_set_some_perm _ _ _ (List.get?_set_eq_of_lt none hlt)
    obtain ⟨hfs2, hfl2, hpos2, hctx2, hlen2⟩ := hwf'
    refine ⟨?_, ?_, ?_, ?_, ?_, ?_, ?_, ?_, ?_, ?_, ?_, ?_, ?_⟩
    · show (s.shared_buffers.set idx (some (fullReadNext b))).length = RING_SIZE
      simpa using hInv.len_sb
    · exact hInv.nodup
    · exact hInv.free_lt
    · intro i hi
      have hne : i ≠ idx := fun he => hnotfree (he ▸ hi)
      show ((s.shared_buffers.set idx (some (fullReadNext b))).get? i).getD none = none
      rw [getD_get?_set_ne _ _ _ _ (Ne.symm hne)]
      exact hInv.free_none i hi
    · intro i hilt hslot
      replace hslot : ((s.shared_buffers.set idx (some (fullReadNext b))).get? i).getD
          none = none := hslot
      by_cases hne : i = idx
      · subst hne
        rw [getD_get?_set_eq _ _ _ hlt] at hslot
        exact Option.noConfusion hslot
      · rw [getD_get?_set_ne _ _ _ _ (Ne.symm hne)] at hslot
        exact hInv.none_free i hilt hslot
    · have hlen1 := hperm1.length_eq
      have hlen2' := hperm2.length_eq
      have hc := hInv.count_eq
      simp only [occupiedCount, submit_for_read, List.length_cons] at hlen1 hlen2' hc ⊢
      omega
    · exact hInv.pend_wf
    · intro i c hslot
      replace hslot : ((s.shared_buffers.set idx (some (fullReadNext b))).get? i).getD
          none = some c := hslot
      by_cases hne : i = idx
      · subst hne
        rw [getD_get?_set_eq _ _ _ hlt] at hslot
        obtain rfl : fullReadNext b = c := Option.some.inj hslot
        exact ⟨hfs2, hfl2, hpos2, hctx2, hlen2⟩
      · rw [getD_get?_set_ne _ _ _ _ (Ne.symm hne)] at hslot
        exact hInv.wf i c hslot
    · intro p d hmem
      replace hmem : Msg.ok p d ∈ sentMsgs (s.events ++
          [Event.submitRead idx (fullReadNext b).path (fullReadNext b).buf.len
            (fullReadNext b).position]) := hmem
      rw [sentMsgs_append] at hmem
      rcases List.mem_append.mp hmem with hmem | hmem
      · exact hInv.sent_ok p d hmem
      · simp [sentMsgs] at hmem
    · intro p hmem
      replace hmem : Msg.err p ∈ sentMsgs (s.events ++
          [Event.submitRead idx (fullReadNext b).path (fullReadNext b).buf.len
            (fullReadNext b).position]) := hmem
      rw [sentMsgs_append] at hmem
      rcases List.mem_append.mp hmem with hmem | hmem
      · exact hInv.sent_err p hmem
      · simp [sentMsgs] at hmem
    · intro i p len off hmem
      replace hmem : Event.submitRead i p len off ∈ s.events ++
          [Event.submitRead idx (fullReadNext b).path (fullReadNext b).buf.len
            (fullReadNext b).position] := hmem
      rcases List.mem_append.mp hmem with hmem | hmem
      · exact hInv.submits i p len off hmem
      · simp at hmem
        obtain ⟨-, hp, hlen, hoff⟩ := hmem
        subst hp
        subst hlen
        subst hoff
        refine ⟨(fullReadNext b).contents, hfs2, ?_, ?_⟩
        · rw [← hfl2]
          exact hpos2
        · rw [← hfl2]
          exact hlen2
    · show (s.events ++
          [Event.submitRead idx (fullReadNext b).path (fullReadNext b).buf.len
            (fullReadNext b).position]).count Event.probe = 1
      simp [List.count_append, List.count_singleton, hInv.probe_once]
    · refine List.perm_iff_count.mpr fun a => ?_
      have hacct := hInv.acct.count_eq a
      have hifp1 := (hperm1.map Buffer.path).count_eq a
      have hifp2 := (hperm2.map Buffer.path).count_eq a
      show (files.map Buffer.path ++
          ((s.shared_buffers.set idx (some (fullReadNext b))).filterMap id).map Buffer.path ++
          sentPaths (s.events ++
            [Event.submitRead idx (fullReadNext b).path (fullReadNext b).buf.len
              (fullReadNext b).position])).count a = input.count a
      rw [sentPaths_append]
      have hsp : sentPaths
          [Event.submitRead idx (fullReadNext b).path (fullReadNext b).buf.len
            (fullReadNext b).position] = [] := rfl
      rw [hsp]
      simp only [List.count_append, List.map_cons, List.count_cons, List.count_nil,
        fullReadNext_path_rf, inFlightPaths] at hacct hifp1 hifp2 ⊢
      by_cases hab : a = b.path <;> simp [hab, beq_iff_eq] at hacct hifp1 hifp2 ⊢ <;> omega

/-- Admitting a pre-opened file into a free slot and submitting its first
read preserves the invariant. -/
theorem refill_ok_inv_rf {fsys : FileSystem} {input : List FPath} {s : SState}
    {buffer : Buffer} {more : List Buffer} {free_idx : Nat} {rest : List Nat}
    (hInv : Inv fsys input (buffer :: more) s)
    (hfree : s.free_index_list = free_idx :: rest) :
    Inv fsys input more
      (submit_for_read
        { s with free_index_list := rest,
                 shared_buffers := s.shared_buffers.set free_idx (some buffer) }
        buffer free_idx) := by
  have hwf := hInv.pend_wf buffer (List.mem_cons_self _ _)
  obtain ⟨hfs, hfl, hpos, hctx, hblen⟩ := hwf
  have hmemfree : free_idx ∈ s.free_index_list := hfree ▸ List.mem_cons_self _ _
  have hlt : free_idx < s.shared_buffers.length :=
    hInv.len_sb ▸ hInv.free_lt free_idx hmemfree
  have hslotn : slotAt s free_idx = none := hInv.free_none free_idx hmemfree
  have hget : s.shared_buffers.get? free_idx = some none := by
    unfold slotAt at hslotn
    cases hg : s.shared_buffers.get? free_idx with
    | none => exact absurd (List.get?_eq_none.mp hg) (by omega)
    | some v =>
      rw [hg] at hslotn
      simp only [Option.getD_some] at hslotn
      exact congrArg some hslotn
  have hnodup := hInv.nodup
  rw [hfree] at hnodup
  have hperm : List.Perm ((s.shared_buffers.set free_idx (some buffer)).filterMap id)
      (buffer :: s.shared_buffers.filterMap id) :=
    filterMap_set_some_perm _ _ _ hget
  refine ⟨?_, ?_, ?_, ?_, ?_, ?_, ?_, ?_, ?_, ?_, ?_, ?_, ?_⟩
  · show (s.shared_buffers.set free_idx (some buffer)).length = RING_SIZE
    simpa using hInv.len_sb
  · exact hnodup.of_cons
  · intro i hi
    exact hInv.free_lt i (hfree ▸ List.mem_cons_of_mem _ hi)
  · intro i hi
    have hne : i ≠ free_idx := fun he => (List.nodup_cons.mp hnodup).1 (he ▸ hi)
    show ((s.shared_buffers.set free_idx (some buffer)).get? i).getD none = none
    rw [getD_get?_set_ne _ _ _ _ (Ne.symm hne)]
    exact hInv.free_none i (hfree ▸ List.mem_cons_of_mem _ hi)
  · intro i hilt hslot
    replace hslot : ((s.shared_buffers.set free_idx (some buffer)).get? i).getD none =
        none := hslot
    by_cases hne : i = free_idx
    · subst hne
      rw [getD_get?_set_eq _ _ _ hlt] at hslot
      exact Option.noConfusion hslot
    · rw [getD_get?_set_ne _ _ _ _ (Ne.symm hne)] at hslot
      have := hInv.none_free i hilt hslot
      rw [hfree] at this
      rcases List.mem_cons.mp this with rfl | h
      · exact absurd rfl hne
      · exact h
  · have hc := hInv.count_eq
    have hl := hperm.length_eq
    rw [hfree] at hc
    simp only [occupiedCount, submit_for_read, List.length_cons] at hc hl ⊢
    omega
  · intro b hb
    exact hInv.pend_wf b (List.mem_cons_of_mem _ hb)
  · intro i c hslot
    replace hslot : ((s.shared_buffers.set free_idx (some buffer)).get? i).getD none =
        some c := hslot
    by_cases hne : i = free_idx
    · subst hne
      rw [getD_get?_set_eq _ _ _ hlt] at hslot
      obtain rfl : buffer = c := Option.some.inj hslot
      exact ⟨hfs, hfl, hpos, hctx, hblen⟩
    · rw [getD_get?_set_ne _ _ _ _ (Ne.symm hne)] at hslot
      exact hInv.wf i c hslot
  · intro p d hmem
    replace hmem : Msg.ok p d ∈ sentMsgs (s.events ++
        [Event.submitRead free_idx buffer.path buffer.buf.len buffer.position]) := hmem
    rw [sentMsgs_append] at hmem
    rcases List.mem_append.mp hmem with hmem | hmem
    · exact hInv.sent_ok p d hmem
    · simp [sentMsgs] at hmem
  · intro p hmem
    replace hmem : Msg.err p ∈ sentMsgs (s.events ++
        [Event.submitRead free_idx buffer.path buffer.buf.len buffer.position]) := hmem
    rw [sentMsgs_append] at hmem
    rcases List.mem_append.mp hmem with hmem | hmem
    · exact hInv.sent_err p hmem
    · simp [sentMsgs] at hmem
  · intro i p len off hmem
    replace hmem : Event.submitRead i p len off ∈ s.events ++
        [Event.submitRead free_idx buffer.path buffer.buf.len buffer.position] := hmem
    rcases List.mem_append.mp hmem with hmem | hmem
    · exact hInv.submits i p len off hmem
    · simp at hmem
      obtain ⟨-, hp, hlen, hoff⟩ := hmem
      subst hp
      subst hlen
      subst hoff
      refine ⟨buffer.contents, hfs, by omega, ?_⟩
      rw [hblen, hfl]
  · show (s.events ++
        [Event.submitRead free_idx buffer.path buffer.buf.len buffer.position]).count
        Event.probe = 1
    simp [List.count_append, List.count_singleton, hInv.probe_once]
  · refine List.perm_iff_count.mpr fun a => ?_
    have hacct := hInv.acct.count_eq a
    have hifp := (hperm.map Buffer.path).count_eq a
    show ((more.map Buffer.path) ++
        ((s.shared_buffers.set free_idx (some buffer)).filterMap id).map Buffer.path ++
        sentPaths (s.events ++
          [Event.submitRead free_idx buffer.path buffer.buf.len
            buffer.position])).count a = input.count a
    rw [sentPaths_append]
    have hsp : sentPaths
        [Event.submitRead free_idx buffer.path buffer.buf.len buffer.position] =
        [] := rfl
    rw [hsp]
    simp only [List.count_append, List.count_cons, List.count_nil, List.map_cons,
      List.append_nil, inFlightPaths] at hacct hifp ⊢
    by_cases hab : a = buffer.path <;> simp [hab, beq_iff_eq] at hacct hifp ⊢ <;> omega

/-- The refill phase preserves the invariant, at its result and at every
intermediate state. -/
theorem refill_inv_rf {fsys : FileSystem} {input : List FPath} (files : List Buffer)
    (s : SState) (q : Bool) (hInv : Inv fsys input files s) :
    Inv fsys input (refill files s q).1 (refill files s q).2.1 ∧
      ∀ x ∈ (refill files s q).2.2.2, ∃ fs', Inv fsys input fs' x := by
  induction files, s, q using refill.induct with
  | case1 files s q hfree =>
    rw [refill]
    simp only [hfree]
    exact ⟨hInv, by simp⟩
  | case2 s q free_idx rest hfree =>
    rw [refill]
    simp only [hfree]
    exact ⟨hInv, by simp⟩
  | case3 s q free_idx rest hfree buffer more s1 s2 ih =>
    rw [refill]
    simp only [hfree]
    have hInv' : Inv fsys input more s2 := refill_ok_inv_rf hInv hfree
    obtain ⟨h1, h2⟩ := ih hInv'
    refine ⟨h1, fun x hx => ?_⟩
    rcases List.mem_cons.mp hx with rfl | hx
    · exact ⟨more, hInv'⟩
    · exact h2 x hx

/-- The wait-and-handle step preserves the invariant for every completion
choice. -/
theorem swhr_inv_rf {fsys : FileSystem} {input : List FPath} {files : List Buffer}
    {s : SState} (hInv : Inv fsys input files s) (choice : Nat) :
    Inv fsys input files (submit_wait_and_handle_result s choice) := by
  unfold submit_wait_and_handle_result
  cases hocc : occupiedIndices s with
  | nil => exact hInv
  | cons i rest =>
    have hlen : choice % (i :: rest).length < (i :: rest).length :=
      Nat.mod_lt _ (by simp)
    have hmem : (i :: rest).getD (choice % (i :: rest).length) 0 ∈ i :: rest := by
      rw [List.getD_eq_get _ _ hlen]
      exact List.get_mem _ _ _
    have hmem2 : (i :: rest).getD (choice % (i :: rest).length) 0 ∈ occupiedIndices s := by
      rw [hocc]
      exact hmem
    have hsome := (List.mem_filter.mp hmem2).2
    obtain ⟨b, hb⟩ := Option.isSome_iff_exists.mp hsome
    show Inv fsys input files
      (handle_result s ((i :: rest).getD (choice % (i :: rest).length) 0)
        (requestedAt s ((i :: rest).getD (choice % (i :: rest).length) 0)))
    have hreq : requestedAt s ((i :: rest).getD (choice % (i :: rest).length) 0) =
        b.buf.len := by
      unfold requestedAt
      rw [hb]
    rw [hreq]
    exact handle_result_full_inv_rf hb hInv

/-- `drain` preserves the invariant at the same pending list. -/
theorem drain_inv_rf {fsys : FileSystem} {input : List FPath} {files : List Buffer}
    (choices : Nat → Nat) :
    ∀ fuel t s, Inv fsys input files s →
      Inv fsys input files (drain choices fuel t s).2.1 ∧
        ∀ x ∈ (drain choices fuel t s).2.2, Inv fsys input files x := by
  intro fuel
  induction fuel with
  | zero =>
    intro t s h
    unfold drain
    split <;> exact ⟨h, by simp⟩
  | succ fuel ih =>
    intro t s h
    unfold drain
    split
    · obtain ⟨h1, h2⟩ := ih (t + 1) _ (swhr_inv_rf h (choices t))
      refine ⟨h1, fun x hx => ?_⟩
      rcases List.mem_cons.mp hx with rfl | hx
      · exact swhr_inv_rf h (choices t)
      · exact h2 x hx
    · exact ⟨h, by simp⟩

/-- The main loop preserves the invariant. -/
theorem runLoop_inv_rf {fsys : FileSystem} {input : List FPath} (choices : Nat → Nat) :
    ∀ fuel t files s, Inv fsys input files s →
      Inv fsys input (runLoop choices fuel t files s).2.1
        (runLoop choices fuel t files s).2.2.1 ∧
        ∀ x ∈ (runLoop choices fuel t files s).2.2.2,
          ∃ fs', Inv fsys input fs' x := by
  intro fuel
  induction fuel with
  | zero =>
    intro t files s h
    exact ⟨h, by simp [runLoop]⟩
  | succ fuel ih =>
    intro t files s h
    rw [runLoop]
    obtain ⟨h1, h2⟩ := refill_inv_rf files s false h
    split
    · obtain ⟨h3, h4⟩ := ih (t + 1) (refill files s false).1
        (submit_wait_and_handle_result (refill files s false).2.1 (choices t))
        (swhr_inv_rf h1 (choices t))
      refine ⟨h3, fun x hx => ?_⟩
      rcases List.mem_append.mp hx with hx | hx
      · exact h2 x hx
      · rcases List.mem_cons.mp hx with rfl | hx
        · exact ⟨(refill files s false).1, swhr_inv_rf h1 (choices t)⟩
        · exact h4 x hx
    · obtain ⟨h3, h4⟩ := drain_inv_rf choices fuel t (refill files s false).2.1 h1
      refine ⟨h3, fun x hx => ?_⟩
      rcases List.mem_append.mp hx with hx | hx
      · exact h2 x hx
      · exact ⟨(refill files s false).1, h4 x hx⟩

/-- `drain` only reports `done` once every slot is free. -/
theorem drain_done_rf (choices : Nat → Nat) :
    ∀ fuel t s, (drain choices fuel t s).1 = .done →
      ¬ ((drain choices fuel t s).2.1.free_index_list.length < RING_SIZE) := by
  intro fuel
  induction fuel with
  | zero =>
    intro t s h
    by_cases hlt : s.free_index_list.length < RING_SIZE
    · rw [drain, if_pos hlt] at h
      simp at h
    · rw [drain, if_neg hlt]
      simpa using hlt
  | succ fuel ih =>
    intro t s h
    by_cases hlt : s.free_index_list.length < RING_SIZE
    · rw [drain, if_pos hlt] at h ⊢
      exact ih (t + 1) _ h
    · rw [drain, if_neg hlt]
      simpa using hlt

/-- A `done` run has admitted every pre-opened file and freed every
slot. -/
theorem runLoop_done_rf (choices : Nat → Nat) :
    ∀ fuel t files s, (runLoop choices fuel t files s).1 = .done →
      (runLoop choices fuel t files s).2.1 = [] ∧
      ¬ ((runLoop choices fuel t files s).2.2.1.free_index_list.length <
          RING_SIZE) := by
  intro fuel
  induction fuel with
  | zero =>
    intro t files s h
    rw [runLoop] at h
    simp at h
  | succ fuel ih =>
    intro t files s h
    by_cases hcond : ((refill files s false).2.2.1 ||
        !(refill files s false).1.isEmpty) = true
    · simp only [runLoop, hcond, if_true] at h ⊢
      exact ih (t + 1) _ _ h
    · have hf : ((refill files s false).2.2.1 ||
          !(refill files s false).1.isEmpty) = false := by
        revert hcond
        cases ((refill files s false).2.2.1 || !(refill files s false).1.isEmpty) <;> simp
      have hempty : (refill files s false).1 = [] := by
        rw [Bool.or_eq_false_iff] at hf
        have h2 := hf.2
        cases hE : (refill files s false).1 with
        | nil => rfl
        | cons a l =>
          rw [hE] at h2
          simp at h2
      simp only [runLoop, hf, Bool.false_eq_true, if_false] at h ⊢
      exact ⟨hempty, drain_done_rf choices fuel t _ h⟩

/-- With no pending file and every slot free, the channel transcript is a
permutation of the input. -/
theorem final_sent_perm_rf {fsys : FileSystem} {input : List FPath} {s : SState}
    (hInv : Inv fsys input [] s)
    (hfree : ¬ (s.free_index_list.length < RING_SIZE)) :
    List.Perm (sentPaths s.events) input := by
  have hc := hInv.count_eq
  have hocc : occupiedCount s = 0 := by omega
  have hnil : s.shared_buffers.filterMap id = [] := List.length_eq_zero.mp hocc
  have hifp : inFlightPaths s = [] := by simp [inFlightPaths, hnil]
  have hacct := hInv.acct
  rw [hifp] at hacct
  simpa using hacct

/-- Facts about the pre-loop pass: the opened buffers are well formed, the
only messages are errors for unopenable paths, nothing is submitted, the
probe is not re-registered, and opened paths plus error messages cover the
input. -/
theorem setupFiles_facts_rf (fsys : FileSystem) (od : Bool) :
    ∀ paths fi,
      (∀ b ∈ (setupFiles fsys od paths fi).1, BufferWF fsys b) ∧
      (∀ p d, Msg.ok p d ∈ sentMsgs (setupFiles fsys od paths fi).2 → False) ∧
      (∀ p, Msg.err p ∈ sentMsgs (setupFiles fsys od paths fi).2 → fsys p = none) ∧
      (∀ i p len off,
        Event.submitRead i p len off ∈ (setupFiles fsys od paths fi).2 → False) ∧
      ((setupFiles fsys od paths fi).2.count Event.probe = 0) ∧
      List.Perm ((setupFiles fsys od paths fi).1.map Buffer.path ++
        sentPaths (setupFiles fsys od paths fi).2) paths := by
  intro paths
  induction paths with
  | nil =>
    intro fi
    simp [setupFiles, sentMsgs, sentPaths]
  | cons path more ih =>
    intro fi
    rw [setupFiles]
    cases hnew : Buffer.new fsys path fi od with
    | some buffer =>
      obtain ⟨hwf, hpath, -⟩ := Buffer.new_wf_rf hnew
      obtain ⟨ih1, ih2, ih3, ih4, ih5, ih6⟩ := ih (fi + 1)
      refine ⟨?_, ?_, ?_, ?_, ?_, ?_⟩
      · intro b hb
        rcases List.mem_cons.mp hb with rfl | hb
        · exact hwf
        · exact ih1 b hb
      · intro p d hmem
        exact ih2 p d (by simpa [sentMsgs] using hmem)
      · intro p hmem
        exact ih3 p (by simpa [sentMsgs] using hmem)
      · intro i p len off hmem
        rcases List.mem_cons.mp hmem with hmem | hmem
        · exact Event.noConfusion hmem
        · exact ih4 i p len off hmem
      · simpa [List.count_cons] using ih5
      · show List.Perm (buffer.path :: (setupFiles fsys od more (fi + 1)).1.map
            Buffer.path ++ sentPaths (Event.openOk path ::
              (setupFiles fsys od more (fi + 1)).2)) (path :: more)
        have hsp : sentPaths (Event.openOk path ::
            (setupFiles fsys od more (fi + 1)).2) =
            sentPaths (setupFiles fsys od more (fi + 1)).2 := rfl
        rw [hsp, hpath]
        exact (ih6.cons path)
    | none =>
      have hfsn := Buffer.new_eq_none_rf.mp hnew
      obtain ⟨ih1, ih2, ih3, ih4, ih5, ih6⟩ := ih fi
      refine ⟨ih1, ?_, ?_, ?_, ?_, ?_⟩
      · intro p d hmem
        exact ih2 p d (by simpa [sentMsgs] using hmem)
      · intro p hmem
        replace hmem : Msg.err p ∈ Msg.err path ::
            sentMsgs (setupFiles fsys od more fi).2 := by
          simpa [sentMsgs] using hmem
        rcases List.mem_cons.mp hmem with hmem | hmem
        · obtain rfl : p = path := Msg.err.inj hmem
          exact hfsn
        · exact ih3 p hmem
      · intro i p len off hmem
        rcases List.mem_cons.mp hmem with hmem | hmem
        · exact Event.noConfusion hmem
        · rcases List.mem_cons.mp hmem with hmem | hmem
          · exact Event.noConfusion hmem
          · exact ih4 i p len off hmem
      · simpa [List.count_cons] using ih5
      · show List.Perm ((setupFiles fsys od more fi).1.map Buffer.path ++
            sentPaths (Event.openErr path :: Event.send (Msg.err path) ::
              (setupFiles fsys od more fi).2)) (path :: more)
        have hsp : sentPaths (Event.openErr path :: Event.send (Msg.err path) ::
            (setupFiles fsys od more fi).2) =
            path :: sentPaths (setupFiles fsys od more fi).2 := rfl
        rw [hsp]
        exact (List.perm_middle).trans (ih6.cons path)

/-- The invariant holds on entry to the loop: empty slot table, full free
list, all opened buffers pending, setup messages sent. -/
theorem init_inv_rf (fsys : FileSystem) (input : List FPath) (od : Bool) :
    Inv fsys input (setupFiles fsys od input 0).1
      (initState (Event.probe :: (setupFiles fsys od input 0).2)) := by
  obtain ⟨h1, h2, h3, h4, h5, h6⟩ := setupFiles_facts_rf fsys od input 0
  refine ⟨?_, ?_, ?_, ?_, ?_, ?_, ?_, ?_, ?_, ?_, ?_, ?_, ?_⟩
  · simp [initState, RING_SIZE]
  · simp [initState, List.nodup_range]
  · intro i hi
    simpa [initState, List.mem_range] using hi
  · intro i hi
    exact getD_get?_replicate_none RING_SIZE i
  · intro i hi hslot
    simp [initState, List.mem_range, hi]
  · simp [initState, occupiedCount, List.filterMap_replicate]
  · exact h1
  · intro i b hslot
    rw [show slotAt (initState (Event.probe :: (setupFiles fsys od input 0).2)) i =
        ((List.replicate RING_SIZE (none : Option Buffer)).get? i).getD none from rfl,
      getD_get?_replicate_none] at hslot
    exact Option.noConfusion hslot
  · intro p d hmem
    replace hmem : Msg.ok p d ∈ sentMsgs (setupFiles fsys od input 0).2 := by
      simpa [sentMsgs, initState] using hmem
    exact absurd hmem (fun h => h2 p d h)
  · intro p hmem
    replace hmem : Msg.err p ∈ sentMsgs (setupFiles fsys od input 0).2 := by
      simpa [sentMsgs, initState] using hmem
    exact h3 p hmem
  · intro i p len off hmem
    replace hmem : Event.submitRead i p len off ∈
        Event.probe :: (setupFiles fsys od input 0).2 := hmem
    rcases List.mem_cons.mp hmem with hmem | hmem
    · exact Event.noConfusion hmem
    · exact absurd hmem (fun h => h4 i p len off h)
  · show (Event.probe :: (setupFiles fsys od input 0).2).count Event.probe = 1
    simp [List.count_cons, h5]
  · show List.Perm ((setupFiles fsys od input 0).1.map Buffer.path ++
        inFlightPaths (initState (Event.probe :: (setupFiles fsys od input 0).2)) ++
        sentPaths (Event.probe :: (setupFiles fsys od input 0).2)) input
    have hifp : inFlightPaths
        (initState (Event.probe :: (setupFiles fsys od input 0).2)) = [] := by
      simp [inFlightPaths, initState, List.filterMap_replicate]
    have hsp : sentPaths (Event.probe :: (setupFiles fsys od input 0).2) =
        sentPaths (setupFiles fsys od input 0).2 := rfl
    rw [hifp, hsp]
    simpa using h6

/-- With both probes passing and at least one file opened, `get_checksums`
runs the scheduler loop. -/
theorem get_checksums_run_eq_rf {probe : Probe} (fsys : FileSystem)
    (choices : Nat → Nat) (files : List FPath) (od : Bool) (fuel : Nat)
    (h1 : probe.read = true) (h2 : probe.register_files = true)
    (h3 : (setupFiles fsys od files 0).1.isEmpty = false) :
    get_checksums probe fsys choices files od fuel =
      ((runLoop choices fuel 0 (setupFiles fsys od files 0).1
          (initState (Event.probe :: (setupFiles fsys od files 0).2))).1,
       (runLoop choices fuel 0 (setupFiles fsys od files 0).1
          (initState (Event.probe :: (setupFiles fsys od files 0).2))).2.1,
       (runLoop choices fuel 0 (setupFiles fsys od files 0).1
          (initState (Event.probe :: (setupFiles fsys od files 0).2))).2.2.1,
       initState (Event.probe :: (setupFiles fsys od files 0).2) ::
         (runLoop choices fuel 0 (setupFiles fsys od files 0).1
            (initState (Event.probe :: (setupFiles fsys od files 0).2))).2.2.2) := by
  simp [get_checksums, h1, h2, h3]

/-- Every state of a run's trace satisfies the invariant for some pending
list. -/
theorem get_checksums_trace_inv_rf (probe : Probe) (fsys : FileSystem)
    (choices : Nat → Nat) (files : List FPath) (od : Bool) (fuel : Nat) :
    ∀ x ∈ (get_checksums probe fsys choices files od fuel).2.2.2,
      ∃ fs', Inv fsys files fs' x := by
  cases h1 : probe.read with
  | false =>
    intro x hx
    simp [get_checksums, h1] at hx
  | true =>
    cases h2 : probe.register_files with
    | false =>
      intro x hx
      simp [get_checksums, h1, h2] at hx
    | true =>
      cases h3 : (setupFiles fsys od files 0).1.isEmpty with
      | true =>
        intro x hx
        simp [get_checksums, h1, h2, h3] at hx
      | false =>
        rw [get_checksums_run_eq_rf fsys choices files od fuel h1 h2 h3]
        intro x hx
        rcases List.mem_cons.mp hx with rfl | hx
        · exact ⟨(setupFiles fsys od files 0).1, init_inv_rf fsys files od⟩
        · exact (runLoop_inv_rf choices fuel 0 _ _ (init_inv_rf fsys files od)).2 x hx

/-- A `done` run satisfies the invariant with nothing pending, and its
channel transcript is a permutation of the input. -/
theorem get_checksums_done_perm_rf (probe : Probe) (fsys : FileSystem)
    (choices : Nat → Nat) (files : List FPath) (od : Bool) (fuel : Nat)
    (hdone : (get_checksums probe fsys choices files od fuel).1 = .done) :
    Inv fsys files [] (get_checksums probe fsys choices files od fuel).2.2.1 ∧
    List.Perm
      (sentPaths (get_checksums probe fsys choices files od fuel).2.2.1.events)
      files := by
  cases h1 : probe.read with
  | false => simp [get_checksums, h1] at hdone
  | true =>
    cases h2 : probe.register_files with
    | false => simp [get_checksums, h1, h2] at hdone
    | true =>
      cases h3 : (setupFiles fsys od files 0).1.isEmpty with
      | true =>
        simp [get_checksums, h1, h2, h3] at hdone
      | false =>
        have heq := get_checksums_run_eq_rf fsys choices files od fuel h1 h2 h3
        rw [heq] at hdone ⊢
        obtain ⟨hempty, hfree⟩ := runLoop_done_rf choices fuel 0 _ _ hdone
        have hInv := (runLoop_inv_rf choices fuel 0 _ _ (init_inv_rf fsys files od)).1
        rw [hempty] at hInv
        exact ⟨hInv, final_sent_perm_rf hInv hfree⟩

/-- In an invariant state, every success message for a readable file
carries exactly the sequential digest of the file's contents. -/
theorem sent_ok_unique_rf {fsys : FileSystem} {input : List FPath}
    {files : List Buffer} {s : SState} (hInv : Inv fsys input files s)
    {p : FPath} {c : List Byte} (hfs : fsys p = some c) :
    ∀ d, Msg.ok p d ∈ sentMsgs s.events → d = Md5.mk c := by
  intro d hm
  have hd := hInv.sent_ok p d hm
  rw [hfs] at hd
  obtain rfl : d.fed = c := (Option.some.inj hd).symm
  rfl

/-- Every readable input file received its success message. -/
theorem sent_ok_mem_rf {fsys : FileSystem} {input : List FPath} {s : SState}
    (hInv : Inv fsys input [] s)
    (hperm : List.Perm (sentPaths s.events) input) {p : FPath} {c : List Byte}
    (hp : p ∈ input) (hfs : fsys p = some c) :
    Msg.ok p (Md5.mk c) ∈ sentMsgs s.events := by
  have hmem : p ∈ sentPaths s.events := hperm.mem_iff.mpr hp
  obtain ⟨m, hm, hmp⟩ := List.mem_map.mp hmem
  cases m with
  | err q =>
    obtain rfl : p = q := hmp.symm
    have := hInv.sent_err p hm
    rw [hfs] at this
    exact Option.noConfusion this
  | ok q d =>
    obtain rfl : p = q := hmp.symm
    have hd := hInv.sent_ok p d hm
    rw [hfs] at hd
    obtain rfl : d.fed = c := (Option.some.inj hd).symm
    exact hm

/-- Every unopenable input path received its error message. -/
theorem sent_err_mem_rf {fsys : FileSystem} {input : List FPath} {s : SState}
    (hInv : Inv fsys input [] s)
    (hperm : List.Perm (sentPaths s.events) input) {p : FPath}
    (hp : p ∈ input) (hfs : fsys p = none) :
    Msg.err p ∈ sentMsgs s.events := by
  have hmem : p ∈ sentPaths s.events := hperm.mem_iff.mpr hp
  obtain ⟨m, hm, hmp⟩ := List.mem_map.mp hmem
  cases m with
  | err q =>
    obtain rfl : p = q := hmp.symm
    exact hm
  | ok q d =>
    obtain rfl : p = q := hmp.symm
    have := hInv.sent_ok p d hm
    rw [hfs] at this
    exact Option.noConfusion this

end WithRegisterFiles

namespace WithFixedBuffers

/-! ## src/with_fixed_buffers.rs

Differences from `with_register_files`: the per-file state (`ReadState`)
does not own its buffer permanently — a pool of `RING_SIZE` pinned
buffers, registered with the kernel, is lent to files while they are in
flight; `read_states` and `shared_buffers` are `HashMap<usize, _>` keyed by
slot index (modelled as option tables over `[0, RING_SIZE)`); and the loop
checks a third probe (`ReadFixed`). -/

/-- src/with_fixed_buffers.rs `struct ReadState`. -/
structure ReadState where
  path : FPath
  contents : List Byte
  file_len : Nat
  position : Nat
  ctx : Md5
  file_idx : Nat
  buf : Option AlignedBuffer
  buf_idx : Option Nat

/-- `ReadState::new`: open and stat only — no buffer yet. -/
def ReadState.new (fsys : FileSystem) (path : FPath) (file_idx : Nat)
    (o_direct : Bool) : Option ReadState :=
  match fsys path with
  | none => none
  | some contents =>
      some { path := path, contents := contents, file_len := contents.length,
             position := 0, ctx := Md5.new, file_idx := file_idx,
             buf := none, buf_idx := none }

/-- `ReadState::set_buffer_size` (associated fn): resize the lent buffer to
`min(file_len - position, MAX_READ_SIZE)` and report whether the file is
fully read.  The argument never exceeds `MAX_READ_SIZE`, so `resize`
cannot panic and the `getD` fallback is dead (see
`set_buffer_size_resize_some_fb`). -/
def ReadState.set_buffer_size (buf : AlignedBuffer) (file_len position : Nat) :
    AlignedBuffer × Bool :=
  let needed_bytes := min (file_len - position) MAX_READ_SIZE
  ((buf.resize needed_bytes).getD buf, needed_bytes == 0)

theorem set_buffer_size_resize_some_fb (buf : AlignedBuffer)
    (file_len position : Nat) :
    buf.resize (min (file_len - position) MAX_READ_SIZE) =
      some { buf with len := min (file_len - position) MAX_READ_SIZE } := by
  unfold AlignedBuffer.resize
  rw [if_pos (Nat.min_le_right _ _)]

theorem set_buffer_size_eq_fb (buf : AlignedBuffer) (file_len position : Nat) :
    ReadState.set_buffer_size buf file_len position =
      ({ buf with len := min (file_len - position) MAX_READ_SIZE },
        min (file_len - position) MAX_READ_SIZE == 0) := by
  unfold ReadState.set_buffer_size
  simp only [set_buffer_size_resize_some_fb, Option.getD_some]

/-- `ReadState::initialize`: take ownership of a pool buffer and its index,
sizing it for the current position. -/
def ReadState.initBuffer (st : ReadState) (buf : AlignedBuffer) (buf_idx : Nat) :
    ReadState :=
  { st with buf_idx := some buf_idx,
            buf := some (ReadState.set_buffer_size buf st.file_len st.position).1 }

/-- `ReadState::update`: feed the lent buffer to the digest, advance the
cursor by the buffer's logical length, resize for the next chunk, and
report whether the file is finished.  The `unwrap` of `buf` panics if no
buffer is lent; the model returns the state unchanged there (the scheduler
only calls `update` on in-flight states, which always hold a buffer). -/
def ReadState.update (st : ReadState) : ReadState × Bool :=
  match st.buf with
  | none => (st, false)
  | some buf =>
      let st1 := { st with ctx := st.ctx.update buf.bytes }
      let st2 := { st1 with position := st1.position + buf.len }
      let r := ReadState.set_buffer_size buf st2.file_len st2.position
      ({ st2 with buf := some r.1 }, r.2)

/-- Scheduler state: the in-flight table (`read_states`), the free-buffer
pool (`shared_buffers`), the free-index list, and the event log. -/
structure SState where
  read_states : List (Option ReadState)
  shared_buffers : List (Option AlignedBuffer)
  free_index_list : List Nat
  events : List Event

/-- The in-flight table entry at index `i`. -/
def slotAt (s : SState) (i : Nat) : Option ReadState :=
  (s.read_states.get? i).getD none

/-- The pool buffer at index `i` (if not currently lent out). -/
def bufferAt (s : SState) (i : Nat) : Option AlignedBuffer :=
  (s.shared_buffers.get? i).getD none

/-- The number of occupied slots. -/
def occupiedCount (s : SState) : Nat :=
  (s.read_states.filterMap id).length

/-- Paths of the files currently in flight. -/
def inFlightPaths (s : SState) : List FPath :=
  (s.read_states.filterMap id).map ReadState.path

/-- The logical length of a state's lent buffer (0 when none is lent —
the source would panic there). -/
def lentLen (st : ReadState) : Nat :=
  (st.buf.map AlignedBuffer.len).getD 0

/-- `submit_for_read`: queue a `ReadFixed` of the lent buffer's logical
length at the state's offset, tagged with the slot index. -/
def submit_for_read (s : SState) (st : ReadState) (idx : Nat) : SState :=
  { s with events := s.events ++ [.submitRead idx st.path (lentLen st) st.position] }

/-- The pre-loop pass: open and stat every path (`ReadState::new`),
emitting an error for every failure. -/
def setupFiles (fsys : FileSystem) (o_direct : Bool) :
    List FPath → Nat → List ReadState × List Event
  | [], _ => ([], [])
  | path :: more, file_idx =>
    match ReadState.new fsys path file_idx o_direct with
    | some st =>
        let r := setupFiles fsys o_direct more (file_idx + 1)
        (st :: r.1, .openOk path :: r.2)
    | none =>
        let r := setupFiles fsys o_direct more file_idx
        (r.1, .openErr path :: .send (.err path) :: r.2)

/-- The refill phase: admit pending files into free slots, lending each the
pool buffer of its slot (`shared_buffers.remove(&free_idx).unwrap()`); the
`unwrap` panics if the pool has no buffer there — the model breaks out of
the loop instead, a branch the free-list/pool-sync invariant proves
unreachable. -/
def refill (files : List ReadState) (s : SState) (queued : Bool) :
    List ReadState × SState × Bool × List SState :=
  match s.free_index_list with
  | [] => (files, s, queued, [])
  | free_idx :: rest =>
    match files with
    | [] =>
        (files, s, queued, [])
    | state :: more =>
      match bufferAt s free_idx with
      | none => (files, s, queued, [])
      | some buf =>
          let st := state.initBuffer buf free_idx
          let s1 : SState :=
            { s with free_index_list := rest,
                     read_states := s.read_states.set free_idx (some st),
                     shared_buffers := s.shared_buffers.set free_idx none }
          let s2 := submit_for_read s1 st free_idx
          let r := refill more s2 true
          (r.1, r.2.1, r.2.2.1, s2 :: r.2.2.2)

/-- The indices of the occupied slots. -/
def occupiedIndices (s : SState) : List Nat :=
  (List.range RING_SIZE).filter fun i => (slotAt s i).isSome

/-- The body of `submit_wait_and_handle_result` for a completion on slot
`completed_idx` whose read transferred `k` bytes: the kernel wrote the
bytes into the lent buffer, `ReadState::update` consumes them, and the
state is freed (returning the buffer to the pool) or resubmitted. -/
def handle_result (s : SState) (completed_idx : Nat) (k : Nat) : SState :=
  match slotAt s completed_idx with
  | none => s
  | some st =>
    match st.buf with
    | none => s
    | some buf =>
        let written := (st.contents.drop st.position).take (min k buf.len)
        let st' : ReadState := { st with buf := some (buf.writeBytes written) }
        let r := st'.update
        let st2 := r.1
        if r.2 then
          { s with read_states := s.read_states.set completed_idx none,
                   free_index_list := completed_idx :: s.free_index_list,
                   shared_buffers := s.shared_buffers.set completed_idx st2.buf,
                   events := s.events ++ [.send (.ok st2.path st2.ctx)] }
        else
          let s1 : SState :=
            { s with read_states := s.read_states.set completed_idx (some st2) }
          submit_for_read s1 st2 completed_idx

/-- The requested length of the read in flight on slot `i`. -/
def requestedAt (s : SState) (i : Nat) : Nat :=
  match slotAt s i with
  | none => 0
  | some st => lentLen st

/-- `submit_wait_and_handle_result` under the full-transfer assumption. -/
def submit_wait_and_handle_result (s : SState) (choice : Nat) : SState :=
  match occupiedIndices s with
  | [] => s
  | i :: rest =>
      let occ := i :: rest
      let completed_idx := occ.getD (choice % occ.length) 0
      handle_result s completed_idx (requestedAt s completed_idx)

/-- The final drain loop. -/
def drain (choices : Nat → Nat) :
    Nat → Nat → SState → Outcome × SState × List SState
  | 0, _, s =>
      if s.free_index_list.length < RING_SIZE then (.fuelOut, s, [])
      else (.done, s, [])
  | fuel + 1, t, s =>
      if s.free_index_list.length < RING_SIZE then
        let s' := submit_wait_and_handle_result s (choices t)
        let r := drain choices fuel (t + 1) s'
        (r.1, r.2.1, s' :: r.2.2)
      else (.done, s, [])

/-- The main loop. -/
def runLoop (choices : Nat → Nat) :
    Nat → Nat → List ReadState → SState →
      Outcome × List ReadState × SState × List SState
  | 0, _, files, s => (.fuelOut, files, s, [])
  | fuel + 1, t, files, s =>
      let rf := refill files s false
      let files1 := rf.1
      let s1 := rf.2.1
      if rf.2.2.1 || !files1.isEmpty then
        let s2 := submit_wait_and_handle_result s1 (choices t)
        let r := runLoop choices fuel (t + 1) files1 s2
        (r.1, r.2.1, r.2.2.1, rf.2.2.2 ++ s2 :: r.2.2.2)
      else
        let r := drain choices fuel t s1
        (r.1, files1, r.2.1, rf.2.2.2 ++ r.2.2)

/-- Entry state: no file in flight, a fresh pinned buffer in every pool
slot, full free list. -/
def initState (events : List Event) : SState :=
  { read_states := List.replicate RING_SIZE none,
    shared_buffers := List.replicate RING_SIZE (some AlignedBuffer.new),
    free_index_list := (List.range RING_SIZE).reverse,
    events := events }

/-- `with_fixed_buffers::get_checksums`: three probe checks, pre-open all
files, then — only when at least one file opened (`raw_fds.len() > 0`) —
register the fds and the fixed buffers; `register_buffers` may fail (e.g.
without root), modelled by the `buffers_ok` flag, and that failure is a
`bail!`.  Then run the loop. -/
def get_checksums (probe : Probe) (fsys : FileSystem) (choices : Nat → Nat)
    (buffers_ok : Bool) (files : List FPath) (o_direct : Bool) (fuel : Nat) :
    Outcome × List ReadState × SState × List SState :=
  if !probe.read then
    (.fatal "Reading files is not supported. Try a newer kernel.", [],
      initState [.probe], [])
  else if !probe.register_files then
    (.fatal "Registering files is not supported. Try a newer kernel.", [],
      initState [.probe], [])
  else if !probe.read_fixed then
    (.fatal "Reading into fixed buffers is not supported. Try a newer kernel.", [],
      initState [.probe], [])
  else
    let su := setupFiles fsys o_direct files 0
    let s0 := initState (Event.probe :: su.2)
    if !su.1.isEmpty && !buffers_ok then
      (.fatal "Failed to register fixed buffers (are you running without root?)",
        su.1, s0, [])
    else
      let r := runLoop choices fuel 0 su.1 s0
      (r.1, r.2.1, r.2.2.1, s0 :: r.2.2.2)

/-! ### Scheduler invariant for with_fixed_buffers -/

/-- Well-formedness of an in-flight per-file state: as in the other
variants, plus possession of a lent buffer sized by the chunk formula. -/
def ReadStateWF (fsys : FileSystem) (st : ReadState) : Prop :=
  fsys st.path = some st.contents ∧
  st.file_len = st.contents.length ∧
  st.position ≤ st.file_len ∧
  st.ctx = Md5.mk (st.contents.take st.position) ∧
  ∃ ab, st.buf = some ab ∧ ab.len = min (st.file_len - st.position) MAX_READ_SIZE

/-- Well-formedness of a pre-opened pending state (no buffer yet). -/
def PendWF (fsys : FileSystem) (st : ReadState) : Prop :=
  fsys st.path = some st.contents ∧
  st.file_len = st.contents.length ∧
  st.position = 0 ∧ st.ctx = Md5.new

/-- The scheduler loop invariant. -/
structure Inv (fsys : FileSystem) (input : List FPath) (files : List ReadState)
    (s : SState) : Prop where
  len_sb : s.read_states.length = RING_SIZE
  len_bufs : s.shared_buffers.length = RING_SIZE
  nodup : s.free_index_list.Nodup
  free_lt : ∀ i ∈ s.free_index_list, i < RING_SIZE
  free_none : ∀ i ∈ s.free_index_list, slotAt s i = none
  none_free : ∀ i, i < RING_SIZE → slotAt s i = none → i ∈ s.free_index_list
  count_eq : s.free_index_list.length + occupiedCount s = RING_SIZE
  buf_sync : ∀ i ∈ s.free_index_list, (bufferAt s i).isSome
  pend_wf : ∀ st ∈ files, PendWF fsys st
  wf : ∀ i st, slotAt s i = some st → ReadStateWF fsys st
  sent_ok : ∀ p d, Msg.ok p d ∈ sentMsgs s.events → fsys p = some d.fed
  sent_err : ∀ p, Msg.err p ∈ sentMsgs s.events → fsys p = none
  submits : ∀ i p len off, Event.submitRead i p len off ∈ s.events →
      ∃ c, fsys p = some c ∧ off ≤ c.length ∧ len = min (c.length - off) MAX_READ_SIZE
  probe_once : s.events.count Event.probe = 1
  acct : List.Perm
    (files.map ReadState.path ++ inFlightPaths s ++ sentPaths s.events) input

theorem slotAt_get?_of_some_fb {s : SState} {i : Nat} {st : ReadState}
    (h : slotAt s i = some st) : s.read_states.get? i = some (some st) := by
  unfold slotAt at h
  cases hg : s.read_states.get? i with
  | none => rw [hg] at h; simp at h
  | some v =>
    rw [hg] at h
    simp only [Option.getD_some] at h
    exact congrArg some h

theorem slotAt_lt_of_some_fb {s : SState} {i : Nat} {st : ReadState}
    (h : slotAt s i = some st) : i < s.read_states.length :=
  List.get?_eq_some.mp (slotAt_get?_of_some_fb h) |>.1

/-- `ReadState::new` produces a well-formed pending state whenever it
succeeds. -/
theorem ReadState.new_wf_fb {fsys : FileSystem} {path : FPath} {fi : Nat}
    {od : Bool} {st : ReadState} (h : ReadState.new fsys path fi od = some st) :
    PendWF fsys st ∧ st.path = path := by
  unfold ReadState.new at h
  cases hf : fsys path with
  | none => rw [hf] at h; simp at h
  | some contents =>
    rw [hf] at h
    simp only [Option.some.injEq] at h
    subst h
    exact ⟨⟨hf, rfl, rfl, rfl⟩, rfl⟩

/-- `ReadState::new` fails exactly when the path cannot be opened. -/
theorem ReadState.new_eq_none_fb {fsys : FileSystem} {path : FPath} {fi : Nat}
    {od : Bool} : ReadState.new fsys path fi od = none ↔ fsys path = none := by
  unfold ReadState.new
  cases hf : fsys path <;> simp

/-- The per-file state after a full-length read completion is handled
(proof-side abbreviation). -/
def fullReadNext (st : ReadState) (ab : AlignedBuffer) : ReadState :=
  let written := (st.contents.drop st.position).take ab.len
  { st with ctx := st.ctx.update written,
            position := st.position + ab.len,
            buf := some (ReadState.set_buffer_size (ab.writeBytes written)
              st.file_len (st.position + ab.len)).1 }

theorem handle_result_full_eq_fb {s : SState} {idx : Nat} {st : ReadState}
    {ab : AlignedBuffer} (hs : slotAt s idx = some st) (hb : st.buf = some ab)
    (hwlen : ab.len ≤ st.contents.length - st.position) :
    handle_result s idx ab.len =
      if (min (st.file_len - (st.position + ab.len)) MAX_READ_SIZE == 0) = true then
        { s with read_states := s.read_states.set idx none,
                 free_index_list := idx :: s.free_index_list,
                 shared_buffers := s.shared_buffers.set idx (fullReadNext st ab).buf,
                 events := s.events ++
                   [.send (.ok (fullReadNext st ab).path (fullReadNext st ab).ctx)] }
      else
        submit_for_read
          { s with read_states := s.read_states.set idx (some (fullReadNext st ab)) }
          (fullReadNext st ab) idx := by
  have hw : ((st.contents.drop st.position).take ab.len).length = ab.len := by
    simp only [List.length_take, List.length_drop]
    omega
  have hbytes : (ab.writeBytes ((st.contents.drop st.position).take ab.len)).bytes =
      (st.contents.drop st.position).take ab.len :=
    AlignedBuffer.writeBytes_bytes _ _ hw
  unfold handle_result fullReadNext ReadState.update
  rw [hs]
  simp only [hb, min_self, AlignedBuffer.writeBytes_len, hbytes, set_buffer_size_eq_fb]

theorem fullReadNext_path_fb (st : ReadState) (ab : AlignedBuffer) :
    (fullReadNext st ab).path = st.path := rfl

theorem fullReadNext_contents_fb (st : ReadState) (ab : AlignedBuffer) :
    (fullReadNext st ab).contents = st.contents := rfl

theorem fullReadNext_file_len_fb (st : ReadState) (ab : AlignedBuffer) :
    (fullReadNext st ab).file_len = st.file_len := rfl

theorem fullReadNext_position_fb (st : ReadState) (ab : AlignedBuffer) :
    (fullReadNext st ab).position = st.position + ab.len := rfl

theorem fullReadNext_ctx_fb (st : ReadState) (ab : AlignedBuffer) :
    (fullReadNext st ab).ctx =
      st.ctx.update ((st.contents.drop st.position).take ab.len) := rfl

theorem fullReadNext_buf_fb (st : ReadState) (ab : AlignedBuffer) :
    ∃ ab', (fullReadNext st ab).buf = some ab' ∧
      ab'.len = min (st.file_len - (st.position + ab.len)) MAX_READ_SIZE := by
  unfold fullReadNext
  simp only [set_buffer_size_eq_fb]
  exact ⟨_, rfl, rfl⟩

/-- A full read keeps the per-file state well formed. -/
theorem fullReadNext_wf_fb {fsys : FileSystem} {st : ReadState} {ab : AlignedBuffer}
    (h : ReadStateWF fsys st) (hb : st.buf = some ab) :
    ReadStateWF fsys (fullReadNext st ab) := by
  obtain ⟨hfs, hfl, hpos, hctx, ab0, hb0, hablen⟩ := h
  rw [hb] at hb0
  obtain rfl : ab = ab0 := Option.some.inj hb0
  refine ⟨?_, ?_, ?_, ?_, ?_⟩
  · rw [fullReadNext_path_fb, fullReadNext_contents_fb]
    exact hfs
  · rw [fullReadNext_file_len_fb, fullReadNext_contents_fb]
    exact hfl
  · rw [fullReadNext_position_fb, fullReadNext_file_len_fb]
    omega
  · rw [fullReadNext_ctx_fb, fullReadNext_contents_fb, fullReadNext_position_fb, hctx]
    show Md5.mk (st.contents.take st.position ++ _) = _
    rw [← List.take_add]
  · obtain ⟨ab', hab', hlen'⟩ := fullReadNext_buf_fb st ab
    exact ⟨ab', hab', by
      rw [hlen', fullReadNext_position_fb, fullReadNext_file_len_fb]⟩

/-- When the resized buffer is empty the file is fully digested. -/
theorem fullReadNext_finished_fb {fsys : FileSystem} {st : ReadState}
    {ab : AlignedBuffer} (h : ReadStateWF fsys st) (hb : st.buf = some ab)
    (h0 : min (st.file_len - (st.position + ab.len)) MAX_READ_SIZE = 0) :
    (fullReadNext st ab).ctx = Md5.mk st.contents := by
  obtain ⟨hfs2, hfl2, hpos2, hctx2, -⟩ := fullReadNext_wf_fb h hb
  have hend : st.position + ab.len = st.contents.length := by
    obtain ⟨hfs, hfl, hpos, hctx, ab0, hb0, hablen⟩ := h
    rw [hb] at hb0
    obtain rfl : ab = ab0 := Option.some.inj hb0
    have hmax : MAX_READ_SIZE ≠ 0 := by decide
    omega
  rw [hctx2]
  show Md5.mk (st.contents.take (st.position + ab.len)) = Md5.mk st.contents
  rw [hend, List.take_length]

theorem lentLen_fullReadNext_fb (st : ReadState) (ab : AlignedBuffer) :
    lentLen (fullReadNext st ab) =
      min (st.file_len - (st.position + ab.len)) MAX_READ_SIZE := by
  obtain ⟨ab', h1, h2⟩ := fullReadNext_buf_fb st ab
  simp [lentLen, h1, h2]

/-- Handling a full-transfer completion on an occupied slot preserves the
scheduler invariant. -/
theorem handle_result_full_inv_fb {fsys : FileSystem} {input : List FPath}
    {files : List ReadState} {s : SState} {idx : Nat} {st : ReadState}
    {ab : AlignedBuffer} (hs : slotAt s idx = some st) (hb : st.buf = some ab)
    (hInv : Inv fsys input files s) :
    Inv fsys input files (handle_result s idx ab.len) := by
  obtain ⟨hfs, hfl, hpos, hctx, ab0, hb0, hablen⟩ := hInv.wf idx st hs
  rw [hb] at hb0
  obtain rfl : ab = ab0 := Option.some.inj hb0
  have hget := slotAt_get?_of_some_fb hs
  have hlt : idx < s.read_states.length := slotAt_lt_of_some_fb hs
  have hltb : idx < s.shared_buffers.length := by
    rw [hInv.len_bufs, ← hInv.len_sb]
    exact hlt
  have hwlen : ab.len ≤ st.contents.length - st.position := by omega
  have hnotfree : idx ∉ s.free_index_list := fun hmem => by
    have := hInv.free_none idx hmem
    rw [hs] at this
    exact Option.noConfusion this
  have hwf' : ReadStateWF fsys (fullReadNext st ab) :=
    fullReadNext_wf_fb ⟨hfs, hfl, hpos, hctx, ab, hb, hablen⟩ hb
  have hperm1 : List.Perm (s.read_states.filterMap id)
      (st :: (s.read_states.set idx none).filterMap id) :=
    filterMap_set_none_perm _ _ _ hget
  rw [handle_result_full_eq_fb hs hb hwlen]
  by_cases h0 : min (st.file_len - (st.position + ab.len)) MAX_READ_SIZE = 0
  · rw [if_pos (by simp [h0])]
    have hdone := fullReadNext_finished_fb ⟨hfs, hfl, hpos, hctx, ab, hb, hablen⟩ hb h0
    refine ⟨?_, ?_, ?_, ?_, ?_, ?_, ?_, ?_, ?_, ?_, ?_, ?_, ?_, ?_, ?_⟩
    · simpa using hInv.len_sb
    · simpa using hInv.len_bufs
    · exact List.Nodup.cons hnotfree hInv.nodup
    · intro i hi
      rcases List.mem_cons.mp hi with rfl | hi
      · exact hInv.len_sb ▸ hlt
      · exact hInv.free_lt i hi
    · intro i hi
      rcases List.mem_cons.mp hi with rfl | hi
      · show ((s.read_states.set i none).get? i).getD none = none
        exact getD_get?_set_eq _ _ _ hlt
      · have hne : i ≠ idx := fun he => hnotfree (he ▸ hi)
        show ((s.read_states.set idx none).get? i).getD none = none
        rw [getD_get?_set_ne _ _ _ _ (Ne.symm hne)]
        exact hInv.free_none i hi
    · intro i hilt hslot
      replace hslot : ((s.read_states.set idx none).get? i).getD none = none := hslot
      by_cases hne : i = idx
      · exact hne ▸ List.mem_cons_self _ _
      · rw [getD_get?_set_ne _ _ _ _ (Ne.symm hne)] at hslot
        exact List.mem_cons_of_mem _ (hInv.none_free i hilt hslot)
    · have hlen1 := hperm1.length_eq
      have hc := hInv.count_eq
      simp only [occupiedCount, List.length_cons] at hlen1 hc ⊢
      omega
    · intro i hi
      rcases List.mem_cons.mp hi with rfl | hi
      · show ((s.shared_buffers.set i (fullReadNext st ab).buf).get? i).getD
            none |>.isSome
        rw [getD_get?_set_eq _ _ _ hltb]
        obtain ⟨ab', hab', -⟩ := fullReadNext_buf_fb st ab
        rw [hab']
        rfl
      · have hne : i ≠ idx := fun he => hnotfree (he ▸ hi)
        show ((s.shared_buffers.set idx (fullReadNext st ab).buf).get? i).getD
            none |>.isSome
        rw [getD_get?_set_ne _ _ _ _ (Ne.symm hne)]
        exact hInv.buf_sync i hi
    · exact hInv.pend_wf
    · intro i c hslot
      replace hslot : ((s.read_states.set idx none).get? i).getD none = some c := hslot
      by_cases hne : i = idx
      · subst hne
        rw [getD_get?_set_eq _ _ _ hlt] at hslot
        exact Option.noConfusion hslot
      · rw [getD_get?_set_ne _ _ _ _ (Ne.symm hne)] at hslot
        exact hInv.wf i c hslot
    · intro p d hmem
      replace hmem : Msg.ok p d ∈ sentMsgs (s.events ++
          [Event.send (Msg.ok (fullReadNext st ab).path (fullReadNext st ab).ctx)]) :=
        hmem
      rw [sentMsgs_append] at hmem
      rcases List.mem_append.mp hmem with hmem | hmem
      · exact hInv.sent_ok p d hmem
      · simp [sentMsgs] at hmem
        obtain ⟨hp, hd⟩ := hmem
        subst hp
        subst hd
        rw [fullReadNext_path_fb, hdone, hfs]
    · intro p hmem
      replace hmem : Msg.err p ∈ sentMsgs (s.events ++
          [Event.send (Msg.ok (fullReadNext st ab).path (fullReadNext st ab).ctx)]) :=
        hmem
      rw [sentMsgs_append] at hmem
      rcases List.mem_append.mp hmem with hmem | hmem
      · exact hInv.sent_err p hmem
      · simp [sentMsgs] at hmem
    · intro i p len off hmem
      replace hmem : Event.submitRead i p len off ∈ s.events ++
          [Event.send (Msg.ok (fullReadNext st ab).path (fullReadNext st ab).ctx)] :=
        hmem
      rcases List.mem_append.mp hmem with hmem | hmem
      · exact hInv.submits i p len off hmem
      · simp at hmem
    · show (s.events ++
          [Event.send (Msg.ok (fullReadNext st ab).path (fullReadNext st ab).ctx)]).count
          Event.probe = 1
      simp [List.count_append, List.count_singleton, hInv.probe_once]
    · refine List.perm_iff_count.mpr fun a => ?_
      have hacct := hInv.acct.count_eq a
      have hifp := (hperm1.map ReadState.path).count_eq a
      show (files.map ReadState.path ++
          ((s.read_states.set idx none).filterMap id).map ReadState.path ++
          sentPaths (s.events ++
            [Event.send (Msg.ok (fullReadNext st ab).path
              (fullReadNext st ab).ctx)])).count a = input.count a
      rw [sentPaths_append]
      have hsp : sentPaths
          [Event.send (Msg.ok (fullReadNext st ab).path (fullReadNext st ab).ctx)] =
          [st.path] := by
        simp [sentPaths, sentMsgs, Msg.path, fullReadNext_path_fb]
      rw [hsp]
      simp only [List.count_append, List.map_cons, List.count_cons,
        List.count_singleton, inFlightPaths] at hacct hifp ⊢
      by_cases hab2 : a = st.path <;> simp [hab2, beq_iff_eq] at hacct hifp ⊢ <;> omega
  · rw [if_neg (by simpa using h0)]
    have hset : s.read_states.set idx (some (fullReadNext st ab)) =
        (s.read_states.set idx none).set idx (some (fullReadNext st ab)) :=
      (List.set_set _ _ _ _).symm
    have hperm2 : List.Perm
        ((s.read_states.set idx (some (fullReadNext st ab))).filterMap id)
        (fullReadNext st ab :: (s.read_states.set idx none).filterMap id) := by
      rw [hset]
      exact filterMap_set_some_perm _ _ _ (List.get?_set_eq_of_lt none hlt)
    obtain ⟨hfs2, hfl2, hpos2, hctx2, ab2, hab2, hablen2⟩ := hwf'
    refine ⟨?_, ?_, ?_, ?_, ?_, ?_, ?_, ?_, ?_, ?_, ?_, ?_, ?_, ?_, ?_⟩
    · show (s.read_states.set idx (some (fullReadNext st ab))).length = RING_SIZE
      simpa using hInv.len_sb
    · exact hInv.len_bufs
    · exact hInv.nodup
    · exact hInv.free_lt
    · intro i hi
      have hne : i ≠ idx := fun he => hnotfree (he ▸ hi)
      show ((s.read_states.set idx (some (fullReadNext st ab))).get? i).getD none = none
      rw [getD_get?_set_ne _ _ _ _ (Ne.symm hne)]
      exact hInv.free_none i hi
    · intro i hilt hslot
      replace hslot : ((s.read_states.set idx (some (fullReadNext st ab))).get?
          i).getD none = none := hslot
      by_cases hne : i = idx
      · subst hne
        rw [getD_get?_set_eq _ _ _ hlt] at hslot
        exact Option.noConfusion hslot
      · rw [getD_get?_set_ne _ _ _ _ (Ne.symm hne)] at hslot
        exact hInv.none_free i hilt hslot
    · have hlen1 := hperm1.length_eq
      have hlen2' := hperm2.length_eq
      have hc := hInv.count_eq
      simp only [occupiedCount, submit_for_read, List.length_cons] at hlen1 hlen2' hc ⊢
      omega
    · intro i hi
      show ((s.shared_buffers.get? i).getD none).isSome
      exact hInv.buf_sync i hi
    · exact hInv.pend_wf
    · intro i c hslot
      replace hslot : ((s.read_states.set idx (some (fullReadNext st ab))).get?
          i).getD none = some c := hslot
      by_cases hne : i = idx
      · subst hne
        rw [getD_get?_set_eq _ _ _ hlt] at hslot
        obtain rfl : fullReadNext st ab = c := Option.some.inj hslot
        exact ⟨hfs2, hfl2, hpos2, hctx2, ab2, hab2, hablen2⟩
      · rw [getD_get?_set_ne _ _ _ _ (Ne.symm hne)] at hslot
        exact hInv.wf i c hslot
    · intro p d hmem
      replace hmem : Msg.ok p d ∈ sentMsgs (s.events ++
          [Event.submitRead idx (fullReadNext st ab).path
            (lentLen (fullReadNext st ab)) (fullReadNext st ab).position]) := hmem
      rw [sentMsgs_append] at hmem
      rcases List.mem_append.mp hmem with hmem | hmem
      · exact hInv.sent_ok p d hmem
      · simp [sentMsgs] at hmem
    · intro p hmem
      replace hmem : Msg.err p ∈ sentMsgs (s.events ++
          [Event.submitRead idx (fullReadNext st ab).path
            (lentLen (fullReadNext st ab)) (fullReadNext st ab).position]) := hmem
      rw [sentMsgs_append] at hmem
      rcases List.mem_append.mp hmem with hmem | hmem
      · exact hInv.sent_err p hmem
      · simp [sentMsgs] at hmem
    · intro i p len off hmem
      replace hmem : Event.submitRead i p len off ∈ s.events ++
          [Event.submitRead idx (fullReadNext st ab).path
            (lentLen (fullReadNext st ab)) (fullReadNext st ab).position] := hmem
      rcases List.mem_append.mp hmem with hmem | hmem
      · exact hInv.submits i p len off hmem
      · simp at hmem
        obtain ⟨-, hp, hlen, hoff⟩ := hmem
        subst hp
        subst hlen
        subst hoff
        refine ⟨st.contents, ?_, ?_, ?_⟩
        · rw [fullReadNext_path_fb, hfs]
        · rw [fullReadNext_position_fb]
          omega
        · rw [lentLen_fullReadNext_fb, fullReadNext_position_fb, hfl]
    · show (s.events ++
          [Event.submitRead idx (fullReadNext st ab).path
            (lentLen (fullReadNext st ab)) (fullReadNext st ab).position]).count
          Event.probe = 1
      simp [List.count_append, List.count_singleton, hInv.probe_once]
    · refine List.perm_iff_count.mpr fun a => ?_
      have hacct := hInv.acct.count_eq a
      have hifp1 := (hperm1.map ReadState.path).count_eq a
      have hifp2 := (hperm2.map ReadState.path).count_eq a
      show (files.map ReadState.path ++
          ((s.read_states.set idx (some (fullReadNext st ab))).filterMap id).map
            ReadState.path ++
          sentPaths (s.events ++
            [Event.submitRead idx (fullReadNext st ab).path
              (lentLen (fullReadNext st ab)) (fullReadNext st ab).position])).count a =
          input.count a
      rw [sentPaths_append]
      have hsp : sentPaths
          [Event.submitRead idx (fullReadNext st ab).path
            (lentLen (fullReadNext st ab)) (fullReadNext st ab).position] = [] := rfl
      rw [hsp]
      simp only [List.count_append, List.map_cons, List.count_cons, List.count_nil,
        fullReadNext_path_fb, inFlightPaths] at hacct hifp1 hifp2 ⊢
      by_cases hab2 : a = st.path <;> simp [hab2, beq_iff_eq] at hacct hifp1 hifp2 ⊢ <;>
        omega

/-- Initializing a pending state with a pool buffer yields a well-formed
in-flight state. -/
theorem initBuffer_wf_fb {fsys : FileSystem} {state : ReadState}
    (h : PendWF fsys state) (buf : AlignedBuffer) (bidx : Nat) :
    ReadStateWF fsys (state.initBuffer buf bidx) ∧
    (state.initBuffer buf bidx).path = state.path ∧
    (state.initBuffer buf bidx).position = state.position := by
  obtain ⟨hfs, hfl, hpos0, hctx0⟩ := h
  refine ⟨⟨hfs, hfl, ?_, ?_, ?_⟩, rfl, rfl⟩
  · show state.position ≤ state.file_len
    omega
  · show state.ctx = Md5.mk (state.contents.take state.position)
    rw [hctx0, hpos0]
    rfl
  · show ∃ ab, (state.initBuffer buf bidx).buf = some ab ∧
        ab.len = min (state.file_len - state.position) MAX_READ_SIZE
    unfold ReadState.initBuffer
    rw [set_buffer_size_eq_fb]
    exact ⟨_, rfl, rfl⟩

/-- Admitting a pending file into a free slot (lending it the slot's pool
buffer) and submitting its first read preserves the invariant. -/
theorem refill_ok_inv_fb {fsys : FileSystem} {input : List FPath} {s : SState}
    {state : ReadState} {more : List ReadState} {free_idx : Nat} {rest : List Nat}
    {buf : AlignedBuffer}
    (hInv : Inv fsys input (state :: more) s)
    (hfree : s.free_index_list = free_idx :: rest)
    (hbuf : bufferAt s free_idx = some buf) :
    Inv fsys input more
      (submit_for_read
        { s with free_index_list := rest,
                 read_states :=
                   s.read_states.set free_idx (some (state.initBuffer buf free_idx)),
                 shared_buffers := s.shared_buffers.set free_idx none }
        (state.initBuffer buf free_idx) free_idx) := by
  have hpend := hInv.pend_wf state (List.mem_cons_self _ _)
  obtain ⟨hwf, hpath, hposeq⟩ := initBuffer_wf_fb hpend buf free_idx
  obtain ⟨hfs, hfl, hpos0, hctx0⟩ := hpend
  obtain ⟨hfs', hfl', hpos', hctx', ab', hab', hablen'⟩ := hwf
  have hmemfree : free_idx ∈ s.free_index_list := hfree ▸ List.mem_cons_self _ _
  have hlt : free_idx < s.read_states.length :=
    hInv.len_sb ▸ hInv.free_lt free_idx hmemfree
  have hltb : free_idx < s.shared_buffers.length :=
    hInv.len_bufs ▸ hInv.free_lt free_idx hmemfree
  have hslotn : slotAt s free_idx = none := hInv.free_none free_idx hmemfree
  have hget : s.read_states.get? free_idx = some none := by
    unfold slotAt at hslotn
    cases hg : s.read_states.get? free_idx with
    | none => exact absurd (List.get?_eq_none.mp hg) (by omega)
    | some v =>
      rw [hg] at hslotn
      simp only [Option.getD_some] at hslotn
      exact congrArg some hslotn
  have hnodup := hInv.nodup
  rw [hfree] at hnodup
  have hperm : List.Perm
      ((s.read_states.set free_idx (some (state.initBuffer buf free_idx))).filterMap id)
      (state.initBuffer buf free_idx :: s.read_states.filterMap id) :=
    filterMap_set_some_perm _ _ _ hget
  refine ⟨?_, ?_, ?_, ?_, ?_, ?_, ?_, ?_, ?_, ?_, ?_, ?_, ?_, ?_, ?_⟩
  · show (s.read_states.set free_idx (some (state.initBuffer buf free_idx))).length =
        RING_SIZE
    simpa using hInv.len_sb
  · show (s.shared_buffers.set free_idx none).length = RING_SIZE
    simpa using hInv.len_bufs
  · exact hnodup.of_cons
  · intro i hi
    exact hInv.free_lt i (hfree ▸ List.mem_cons_of_mem _ hi)
  · intro i hi
    have hne : i ≠ free_idx := fun he => (List.nodup_cons.mp hnodup).1 (he ▸ hi)
    show ((s.read_states.set free_idx (some (state.initBuffer buf free_idx))).get?
        i).getD none = none
    rw [getD_get?_set_ne _ _ _ _ (Ne.symm hne)]
    exact hInv.free_none i (hfree ▸ List.mem_cons_of_mem _ hi)
  · intro i hilt hslot
    replace hslot : ((s.read_states.set free_idx
        (some (state.initBuffer buf free_idx))).get? i).getD none = none := hslot
    by_cases hne : i = free_idx
    · subst hne
      rw [getD_get?_set_eq _ _ _ hlt] at hslot
      exact Option.noConfusion hslot
    · rw [getD_get?_set_ne _ _ _ _ (Ne.symm hne)] at hslot
      have := hInv.none_free i hilt hslot
      rw [hfree] at this
      rcases List.mem_cons.mp this with rfl | h
      · exact absurd rfl hne
      · exact h
  · have hc := hInv.count_eq
    have hl := hperm.length_eq
    rw [hfree] at hc
    simp only [occupiedCount, submit_for_read, List.length_cons] at hc hl ⊢
    omega
  · intro i hi
    have hne : i ≠ free_idx := fun he => (List.nodup_cons.mp hnodup).1 (he ▸ hi)
    show ((s.shared_buffers.set free_idx none).get? i).getD none |>.isSome
    rw [getD_get?_set_ne _ _ _ _ (Ne.symm hne)]
    exact hInv.buf_sync i (hfree ▸ List.mem_cons_of_mem _ hi)
  · intro b hb
    exact hInv.pend_wf b (List.mem_cons_of_mem _ hb)
  · intro i c hslot
    replace hslot : ((s.read_states.set free_idx
        (some (state.initBuffer buf free_idx))).get? i).getD none = some c := hslot
    by_cases hne : i = free_idx
    · subst hne
      rw [getD_get?_set_eq _ _ _ hlt] at hslot
      obtain rfl : state.initBuffer buf i = c := Option.some.inj hslot
      exact ⟨hfs', hfl', hpos', hctx', ab', hab', hablen'⟩
    · rw [getD_get?_set_ne _ _ _ _ (Ne.symm hne)] at hslot
      exact hInv.wf i c hslot
  · intro p d hmem
    replace hmem : Msg.ok p d ∈ sentMsgs (s.events ++
        [Event.submitRead free_idx (state.initBuffer buf free_idx).path
          (lentLen (state.initBuffer buf free_idx))
          (state.initBuffer buf free_idx).position]) := hmem
    rw [sentMsgs_append] at hmem
    rcases List.mem_append.mp hmem with hmem | hmem
    · exact hInv.sent_ok p d hmem
    · simp [sentMsgs] at hmem
  · intro p hmem
    replace hmem : Msg.err p ∈ sentMsgs (s.events ++
        [Event.submitRead free_idx (state.initBuffer buf free_idx).path
          (lentLen (state.initBuffer buf free_idx))
          (state.initBuffer buf free_idx).position]) := hmem
    rw [sentMsgs_append] at hmem
    rcases List.mem_append.mp hmem with hmem | hmem
    · exact hInv.sent_err p hmem
    · simp [sentMsgs] at hmem
  · intro i p len off hmem
    replace hmem : Event.submitRead i p len off ∈ s.events ++
        [Event.submitRead free_idx (state.initBuffer buf free_idx).path
          (lentLen (state.initBuffer buf free_idx))
          (state.initBuffer buf free_idx).position] := hmem
    rcases List.mem_append.mp hmem with hmem | hmem
    · exact hInv.submits i p len off hmem
    · simp at hmem
      obtain ⟨-, hp, hlen, hoff⟩ := hmem
      subst hp
      subst hlen
      subst hoff
      refine ⟨state.contents, ?_, ?_, ?_⟩
      · rw [hpath, hfs]
      · rw [hposeq]
        omega
      · have hll : lentLen (state.initBuffer buf free_idx) = ab'.len := by
          simp [lentLen, hab']
        rw [hll, hablen']
        have hf2 : (state.initBuffer buf free_idx).file_len = state.file_len := rfl
        rw [hf2, hfl]
  · show (s.events ++
        [Event.submitRead free_idx (state.initBuffer buf free_idx).path
          (lentLen (state.initBuffer buf free_idx))
          (state.initBuffer buf free_idx).position]).count Event.probe = 1
    simp [List.count_append, List.count_singleton, hInv.probe_once]
  · refine List.perm_iff_count.mpr fun a => ?_
    have hacct := hInv.acct.count_eq a
    have hifp := (hperm.map ReadState.path).count_eq a
    show ((more.map ReadState.path) ++
        ((s.read_states.set free_idx
          (some (state.initBuffer buf free_idx))).filterMap id).map ReadState.path ++
        sentPaths (s.events ++
          [Event.submitRead free_idx (state.initBuffer buf free_idx).path
            (lentLen (state.initBuffer buf free_idx))
            (state.initBuffer buf free_idx).position])).count a = input.count a
    rw [sentPaths_append]
    have hsp : sentPaths
        [Event.submitRead free_idx (state.initBuffer buf free_idx).path
          (lentLen (state.initBuffer buf free_idx))
          (state.initBuffer buf free_idx).position] = [] := rfl
    rw [hsp]
    simp only [List.count_append, List.count_cons, List.count_nil, List.map_cons,
      List.append_nil, inFlightPaths, hpath] at hacct hifp ⊢
    by_cases hab : a = state.path <;> simp [hab, beq_iff_eq] at hacct hifp ⊢ <;> omega

/-- The refill phase preserves the invariant. -/
theorem refill_inv_fb {fsys : FileSystem} {input : List FPath} (files : List ReadState)
    (s : SState) (q : Bool) (hInv : Inv fsys input files s) :
    Inv fsys input (refill files s q).1 (refill files s q).2.1 ∧
      ∀ x ∈ (refill files s q).2.2.2, ∃ fs', Inv fsys input fs' x := by
  induction files, s, q using refill.induct with
  | case1 files s q hfree =>
    rw [refill]
    simp only [hfree]
    exact ⟨hInv, by simp⟩
  | case2 s q free_idx rest hfree =>
    rw [refill]
    simp only [hfree]
    exact ⟨hInv, by simp⟩
  | case3 s q free_idx rest hfree state more hbuf =>
    rw [refill]
    simp only [hfree, hbuf]
    exact ⟨hInv, by simp⟩
  | case4 s q free_idx rest hfree state more buf hbuf st s1 s2 ih =>
    rw [refill]
    simp only [hfree, hbuf]
    have hInv' : Inv fsys input more s2 := refill_ok_inv_fb hInv hfree hbuf
    obtain ⟨h1, h2⟩ := ih hInv'
    refine ⟨h1, fun x hx => ?_⟩
    rcases List.mem_cons.mp hx with rfl | hx
    · exact ⟨more, hInv'⟩
    · exact h2 x hx

/-- The wait-and-handle step preserves the invariant. -/
theorem swhr_inv_fb {fsys : FileSystem} {input : List FPath}
    {files : List ReadState} {s : SState} (hInv : Inv fsys input files s)
    (choice : Nat) :
    Inv fsys input files (submit_wait_and_handle_result s choice) := by
  unfold submit_wait_and_handle_result
  cases hocc : occupiedIndices s with
  | nil => exact hInv
  | cons i rest =>
    have hlen : choice % (i :: rest).length < (i :: rest).length :=
      Nat.mod_lt _ (by simp)
    have hmem : (i :: rest).getD (choice % (i :: rest).length) 0 ∈ i :: rest := by
      rw [List.getD_eq_get _ _ hlen]
      exact List.get_mem _ _ _
    have hmem2 : (i :: rest).getD (choice % (i :: rest).length) 0 ∈ occupiedIndices s := by
      rw [hocc]
      exact hmem
    have hsome := (List.mem_filter.mp hmem2).2
    obtain ⟨st, hst⟩ := Option.isSome_iff_exists.mp hsome
    obtain ⟨-, -, -, -, ab, hab, -⟩ := hInv.wf _ st hst
    show Inv fsys input files
      (handle_result s ((i :: rest).getD (choice % (i :: rest).length) 0)
        (requestedAt s ((i :: rest).getD (choice % (i :: rest).length) 0)))
    have hreq : requestedAt s ((i :: rest).getD (choice % (i :: rest).length) 0) =
        ab.len := by
      unfold requestedAt
      rw [hst]
      simp [lentLen, hab]
    rw [hreq]
    exact handle_result_full_inv_fb hst hab hInv

/-- `drain` preserves the invariant at the same pending list. -/
theorem drain_inv_fb {fsys : FileSystem} {input : List FPath}
    {files : List ReadState} (choices : Nat → Nat) :
    ∀ fuel t s, Inv fsys input files s →
      Inv fsys input files (drain choices fuel t s).2.1 ∧
        ∀ x ∈ (drain choices fuel t s).2.2, Inv fsys input files x := by
  intro fuel
  induction fuel with
  | zero =>
    intro t s h
    unfold drain
    split <;> exact ⟨h, by simp⟩
  | succ fuel ih =>
    intro t s h
    unfold drain
    split
    · obtain ⟨h1, h2⟩ := ih (t + 1) _ (swhr_inv_fb h (choices t))
      refine ⟨h1, fun x hx => ?_⟩
      rcases List.mem_cons.mp hx with rfl | hx
      · exact swhr_inv_fb h (choices t)
      · exact h2 x hx
    · exact ⟨h, by simp⟩

/-- The main loop preserves the invariant. -/
theorem runLoop_inv_fb {fsys : FileSystem} {input : List FPath}
    (choices : Nat → Nat) :
    ∀ fuel t files s, Inv fsys input files s →
      Inv fsys input (runLoop choices fuel t files s).2.1
        (runLoop choices fuel t files s).2.2.1 ∧
        ∀ x ∈ (runLoop choices fuel t files s).2.2.2,
          ∃ fs', Inv fsys input fs' x := by
  intro fuel
  induction fuel with
  | zero =>
    intro t files s h
    exact ⟨h, by simp [runLoop]⟩
  | succ fuel ih =>
    intro t files s h
    rw [runLoop]
    obtain ⟨h1, h2⟩ := refill_inv_fb files s false h
    split
    · obtain ⟨h3, h4⟩ := ih (t + 1) (refill files s false).1
        (submit_wait_and_handle_result (refill files s false).2.1 (choices t))
        (swhr_inv_fb h1 (choices t))
      refine ⟨h3, fun x hx => ?_⟩
      rcases List.mem_append.mp hx with hx | hx
      · exact h2 x hx
      · rcases List.mem_cons.mp hx with rfl | hx
        · exact ⟨(refill files s false).1, swhr_inv_fb h1 (choices t)⟩
        · exact h4 x hx
    · obtain ⟨h3, h4⟩ := drain_inv_fb choices fuel t (refill files s false).2.1 h1
      refine ⟨h3, fun x hx => ?_⟩
      rcases List.mem_append.mp hx with hx | hx
      · exact h2 x hx
      · exact ⟨(refill files s false).1, h4 x hx⟩

/-- `drain` only reports `done` once every slot is free. -/
theorem drain_done_fb (choices : Nat → Nat) :
    ∀ fuel t s, (drain choices fuel t s).1 = .done →
      ¬ ((drain choices fuel t s).2.1.free_index_list.length < RING_SIZE) := by
  intro fuel
  induction fuel with
  | zero =>
    intro t s h
    by_cases hlt : s.free_index_list.length < RING_SIZE
    · rw [drain, if_pos hlt] at h
      simp at h
    · rw [drain, if_neg hlt]
      simpa using hlt
  | succ fuel ih =>
    intro t s h
    by_cases hlt : s.free_index_list.length < RING_SIZE
    · rw [drain, if_pos hlt] at h ⊢
      exact ih (t + 1) _ h
    · rw [drain, if_neg hlt]
      simpa using hlt

/-- A `done` run has admitted every pending file and freed every slot. -/
theorem runLoop_done_fb (choices : Nat → Nat) :
    ∀ fuel t files s, (runLoop choices fuel t files s).1 = .done →
      (runLoop choices fuel t files s).2.1 = [] ∧
      ¬ ((runLoop choices fuel t files s).2.2.1.free_index_list.length <
          RING_SIZE) := by
  intro fuel
  induction fuel with
  | zero =>
    intro t files s h
    rw [runLoop] at h
    simp at h
  | succ fuel ih =>
    intro t files s h
    by_cases hcond : ((refill files s false).2.2.1 ||
        !(refill files s false).1.isEmpty) = true
    · simp only [runLoop, hcond, if_true] at h ⊢
      exact ih (t + 1) _ _ h
    · have hf : ((refill files s false).2.2.1 ||
          !(refill files s false).1.isEmpty) = false := by
        revert hcond
        cases ((refill files s false).2.2.1 || !(refill files s false).1.isEmpty) <;>
          simp
      have hempty : (refill files s false).1 = [] := by
        rw [Bool.or_eq_false_iff] at hf
        have h2 := hf.2
        cases hE : (refill files s false).1 with
        | nil => rfl
        | cons a l =>
          rw [hE] at h2
          simp at h2
      simp only [runLoop, hf, Bool.false_eq_true, if_false] at h ⊢
      exact ⟨hempty, drain_done_fb choices fuel t _ h⟩

/-- With no pending file and every slot free, the channel transcript is a
permutation of the input. -/
theorem final_sent_perm_fb {fsys : FileSystem} {input : List FPath} {s : SState}
    (hInv : Inv fsys input [] s)
    (hfree : ¬ (s.free_index_list.length < RING_SIZE)) :
    List.Perm (sentPaths s.events) input := by
  have hc := hInv.count_eq
  have hocc : occupiedCount s = 0 := by omega
  have hnil : s.read_states.filterMap id = [] := List.length_eq_zero.mp hocc
  have hifp : inFlightPaths s = [] := by simp [inFlightPaths, hnil]
  have hacct := hInv.acct
  rw [hifp] at hacct
  simpa using hacct

/-- Facts about the pre-loop pass (as for with_register_files). -/
theorem setupFiles_facts_fb (fsys : FileSystem) (od : Bool) :
    ∀ paths fi,
      (∀ st ∈ (setupFiles fsys od paths fi).1, PendWF fsys st) ∧
      (∀ p d, Msg.ok p d ∈ sentMsgs (setupFiles fsys od paths fi).2 → False) ∧
      (∀ p, Msg.err p ∈ sentMsgs (setupFiles fsys od paths fi).2 → fsys p = none) ∧
      (∀ i p len off,
        Event.submitRead i p len off ∈ (setupFiles fsys od paths fi).2 → False) ∧
      ((setupFiles fsys od paths fi).2.count Event.probe = 0) ∧
      List.Perm ((setupFiles fsys od paths fi).1.map ReadState.path ++
        sentPaths (setupFiles fsys od paths fi).2) paths := by
  intro paths
  induction paths with
  | nil =>
    intro fi
    simp [setupFiles, sentMsgs, sentPaths]
  | cons path more ih =>
    intro fi
    rw [setupFiles]
    cases hnew : ReadState.new fsys path fi od with
    | some st =>
      obtain ⟨hwf, hpath⟩ := ReadState.new_wf_fb hnew
      obtain ⟨ih1, ih2, ih3, ih4, ih5, ih6⟩ := ih (fi + 1)
      refine ⟨?_, ?_, ?_, ?_, ?_, ?_⟩
      · intro b hb
        rcases List.mem_cons.mp hb with rfl | hb
        · exact hwf
        · exact ih1 b hb
      · intro p d hmem
        exact ih2 p d (by simpa [sentMsgs] using hmem)
      · intro p hmem
        exact ih3 p (by simpa [sentMsgs] using hmem)
      · intro i p len off hmem
        rcases List.mem_cons.mp hmem with hmem | hmem
        · exact Event.noConfusion hmem
        · exact ih4 i p len off hmem
      · simpa [List.count_cons] using ih5
      · show List.Perm (st.path :: (setupFiles fsys od more (fi + 1)).1.map
            ReadState.path ++ sentPaths (Event.openOk path ::
              (setupFiles fsys od more (fi + 1)).2)) (path :: more)
        have hsp : sentPaths (Event.openOk path ::
            (setupFiles fsys od more (fi + 1)).2) =
            sentPaths (setupFiles fsys od more (fi + 1)).2 := rfl
        rw [hsp, hpath]
        exact (ih6.cons path)
    | none =>
      have hfsn := ReadState.new_eq_none_fb.mp hnew
      obtain ⟨ih1, ih2, ih3, ih4, ih5, ih6⟩ := ih fi
      refine ⟨ih1, ?_, ?_, ?_, ?_, ?_⟩
      · intro p d hmem
        exact ih2 p d (by simpa [sentMsgs] using hmem)
      · intro p hmem
        replace hmem : Msg.err p ∈ Msg.err path ::
            sentMsgs (setupFiles fsys od more fi).2 := by
          simpa [sentMsgs] using hmem
        rcases List.mem_cons.mp hmem with hmem | hmem
        · obtain rfl : p = path := Msg.err.inj hmem
          exact hfsn
        · exact ih3 p hmem
      · intro i p len off hmem
        rcases List.mem_cons.mp hmem with hmem | hmem
        · exact Event.noConfusion hmem
        · rcases List.mem_cons.mp hmem with hmem | hmem
          · exact Event.noConfusion hmem
          · exact ih4 i p len off hmem
      · simpa [List.count_cons] using ih5
      · show List.Perm ((setupFiles fsys od more fi).1.map ReadState.path ++
            sentPaths (Event.openErr path :: Event.send (Msg.err path) ::
              (setupFiles fsys od more fi).2)) (path :: more)
        have hsp : sentPaths (Event.openErr path :: Event.send (Msg.err path) ::
            (setupFiles fsys od more fi).2) =
            path :: sentPaths (setupFiles fsys od more fi).2 := rfl
        rw [hsp]
        exact (List.perm_middle).trans (ih6.cons path)

/-- The invariant holds on entry to the loop. -/
theorem init_inv_fb (fsys : FileSystem) (input : List FPath) (od : Bool) :
    Inv fsys input (setupFiles fsys od input 0).1
      (initState (Event.probe :: (setupFiles fsys od input 0).2)) := by
  obtain ⟨h1, h2, h3, h4, h5, h6⟩ := setupFiles_facts_fb fsys od input 0
  refine ⟨?_, ?_, ?_, ?_, ?_, ?_, ?_, ?_, ?_, ?_, ?_, ?_, ?_, ?_, ?_⟩
  · simp [initState, RING_SIZE]
  · simp [initState, RING_SIZE]
  · simp [initState, List.nodup_range]
  · intro i hi
    simpa [initState, List.mem_range] using hi
  · intro i hi
    exact getD_get?_replicate_none RING_SIZE i
  · intro i hi hslot
    simp [initState, List.mem_range, hi]
  · simp [initState, occupiedCount, List.filterMap_replicate]
  · intro i hi
    have hilt : i < RING_SIZE := by
      simpa [initState, List.mem_range] using hi
    show ((List.replicate RING_SIZE
        (some AlignedBuffer.new)).get? i).getD none |>.isSome
    rw [List.get?_eq_get (by simpa using hilt), List.get_replicate]
    rfl
  · exact h1
  · intro i b hslot
    rw [show slotAt (initState (Event.probe :: (setupFiles fsys od input 0).2)) i =
        ((List.replicate RING_SIZE (none : Option ReadState)).get? i).getD none
        from rfl,
      getD_get?_replicate_none] at hslot
    exact Option.noConfusion hslot
  · intro p d hmem
    replace hmem : Msg.ok p d ∈ sentMsgs (setupFiles fsys od input 0).2 := by
      simpa [sentMsgs, initState] using hmem
    exact absurd hmem (fun h => h2 p d h)
  · intro p hmem
    replace hmem : Msg.err p ∈ sentMsgs (setupFiles fsys od input 0).2 := by
      simpa [sentMsgs, initState] using hmem
    exact h3 p hmem
  · intro i p len off hmem
    replace hmem : Event.submitRead i p len off ∈
        Event.probe :: (setupFiles fsys od input 0).2 := hmem
    rcases List.mem_cons.mp hmem with hmem | hmem
    · exact Event.noConfusion hmem
    · exact absurd hmem (fun h => h4 i p len off h)
  · show (Event.probe :: (setupFiles fsys od input 0).2).count Event.probe = 1
    simp [List.count_cons, h5]
  · show List.Perm ((setupFiles fsys od input 0).1.map ReadState.path ++
        inFlightPaths (initState (Event.probe :: (setupFiles fsys od input 0).2)) ++
        sentPaths (Event.probe :: (setupFiles fsys od input 0).2)) input
    have hifp : inFlightPaths
        (initState (Event.probe :: (setupFiles fsys od input 0).2)) = [] := by
      simp [inFlightPaths, initState, List.filterMap_replicate]
    have hsp : sentPaths (Event.probe :: (setupFiles fsys od input 0).2) =
        sentPaths (setupFiles fsys od input 0).2 := rfl
    rw [hifp, hsp]
    simpa using h6

/-- With all three probes passing and nothing blocking buffer
registration, `get_checksums` runs the scheduler loop. -/
theorem get_checksums_run_eq_fb {probe : Probe} (fsys : FileSystem)
    (choices : Nat → Nat) (bok : Bool) (files : List FPath) (od : Bool) (fuel : Nat)
    (h1 : probe.read = true) (h2 : probe.register_files = true)
    (h3 : probe.read_fixed = true)
    (h4 : (!(setupFiles fsys od files 0).1.isEmpty && !bok) = false) :
    get_checksums probe fsys choices bok files od fuel =
      ((runLoop choices fuel 0 (setupFiles fsys od files 0).1
          (initState (Event.probe :: (setupFiles fsys od files 0).2))).1,
       (runLoop choices fuel 0 (setupFiles fsys od files 0).1
          (initState (Event.probe :: (setupFiles fsys od files 0).2))).2.1,
       (runLoop choices fuel 0 (setupFiles fsys od files 0).1
          (initState (Event.probe :: (setupFiles fsys od files 0).2))).2.2.1,
       initState (Event.probe :: (setupFiles fsys od files 0).2) ::
         (runLoop choices fuel 0 (setupFiles fsys od files 0).1
            (initState (Event.probe :: (setupFiles fsys od files 0).2))).2.2.2) := by
  simp [get_checksums, h1, h2, h3, h4]

/-- Every state of a run's trace satisfies the invariant for some pending
list. -/
theorem get_checksums_trace_inv_fb (probe : Probe) (fsys : FileSystem)
    (choices : Nat → Nat) (bok : Bool) (files : List FPath) (od : Bool) (fuel : Nat) :
    ∀ x ∈ (get_checksums probe fsys choices bok files od fuel).2.2.2,
      ∃ fs', Inv fsys files fs' x := by
  cases h1 : probe.read with
  | false =>
    intro x hx
    simp [get_checksums, h1] at hx
  | true =>
    cases h2 : probe.register_files with
    | false =>
      intro x hx
      simp [get_checksums, h1, h2] at hx
    | true =>
      cases h3 : probe.read_fixed with
      | false =>
        intro x hx
        simp [get_checksums, h1, h2, h3] at hx
      | true =>
        cases h4 : (!(setupFiles fsys od files 0).1.isEmpty && !bok) with
        | true =>
          intro x hx
          simp [get_checksums, h1, h2, h3, h4] at hx
        | false =>
          rw [get_checksums_run_eq_fb fsys choices bok files od fuel h1 h2 h3 h4]
          intro x hx
          rcases List.mem_cons.mp hx with rfl | hx
          · exact ⟨(setupFiles fsys od files 0).1, init_inv_fb fsys files od⟩
          · exact (runLoop_inv_fb choices fuel 0 _ _ (init_inv_fb fsys files od)).2 x hx

/-- A `done` run satisfies the invariant with nothing pending, and its
channel transcript is a permutation of the input. -/
theorem get_checksums_done_perm_fb (probe : Probe) (fsys : FileSystem)
    (choices : Nat → Nat) (bok : Bool) (files : List FPath) (od : Bool) (fuel : Nat)
    (hdone : (get_checksums probe fsys choices bok files od fuel).1 = .done) :
    Inv fsys files [] (get_checksums probe fsys choices bok files od fuel).2.2.1 ∧
    List.Perm
      (sentPaths (get_checksums probe fsys choices bok files od fuel).2.2.1.events)
      files := by
  cases h1 : probe.read with
  | false => simp [get_checksums, h1] at hdone
  | true =>
    cases h2 : probe.register_files with
    | false => simp [get_checksums, h1, h2] at hdone
    | true =>
      cases h3 : probe.read_fixed with
      | false => simp [get_checksums, h1, h2, h3] at hdone
      | true =>
        cases h4 : (!(setupFiles fsys od files 0).1.isEmpty && !bok) with
        | true => simp [get_checksums, h1, h2, h3, h4] at hdone
        | false =>
          have heq := get_checksums_run_eq_fb fsys choices bok files od fuel h1 h2 h3 h4
          rw [heq] at hdone ⊢
          obtain ⟨hempty, hfree⟩ := runLoop_done_fb choices fuel 0 _ _ hdone
          have hInv := (runLoop_inv_fb choices fuel 0 _ _ (init_inv_fb fsys files od)).1
          rw [hempty] at hInv
          exact ⟨hInv, final_sent_perm_fb hInv hfree⟩

/-- In an invariant state, every success message for a readable file
carries exactly the sequential digest of the file's contents. -/
theorem sent_ok_unique_fb {fsys : FileSystem} {input : List FPath}
    {files : List ReadState} {s : SState} (hInv : Inv fsys input files s)
    {p : FPath} {c : List Byte} (hfs : fsys p = some c) :
    ∀ d, Msg.ok p d ∈ sentMsgs s.events → d = Md5.mk c := by
  intro d hm
  have hd := hInv.sent_ok p d hm
  rw [hfs] at hd
  obtain rfl : d.fed = c := (Option.some.inj hd).symm
  rfl

/-- Every readable input file received its success message. -/
theorem sent_ok_mem_fb {fsys : FileSystem} {input : List FPath} {s : SState}
    (hInv : Inv fsys input [] s)
    (hperm : List.Perm (sentPaths s.events) input) {p : FPath} {c : List Byte}
    (hp : p ∈ input) (hfs : fsys p = some c) :
    Msg.ok p (Md5.mk c) ∈ sentMsgs s.events := by
  have hmem : p ∈ sentPaths s.events := hperm.mem_iff.mpr hp
  obtain ⟨m, hm, hmp⟩ := List.mem_map.mp hmem
  cases m with
  | err q =>
    obtain rfl : p = q := hmp.symm
    have := hInv.sent_err p hm
    rw [hfs] at this
    exact Option.noConfusion this
  | ok q d =>
    obtain rfl : p = q := hmp.symm
    have hd := hInv.sent_ok p d hm
    rw [hfs] at hd
    obtain rfl : d.fed = c := (Option.some.inj hd).symm
    exact hm

/-- Every unopenable input path received its error message. -/
theorem sent_err_mem_fb {fsys : FileSystem} {input : List FPath} {s : SState}
    (hInv : Inv fsys input [] s)
    (hperm : List.Perm (sentPaths s.events) input) {p : FPath}
    (hp : p ∈ input) (hfs : fsys p = none) :
    Msg.err p ∈ sentMsgs s.events := by
  have hmem : p ∈ sentPaths s.events := hperm.mem_iff.mpr hp
  obtain ⟨m, hm, hmp⟩ := List.mem_map.mp hmem
  cases m with
  | err q =>
    obtain rfl : p = q := hmp.symm
    exact hm
  | ok q d =>
    obtain rfl : p = q := hmp.symm
    have := hInv.sent_ok p d hm
    rw [hfs] at this
    exact Option.noConfusion this

end WithFixedBuffers

namespace SimpleUring

/-- `submit_wait_and_handle_result` is the only place a cursor changes, and
it never decreases one: a slot still occupied afterwards has advanced (or
kept) its position. -/
theorem handle_result_position_mono {s : SState} (idx k i : Nat)
    {b b' : Buffer} (hb : slotAt s i = some b)
    (hb' : slotAt (handle_result s idx k) i = some b') :
    b.position ≤ b'.position := by
  unfold handle_result at hb'
  cases hj : slotAt s idx with
  | none =>
    rw [hj] at hb'
    rw [hb] at hb'
    obtain rfl := Option.some.inj hb'
    exact le_refl _
  | some buffer =>
    have hltj : idx < s.shared_buffers.length := slotAt_lt_of_some hj
    simp only [hj] at hb'
    split at hb'
    · by_cases hi : i = idx
      · subst hi
        replace hb' : ((s.shared_buffers.set i none).get? i).getD none = some b' := hb'
        rw [getD_get?_set_eq _ _ _ hltj] at hb'
        exact Option.noConfusion hb'
      · replace hb' : ((s.shared_buffers.set idx none).get? i).getD none = some b' := hb'
        rw [getD_get?_set_ne _ _ _ _ (Ne.symm hi)] at hb'
        replace hb : (s.shared_buffers.get? i).getD none = some b := hb
        rw [hb] at hb'
        obtain rfl := Option.some.inj hb'
        exact le_refl _
    · by_cases hi : i = idx
      · subst hi
        replace hb' : ((s.shared_buffers.set i _).get? i).getD none = some b' := hb'
        rw [getD_get?_set_eq _ _ _ hltj] at hb'
        obtain rfl := Option.some.inj hb'
        rw [hb] at hj
        obtain rfl := Option.some.inj hj
        exact Nat.le_add_right _ _
      · replace hb' : ((s.shared_buffers.set idx _).get? i).getD none = some b' := hb'
        rw [getD_get?_set_ne _ _ _ _ (Ne.symm hi)] at hb'
        replace hb : (s.shared_buffers.get? i).getD none = some b := hb
        rw [hb] at hb'
        obtain rfl := Option.some.inj hb'
        exact le_refl _

theorem swhr_position_mono (s : SState) (choice i : Nat) {b b' : Buffer}
    (hb : slotAt s i = some b)
    (hb' : slotAt (submit_wait_and_handle_result s choice) i = some b') :
    b.position ≤ b'.position := by
  unfold submit_wait_and_handle_result at hb'
  cases hocc : occupiedIndices s with
  | nil =>
    rw [hocc] at hb'
    rw [hb] at hb'
    obtain rfl := Option.some.inj hb'
    exact le_refl _
  | cons j rest =>
    rw [hocc] at hb'
    exact handle_result_position_mono _ _ _ hb hb'

end SimpleUring

namespace WithRegisterFiles

/-- Cursor monotonicity of the completion handler. -/
theorem handle_result_position_mono_rf {s : SState} (idx k i : Nat)
    {b b' : Buffer} (hb : slotAt s i = some b)
    (hb' : slotAt (handle_result s idx k) i = some b') :
    b.position ≤ b'.position := by
  unfold handle_result at hb'
  cases hj : slotAt s idx with
  | none =>
    rw [hj] at hb'
    rw [hb] at hb'
    obtain rfl := Option.some.inj hb'
    exact le_refl _
  | some buffer =>
    have hltj : idx < s.shared_buffers.length := slotAt_lt_of_some_rf hj
    simp only [hj] at hb'
    split at hb'
    · by_cases hi : i = idx
      · subst hi
        replace hb' : ((s.shared_buffers.set i none).get? i).getD none = some b' := hb'
        rw [getD_get?_set_eq _ _ _ hltj] at hb'
        exact Option.noConfusion hb'
      · replace hb' : ((s.shared_buffers.set idx none).get? i).getD none = some b' := hb'
        rw [getD_get?_set_ne _ _ _ _ (Ne.symm hi)] at hb'
        replace hb : (s.shared_buffers.get? i).getD none = some b := hb
        rw [hb] at hb'
        obtain rfl := Option.some.inj hb'
        exact le_refl _
    · by_cases hi : i = idx
      · subst hi
        replace hb' : ((s.shared_buffers.set i _).get? i).getD none = some b' := hb'
        rw [getD_get?_set_eq _ _ _ hltj] at hb'
        obtain rfl := Option.some.inj hb'
        rw [hb] at hj
        obtain rfl := Option.some.inj hj
        exact Nat.le_add_right _ _
      · replace hb' : ((s.shared_buffers.set idx _).get? i).getD none = some b' := hb'
        rw [getD_get?_set_ne _ _ _ _ (Ne.symm hi)] at hb'
        replace hb : (s.shared_buffers.get? i).getD none = some b := hb
        rw [hb] at hb'
        obtain rfl := Option.some.inj hb'
        exact le_refl _

theorem swhr_position_mono_rf (s : SState) (choice i : Nat) {b b' : Buffer}
    (hb : slotAt s i = some b)
    (hb' : slotAt (submit_wait_and_handle_result s choice) i = some b') :
    b.position ≤ b'.position := by
  unfold submit_wait_and_handle_result at hb'
  cases hocc : occupiedIndices s with
  | nil =>
    rw [hocc] at hb'
    rw [hb] at hb'
    obtain rfl := Option.some.inj hb'
    exact le_refl _
  | cons j rest =>
    rw [hocc] at hb'
    exact handle_result_position_mono_rf _ _ _ hb hb'

end WithRegisterFiles

namespace WithFixedBuffers

/-- Cursor monotonicity of the completion handler. -/
theorem handle_result_position_mono_fb {s : SState} (idx k i : Nat)
    {st st' : ReadState} (hb : slotAt s i = some st)
    (hb' : slotAt (handle_result s idx k) i = some st') :
    st.position ≤ st'.position := by
  unfold handle_result at hb'
  cases hj : slotAt s idx with
  | none =>
    rw [hj] at hb'
    rw [hb] at hb'
    obtain rfl := Option.some.inj hb'
    exact le_refl _
  | some stj =>
    have hltj : idx < s.read_states.length := slotAt_lt_of_some_fb hj
    simp only [hj] at hb'
    cases hjb : stj.buf with
    | none =>
      simp only [hjb] at hb'
      rw [hb] at hb'
      obtain rfl := Option.some.inj hb'
      exact le_refl _
    | some jbuf =>
      simp only [hjb] at hb'
      split at hb'
      · by_cases hi : i = idx
        · subst hi
          replace hb' : ((s.read_states.set i none).get? i).getD none = some st' := hb'
          rw [getD_get?_set_eq _ _ _ hltj] at hb'
          exact Option.noConfusion hb'
        · replace hb' : ((s.read_states.set idx none).get? i).getD none = some st' :=
            hb'
          rw [getD_get?_set_ne _ _ _ _ (Ne.symm hi)] at hb'
          replace hb : (s.read_states.get? i).getD none = some st := hb
          rw [hb] at hb'
          obtain rfl := Option.some.inj hb'
          exact le_refl _
      · by_cases hi : i = idx
        · subst hi
          replace hb' : ((s.read_states.set i _).get? i).getD none = some st' := hb'
          rw [getD_get?_set_eq _ _ _ hltj] at hb'
          obtain rfl := Option.some.inj hb'
          rw [hb] at hj
          obtain rfl := Option.some.inj hj
          exact Nat.le_add_right _ _
        · replace hb' : ((s.read_states.set idx _).get? i).getD none = some st' := hb'
          rw [getD_get?_set_ne _ _ _ _ (Ne.symm hi)] at hb'
          replace hb : (s.read_states.get? i).getD none = some st := hb
          rw [hb] at hb'
          obtain rfl := Option.some.inj hb'
          exact le_refl _

theorem swhr_position_mono_fb (s : SState) (choice i : Nat) {st st' : ReadState}
    (hb : slotAt s i = some st)
    (hb' : slotAt (submit_wait_and_handle_result s choice) i = some st') :
    st.position ≤ st'.position := by
  unfold submit_wait_and_handle_result at hb'
  cases hocc : occupiedIndices s with
  | nil =>
    rw [hocc] at hb'
    rw [hb] at hb'
    obtain rfl := Option.some.inj hb'
    exact le_refl _
  | cons j rest =>
    rw [hocc] at hb'
    exact handle_result_position_mono_fb _ _ _ hb hb'

end WithFixedBuffers

namespace WithoutUring

/-! ## src/without_uring.rs -/

/-- `without_uring::get_checksums`: for each path in input order, open the
file (honouring `o_direct`), memory-map it, and feed the whole mapping to
a fresh digest in a single `update`; send `Ok` with the digest or `Err`
with the open/map error.  (memmap2 maps an empty file as an empty slice.)
The channel transcript is returned directly. -/
def get_checksums (fsys : FileSystem) (files : List FPath) (o_direct : Bool) :
    List Msg :=
  files.map fun path =>
    match fsys path with
    | some contents => .ok path (Md5.new.update contents)
    | none => .err path

theorem ok_mem_wu {fsys : FileSystem} {files : List FPath} {od : Bool}
    {p : FPath} {c : List Byte} (hp : p ∈ files) (hc : fsys p = some c) :
    Msg.ok p (Md5.new.update c) ∈ get_checksums fsys files od := by
  have : Msg.ok p (Md5.new.update c) =
      (match fsys p with
       | some contents => Msg.ok p (Md5.new.update contents)
       | none => Msg.err p) := by
    rw [hc]
  rw [this]
  exact List.mem_map_of_mem _ hp

theorem ok_unique_wu {fsys : FileSystem} {files : List FPath} {od : Bool}
    {p : FPath} {c : List Byte} (hc : fsys p = some c) :
    ∀ d, Msg.ok p d ∈ get_checksums fsys files od → d = Md5.new.update c := by
  intro d hmem
  obtain ⟨q, -, hq⟩ := List.mem_map.mp hmem
  cases hfq : fsys q with
  | none =>
    rw [hfq] at hq
    exact Msg.noConfusion hq
  | some c' =>
    rw [hfq] at hq
    obtain ⟨rfl, rfl⟩ : q = p ∧ Md5.new.update c' = d := by
      constructor
      · exact (Msg.ok.inj hq).1
      · exact (Msg.ok.inj hq).2
    rw [hfq] at hc
    rw [(Option.some.inj hc)]

theorem err_mem_wu {fsys : FileSystem} {files : List FPath} {od : Bool}
    {p : FPath} (hp : p ∈ files) (hc : fsys p = none) :
    Msg.err p ∈ get_checksums fsys files od := by
  have : Msg.err p =
      (match fsys p with
       | some contents => Msg.ok p (Md5.new.update contents)
       | none => Msg.err p) := by
    rw [hc]
  rw [this]
  exact List.mem_map_of_mem _ hp

/-- Each input path produces exactly one message, in input order. -/
theorem paths_eq_wu (fsys : FileSystem) (files : List FPath) (od : Bool) :
    (get_checksums fsys files od).map Msg.path = files := by
  induction files with
  | nil => rfl
  | cons p more ih =>
    simp only [get_checksums, List.map_cons] at ih ⊢
    rw [ih]
    cases hc : fsys p <;> simp [hc, Msg.path]

end WithoutUring

/-! ## Claims

Concrete fixtures used by the closed instantiations below: a file system
with a 3-byte file at path 0 and an empty file at path 1, a constant
completion oracle, and a fully capable probe. -/

def fsysW : FileSystem := fun p =>
  if p = 0 then some [1, 2, 3] else if p = 1 then some [] else none

def chW : Nat → Nat := fun _ => 0

def probeW : Probe := ⟨true, true, true⟩

/-- Seventeen empty files at paths 0–16. -/
def fsysE : FileSystem := fun p => if p < 17 then some [] else none

/-- Claim C1: for every strategy variant (simple_uring, with_register_files,
with_fixed_buffers, without_uring) and every readable file — any length,
including 0, below one chunk, exactly one chunk, one chunk plus one byte,
several chunks — the digest the engine emits for that file equals the
digest obtained by feeding the whole file's contents sequentially to the
digest accumulator.  Completed reads transfer exactly the requested number
of bytes (the claim's full-transfer assumption is the run model's kernel
semantics), the completion order is arbitrary (`choices`), and for the
three scheduler variants the run is one whose loop exits normally. -/
theorem C1_digest_matches_sequential (fsys : FileSystem) (choices : Nat → Nat)
    (probe : Probe) (files : List FPath) (fuel : Nat) (od bok : Bool)
    (p : FPath) (c : List Byte) (hp : p ∈ files) (hc : fsys p = some c) :
    ((SimpleUring.get_checksums probe fsys choices files fuel).1 = .done →
      Msg.ok p (Md5.new.update c) ∈ sentMsgs
        (SimpleUring.get_checksums probe fsys choices files fuel).2.2.1.events ∧
      ∀ d, Msg.ok p d ∈ sentMsgs
          (SimpleUring.get_checksums probe fsys choices files fuel).2.2.1.events →
        d = Md5.new.update c) ∧
    ((WithRegisterFiles.get_checksums probe fsys choices files od fuel).1 = .done →
      Msg.ok p (Md5.new.update c) ∈ sentMsgs
        (WithRegisterFiles.get_checksums probe fsys choices files od fuel).2.2.1.events ∧
      ∀ d, Msg.ok p d ∈ sentMsgs
          (WithRegisterFiles.get_checksums probe fsys choices files od fuel).2.2.1.events →
        d = Md5.new.update c) ∧
    ((WithFixedBuffers.get_checksums probe fsys choices bok files od fuel).1 = .done →
      Msg.ok p (Md5.new.update c) ∈ sentMsgs
        (WithFixedBuffers.get_checksums probe fsys choices bok files od
          fuel).2.2.1.events ∧
      ∀ d, Msg.ok p d ∈ sentMsgs
          (WithFixedBuffers.get_checksums probe fsys choices bok files od
            fuel).2.2.1.events →
        d = Md5.new.update c) ∧
    (Msg.ok p (Md5.new.update c) ∈ WithoutUring.get_checksums fsys files od ∧
      ∀ d, Msg.ok p d ∈ WithoutUring.get_checksums fsys files od →
        d = Md5.new.update c) := by
  have hmk : Md5.new.update c = Md5.mk c := rfl
  refine ⟨?_, ?_, ?_, ?_, ?_⟩
  · intro hdone
    have hread : probe.read = true := by
      cases hb : probe.read with
      | true => rfl
      | false => simp [SimpleUring.get_checksums, hb] at hdone
    obtain ⟨hInv, hperm⟩ :=
      SimpleUring.get_checksums_done_perm fsys choices files fuel hread hdone
    rw [hmk]
    exact ⟨SimpleUring.sent_ok_mem hInv hperm hp hc,
      fun d hd => SimpleUring.sent_ok_unique hInv hc d hd⟩
  · intro hdone
    obtain ⟨hInv, hperm⟩ :=
      WithRegisterFiles.get_checksums_done_perm_rf probe fsys choices files od fuel hdone
    rw [hmk]
    exact ⟨WithRegisterFiles.sent_ok_mem_rf hInv hperm hp hc,
      fun d hd => WithRegisterFiles.sent_ok_unique_rf hInv hc d hd⟩
  · intro hdone
    obtain ⟨hInv, hperm⟩ :=
      WithFixedBuffers.get_checksums_done_perm_fb probe fsys choices bok files od fuel
        hdone
    rw [hmk]
    exact ⟨WithFixedBuffers.sent_ok_mem_fb hInv hperm hp hc,
      fun d hd => WithFixedBuffers.sent_ok_unique_fb hInv hc d hd⟩
  · exact WithoutUring.ok_mem_wu hp hc
  · exact fun d hd => WithoutUring.ok_unique_wu hc d hd

/-- The C1 theorem applied at a concrete 3-byte file (path 0) in a run that
also digests an empty file, under each variant. -/
theorem C1_digest_matches_sequential_witness :
    Msg.ok 0 (Md5.new.update [1, 2, 3]) ∈
      sentMsgs (SimpleUring.get_checksums probeW fsysW chW [0, 1] 10).2.2.1.events ∧
    Msg.ok 0 (Md5.new.update [1, 2, 3]) ∈ sentMsgs
      (WithRegisterFiles.get_checksums probeW fsysW chW [0, 1] false 10).2.2.1.events ∧
    Msg.ok 0 (Md5.new.update [1, 2, 3]) ∈ sentMsgs
      (WithFixedBuffers.get_checksums probeW fsysW chW true [0, 1] false
        10).2.2.1.events ∧
    Msg.ok 0 (Md5.new.update [1, 2, 3]) ∈ WithoutUring.get_checksums fsysW [0, 1] false := by
  have h := C1_digest_matches_sequential fsysW chW probeW [0, 1] 10 false true 0 [1, 2, 3]
    (by decide) (by decide)
  exact ⟨(h.1 (by decide)).1, (h.2.1 (by decide)).1, (h.2.2.1 (by decide)).1,
    h.2.2.2.1⟩

/-- Slot 0 holds a 4-byte file at cursor 0 with a 4-byte read in flight;
the live bytes `[9, 9, 9, 9]` are the stale buffer contents the kernel
would overwrite. -/
def C2buffer : SimpleUring.Buffer :=
  { path := 0, contents := [1, 2, 3, 4], file_len := 4,
    buf := [9, 9, 9, 9], position := 0, ctx := Md5.new }

def C2state : SimpleUring.SState :=
  { shared_buffers :=
      (List.replicate RING_SIZE (none : Option SimpleUring.Buffer)).set 0
        (some C2buffer),
    free_index_list := ((List.range RING_SIZE).reverse).filter (fun i => i != 0),
    events := [Event.probe, Event.submitRead 0 0 4 0] }

/-- The same situation for the register-files variant (aligned buffer of
logical length 4 whose storage holds the stale byte 9 everywhere). -/
def C2bufferRF : WithRegisterFiles.Buffer :=
  { path := 0, contents := [1, 2, 3, 4], file_len := 4,
    buf := { buf := fun _ => 9, len := 4 }, position := 0, ctx := Md5.new,
    file_idx := 0 }

def C2stateRF : WithRegisterFiles.SState :=
  { shared_buffers :=
      (List.replicate RING_SIZE (none : Option WithRegisterFiles.Buffer)).set 0
        (some C2bufferRF),
    free_index_list := ((List.range RING_SIZE).reverse).filter (fun i => i != 0),
    events := [Event.probe, Event.submitRead 0 0 4 0] }

/-- Claim C2: refuted by the code.  `submit_wait_and_handle_result` never
reads the completion entry's transferred-byte count: it advances the cursor
by the requested buffer length (`buffer.position += buffer.buf.len()`) and
feeds the whole buffer to the digest.  On a completion that transferred
only 2 of the 4 requested bytes of a 4-byte file, both cited handlers
declare the file finished (the slot is freed) and emit a digest over the 2
delivered bytes followed by 2 stale buffer bytes — not a digest over
exactly the delivered bytes, and the cursor jumps to 4, not 2. -/
theorem C2_kernel_count_ignored :
    sentMsgs (SimpleUring.handle_result C2state 0 2).events =
      [Msg.ok 0 (Md5.mk [1, 2, 9, 9])] ∧
    SimpleUring.slotAt (SimpleUring.handle_result C2state 0 2) 0 = none ∧
    sentMsgs (WithRegisterFiles.handle_result C2stateRF 0 2).events =
      [Msg.ok 0 (Md5.mk [1, 2, 9, 9])] ∧
    Md5.mk [1, 2, 9, 9] ≠ Md5.mk (C2buffer.contents.take 2) :=
  ⟨by decide, by decide, by decide, by decide⟩

/-- Claim C3 counterexample: `with_register_files::get_checksums` opens
every input file in its pre-loop pass, before the scheduler loop has bound
a single slot.  With 17 readable (empty) files, all 17 are open at the
head state of the run's trace while no read is outstanding — exceeding
`RING_SIZE = 16`. -/
theorem C3_register_files_counterexample :
    RING_SIZE <
      WithRegisterFiles.openFileCount
        (WithRegisterFiles.setupFiles fsysE false (List.range 17) 0).1
        (WithRegisterFiles.initState
          (Event.probe ::
            (WithRegisterFiles.setupFiles fsysE false (List.range 17) 0).2)) ∧
    (WithRegisterFiles.get_checksums probeW fsysE chW (List.range 17) false
        40).2.2.2.head? =
      some (WithRegisterFiles.initState
        (Event.probe ::
          (WithRegisterFiles.setupFiles fsysE false (List.range 17) 0).2)) := by
  constructor
  · decide
  · rfl

/-- Claim C3, amended: the number of slot-bound files — equivalently
outstanding reads — never exceeds `RING_SIZE` at any point of a run of any
uring variant, for every input; but the claim's bound on *open files* fails
for with_register_files, which pre-opens every input (see the
counterexample), so the amended bound is on slot occupancy only. -/
theorem C3_occupied_slots_bounded (fsys : FileSystem) (choices : Nat → Nat)
    (probe : Probe) (files : List FPath) (od bok : Bool) (fuel : Nat) :
    (∀ x ∈ (SimpleUring.get_checksums probe fsys choices files fuel).2.2.2,
      SimpleUring.occupiedCount x ≤ RING_SIZE) ∧
    (∀ x ∈ (WithRegisterFiles.get_checksums probe fsys choices files od fuel).2.2.2,
      WithRegisterFiles.occupiedCount x ≤ RING_SIZE) ∧
    (∀ x ∈ (WithFixedBuffers.get_checksums probe fsys choices bok files od
        fuel).2.2.2,
      WithFixedBuffers.occupiedCount x ≤ RING_SIZE) := by
  refine ⟨?_, ?_, ?_⟩
  · intro x hx
    cases hread : probe.read with
    | false => simp [SimpleUring.get_checksums, hread] at hx
    | true =>
      obtain ⟨fs', hInv⟩ :=
        SimpleUring.get_checksums_trace_inv fsys choices files fuel hread x hx
      have := hInv.count_eq
      omega
  · intro x hx
    obtain ⟨fs', hInv⟩ :=
      WithRegisterFiles.get_checksums_trace_inv_rf probe fsys choices files od fuel x hx
    have := hInv.count_eq
    omega
  · intro x hx
    obtain ⟨fs', hInv⟩ :=
      WithFixedBuffers.get_checksums_trace_inv_fb probe fsys choices bok files od fuel
        x hx
    have := hInv.count_eq
    omega

/-- The amended C3 bound applied at the head state of a concrete run of
each variant. -/
theorem C3_occupied_slots_bounded_witness :
    SimpleUring.occupiedCount SimpleUring.initState ≤ RING_SIZE ∧
    WithRegisterFiles.occupiedCount
      (WithRegisterFiles.initState
        (Event.probe :: (WithRegisterFiles.setupFiles fsysW false [0] 0).2)) ≤
      RING_SIZE ∧
    WithFixedBuffers.occupiedCount
      (WithFixedBuffers.initState
        (Event.probe :: (WithFixedBuffers.setupFiles fsysW false [0] 0).2)) ≤
      RING_SIZE := by
  have h := C3_occupied_slots_bounded fsysW chW probeW [0] false true 5
  refine ⟨h.1 _ ?_, h.2.1 _ ?_, h.2.2 _ ?_⟩
  · rw [SimpleUring.get_checksums_read_eq fsysW chW [0] 5 rfl]
    exact List.mem_cons_self _ _
  · rw [WithRegisterFiles.get_checksums_run_eq_rf fsysW chW [0] false 5 rfl rfl
      (by decide)]
    exact List.mem_cons_self _ _
  · rw [WithFixedBuffers.get_checksums_run_eq_fb fsysW chW true [0] false 5 rfl rfl rfl
      (by decide)]
    exact List.mem_cons_self _ _

/-- Claim C4: at every point of a run of any uring variant, the free-index
list length plus the occupied-slot count equals `RING_SIZE`, every slot
index below `RING_SIZE` is free exactly when its table entry is empty (so
each slot is in exactly one of the two states, and an in-flight file state
occupies exactly the one slot it was bound to), and the occupied count
never exceeds `RING_SIZE`. -/
theorem C4_slot_accounting (fsys : FileSystem) (choices : Nat → Nat)
    (probe : Probe) (files : List FPath) (od bok : Bool) (fuel : Nat) :
    (∀ x ∈ (SimpleUring.get_checksums probe fsys choices files fuel).2.2.2,
      x.free_index_list.length + SimpleUring.occupiedCount x = RING_SIZE ∧
      (∀ i, i < RING_SIZE →
        (i ∈ x.free_index_list ↔ SimpleUring.slotAt x i = none)) ∧
      SimpleUring.occupiedCount x ≤ RING_SIZE) ∧
    (∀ x ∈ (WithRegisterFiles.get_checksums probe fsys choices files od fuel).2.2.2,
      x.free_index_list.length + WithRegisterFiles.occupiedCount x = RING_SIZE ∧
      (∀ i, i < RING_SIZE →
        (i ∈ x.free_index_list ↔ WithRegisterFiles.slotAt x i = none)) ∧
      WithRegisterFiles.occupiedCount x ≤ RING_SIZE) ∧
    (∀ x ∈ (WithFixedBuffers.get_checksums probe fsys choices bok files od
        fuel).2.2.2,
      x.free_index_list.length + WithFixedBuffers.occupiedCount x = RING_SIZE ∧
      (∀ i, i < RING_SIZE →
        (i ∈ x.free_index_list ↔ WithFixedBuffers.slotAt x i = none)) ∧
      WithFixedBuffers.occupiedCount x ≤ RING_SIZE) := by
  refine ⟨?_, ?_, ?_⟩
  · intro x hx
    cases hread : probe.read with
    | false => simp [SimpleUring.get_checksums, hread] at hx
    | true =>
      obtain ⟨fs', hInv⟩ :=
        SimpleUring.get_checksums_trace_inv fsys choices files fuel hread x hx
      exact ⟨hInv.count_eq,
        fun i hi => ⟨fun hm => hInv.free_none i hm, fun hn => hInv.none_free i hi hn⟩,
        by have := hInv.count_eq; omega⟩
  · intro x hx
    obtain ⟨fs', hInv⟩ :=
      WithRegisterFiles.get_checksums_trace_inv_rf probe fsys choices files od fuel x hx
    exact ⟨hInv.count_eq,
      fun i hi => ⟨fun hm => hInv.free_none i hm, fun hn => hInv.none_free i hi hn⟩,
      by have := hInv.count_eq; omega⟩
  · intro x hx
    obtain ⟨fs', hInv⟩ :=
      WithFixedBuffers.get_checksums_trace_inv_fb probe fsys choices bok files od fuel
        x hx
    exact ⟨hInv.count_eq,
      fun i hi => ⟨fun hm => hInv.free_none i hm, fun hn => hInv.none_free i hi hn⟩,
      by have := hInv.count_eq; omega⟩

/-- The C4 accounting applied at the head state of a concrete run of each
variant. -/
theorem C4_slot_accounting_witness :
    (SimpleUring.initState.free_index_list.length +
        SimpleUring.occupiedCount SimpleUring.initState = RING_SIZE ∧
      (∀ i, i < RING_SIZE →
        (i ∈ SimpleUring.initState.free_index_list ↔
          SimpleUring.slotAt SimpleUring.initState i = none)) ∧
      SimpleUring.occupiedCount SimpleUring.initState ≤ RING_SIZE) ∧
    ((WithRegisterFiles.initState
          (Event.probe ::
            (WithRegisterFiles.setupFiles fsysW false [0] 0).2)).free_index_list.length +
        WithRegisterFiles.occupiedCount
          (WithRegisterFiles.initState
            (Event.probe :: (WithRegisterFiles.setupFiles fsysW false [0] 0).2)) =
        RING_SIZE) ∧
    ((WithFixedBuffers.initState
          (Event.probe ::
            (WithFixedBuffers.setupFiles fsysW false [0] 0).2)).free_index_list.length +
        WithFixedBuffers.occupiedCount
          (WithFixedBuffers.initState
            (Event.probe :: (WithFixedBuffers.setupFiles fsysW false [0] 0).2)) =
        RING_SIZE) := by
  have h := C4_slot_accounting fsysW chW probeW [0] false true 5
  refine ⟨h.1 _ ?_, (h.2.1 _ ?_).1, (h.2.2 _ ?_).1⟩
  · rw [SimpleUring.get_checksums_read_eq fsysW chW [0] 5 rfl]
    exact List.mem_cons_self _ _
  · rw [WithRegisterFiles.get_checksums_run_eq_rf fsysW chW [0] false 5 rfl rfl
      (by decide)]
    exact List.mem_cons_self _ _
  · rw [WithFixedBuffers.get_checksums_run_eq_fb fsysW chW true [0] false 5 rfl rfl rfl
      (by decide)]
    exact List.mem_cons_self _ _

/-- Claim C5 counterexample: a zero-length file is *not* handled without a
kernel read.  Running simple_uring on the single empty file at path 1, the
scheduler binds it to slot 15 and submits a read request of length 0 at
offset 0 — the claim says no read request is ever submitted for such a
file.  (The file is finished only when that completion is handled.) -/
theorem C5_empty_file_counterexample :
    Event.submitRead 15 1 0 0 ∈
      (SimpleUring.get_checksums probeW fsysW chW [1] 5).2.2.1.events := by
  decide

/-- Claim C5, amended: a zero-length file does flow through the scheduler
like any other file — a read *is* submitted for it — but every read ever
submitted for it requests 0 bytes, and the digest it is reported with is
the accumulator's empty digest (for the uring variants in a normally
exiting run; unconditionally for without_uring). -/
theorem C5_empty_file_digest (fsys : FileSystem) (choices : Nat → Nat)
    (probe : Probe) (files : List FPath) (fuel : Nat) (od bok : Bool)
    (p : FPath) (hp : p ∈ files) (hc : fsys p = some []) :
    ((SimpleUring.get_checksums probe fsys choices files fuel).1 = .done →
      Msg.ok p (Md5.mk []) ∈ sentMsgs
        (SimpleUring.get_checksums probe fsys choices files fuel).2.2.1.events ∧
      ∀ i len off, Event.submitRead i p len off ∈
          (SimpleUring.get_checksums probe fsys choices files fuel).2.2.1.events →
        len = 0) ∧
    ((WithRegisterFiles.get_checksums probe fsys choices files od fuel).1 = .done →
      Msg.ok p (Md5.mk []) ∈ sentMsgs
        (WithRegisterFiles.get_checksums probe fsys choices files od fuel).2.2.1.events ∧
      ∀ i len off, Event.submitRead i p len off ∈
          (WithRegisterFiles.get_checksums probe fsys choices files od
            fuel).2.2.1.events →
        len = 0) ∧
    ((WithFixedBuffers.get_checksums probe fsys choices bok files od fuel).1 = .done →
      Msg.ok p (Md5.mk []) ∈ sentMsgs
        (WithFixedBuffers.get_checksums probe fsys choices bok files od
          fuel).2.2.1.events ∧
      ∀ i len off, Event.submitRead i p len off ∈
          (WithFixedBuffers.get_checksums probe fsys choices bok files od
            fuel).2.2.1.events →
        len = 0) ∧
    Msg.ok p (Md5.new.update []) ∈ WithoutUring.get_checksums fsys files od := by
  refine ⟨?_, ?_, ?_, WithoutUring.ok_mem_wu hp hc⟩
  · intro hdone
    have hread : probe.read = true := by
      cases hb : probe.read with
      | true => rfl
      | false => simp [SimpleUring.get_checksums, hb] at hdone
    obtain ⟨hInv, hperm⟩ :=
      SimpleUring.get_checksums_done_perm fsys choices files fuel hread hdone
    refine ⟨SimpleUring.sent_ok_mem hInv hperm hp hc, ?_⟩
    intro i len off hev
    obtain ⟨c, hcc, hoff, hlen⟩ := hInv.submits i p len off hev
    rw [hc] at hcc
    obtain rfl : ([] : List Byte) = c := Option.some.inj hcc
    simp at hoff
    simp [hoff] at hlen
    exact hlen
  · intro hdone
    obtain ⟨hInv, hperm⟩ :=
      WithRegisterFiles.get_checksums_done_perm_rf probe fsys choices files od fuel hdone
    refine ⟨WithRegisterFiles.sent_ok_mem_rf hInv hperm hp hc, ?_⟩
    intro i len off hev
    obtain ⟨c, hcc, hoff, hlen⟩ := hInv.submits i p len off hev
    rw [hc] at hcc
    obtain rfl : ([] : List Byte) = c := Option.some.inj hcc
    simp at hoff
    simp [hoff] at hlen
    exact hlen
  · intro hdone
    obtain ⟨hInv, hperm⟩ :=
      WithFixedBuffers.get_checksums_done_perm_fb probe fsys choices bok files od fuel
        hdone
    refine ⟨WithFixedBuffers.sent_ok_mem_fb hInv hperm hp hc, ?_⟩
    intro i len off hev
    obtain ⟨c, hcc, hoff, hlen⟩ := hInv.submits i p len off hev
    rw [hc] at hcc
    obtain rfl : ([] : List Byte) = c := Option.some.inj hcc
    simp at hoff
    simp [hoff] at hlen
    exact hlen

/-- The amended C5 applied at the empty file (path 1) of a concrete
two-file run under each variant; the non-zero-length submit
`submitRead 15 1 4 0` is ruled out by the zero-length consequence. -/
theorem C5_empty_file_digest_witness :
    Msg.ok 1 (Md5.mk []) ∈ sentMsgs
      (SimpleUring.get_checksums probeW fsysW chW [0, 1] 10).2.2.1.events ∧
    Msg.ok 1 (Md5.mk []) ∈ sentMsgs
      (WithRegisterFiles.get_checksums probeW fsysW chW [0, 1] false 10).2.2.1.events ∧
    Msg.ok 1 (Md5.mk []) ∈ sentMsgs
      (WithFixedBuffers.get_checksums probeW fsysW chW true [0, 1] false
        10).2.2.1.events ∧
    Msg.ok 1 (Md5.new.update []) ∈ WithoutUring.get_checksums fsysW [0, 1] false ∧
    Event.submitRead 15 1 4 0 ∉
      (SimpleUring.get_checksums probeW fsysW chW [0, 1] 10).2.2.1.events := by
  have h := C5_empty_file_digest fsysW chW probeW [0, 1] 10 false true 1
    (by decide) (by decide)
  refine ⟨(h.1 (by decide)).1, (h.2.1 (by decide)).1, (h.2.2.1 (by decide)).1,
    h.2.2.2, ?_⟩
  intro hmem
  exact absurd ((h.1 (by decide)).2 15 4 0 hmem) (by decide)

/-- Claim C6: every supplied path yields exactly one terminal message on
the sink — its multiplicity among the sent message paths equals its
multiplicity in the input (so nothing is dropped and nothing is reported
twice) — for the uring variants in a normally exiting run, and
unconditionally (in input order) for without_uring. -/
theorem C6_one_terminal_message_per_path (fsys : FileSystem) (choices : Nat → Nat)
    (probe : Probe) (files : List FPath) (fuel : Nat) (od bok : Bool) (p : FPath) :
    ((SimpleUring.get_checksums probe fsys choices files fuel).1 = .done →
      (sentPaths
        (SimpleUring.get_checksums probe fsys choices files fuel).2.2.1.events).count p =
        files.count p) ∧
    ((WithRegisterFiles.get_checksums probe fsys choices files od fuel).1 = .done →
      (sentPaths
        (WithRegisterFiles.get_checksums probe fsys choices files od
          fuel).2.2.1.events).count p =
        files.count p) ∧
    ((WithFixedBuffers.get_checksums probe fsys choices bok files od fuel).1 = .done →
      (sentPaths
        (WithFixedBuffers.get_checksums probe fsys choices bok files od
          fuel).2.2.1.events).count p =
        files.count p) ∧
    (WithoutUring.get_checksums fsys files od).map Msg.path = files := by
  refine ⟨?_, ?_, ?_, WithoutUring.paths_eq_wu fsys files od⟩
  · intro hdone
    have hread : probe.read = true := by
      cases hb : probe.read with
      | true => rfl
      | false => simp [SimpleUring.get_checksums, hb] at hdone
    exact (SimpleUring.get_checksums_done_perm fsys choices files fuel hread
      hdone).2.count_eq p
  · intro hdone
    exact (WithRegisterFiles.get_checksums_done_perm_rf probe fsys choices files od fuel
      hdone).2.count_eq p
  · intro hdone
    exact (WithFixedBuffers.get_checksums_done_perm_fb probe fsys choices bok files od
      fuel hdone).2.count_eq p

/-- C6 applied to path 0 of a concrete two-file run under each variant. -/
theorem C6_one_terminal_message_per_path_witness :
    (sentPaths
      (SimpleUring.get_checksums probeW fsysW chW [0, 1] 10).2.2.1.events).count 0 =
      [0, 1].count 0 ∧
    (sentPaths
      (WithRegisterFiles.get_checksums probeW fsysW chW [0, 1] false
        10).2.2.1.events).count 0 =
      [0, 1].count 0 ∧
    (sentPaths
      (WithFixedBuffers.get_checksums probeW fsysW chW true [0, 1] false
        10).2.2.1.events).count 0 =
      [0, 1].count 0 ∧
    (WithoutUring.get_checksums fsysW [0, 1] false).map Msg.path = [0, 1] := by
  have h := C6_one_terminal_message_per_path fsysW chW probeW [0, 1] 10 false true 0
  exact ⟨h.1 (by decide), h.2.1 (by decide), h.2.2.1 (by decide), h.2.2.2⟩

/-- Claim C7: a path that cannot be opened (or statted) is reported through
the sink as an error, no read is ever submitted for it, every slot ends up
back on the free list, and every other readable path still receives its
success message — for the two cited variants, in a normally exiting run. -/
theorem C7_open_error_isolated (fsys : FileSystem) (choices : Nat → Nat)
    (probe : Probe) (files : List FPath) (od : Bool) (fuel : Nat) (p : FPath)
    (hp : p ∈ files) (hc : fsys p = none) :
    ((SimpleUring.get_checksums probe fsys choices files fuel).1 = .done →
      Msg.err p ∈ sentMsgs
        (SimpleUring.get_checksums probe fsys choices files fuel).2.2.1.events ∧
      (∀ i len off, Event.submitRead i p len off ∉
        (SimpleUring.get_checksums probe fsys choices files fuel).2.2.1.events) ∧
      (SimpleUring.get_checksums probe fsys choices files
        fuel).2.2.1.free_index_list.length = RING_SIZE ∧
      (∀ q c, q ∈ files → fsys q = some c →
        Msg.ok q (Md5.mk c) ∈ sentMsgs
          (SimpleUring.get_checksums probe fsys choices files fuel).2.2.1.events)) ∧
    ((WithRegisterFiles.get_checksums probe fsys choices files od fuel).1 = .done →
      Msg.err p ∈ sentMsgs
        (WithRegisterFiles.get_checksums probe fsys choices files od
          fuel).2.2.1.events ∧
      (∀ i len off, Event.submitRead i p len off ∉
        (WithRegisterFiles.get_checksums probe fsys choices files od
          fuel).2.2.1.events) ∧
      (WithRegisterFiles.get_checksums probe fsys choices files od
        fuel).2.2.1.free_index_list.length = RING_SIZE ∧
      (∀ q c, q ∈ files → fsys q = some c →
        Msg.ok q (Md5.mk c) ∈ sentMsgs
          (WithRegisterFiles.get_checksums probe fsys choices files od
            fuel).2.2.1.events)) := by
  constructor
  · intro hdone
    have hread : probe.read = true := by
      cases hb : probe.read with
      | true => rfl
      | false => simp [SimpleUring.get_checksums, hb] at hdone
    obtain ⟨hInv, hperm⟩ :=
      SimpleUring.get_checksums_done_perm fsys choices files fuel hread hdone
    refine ⟨SimpleUring.sent_err_mem hInv hperm hp hc, ?_, ?_,
      fun q c hq hqc => SimpleUring.sent_ok_mem hInv hperm hq hqc⟩
    · intro i len off hev
      obtain ⟨c, hcc, _, _⟩ := hInv.submits i p len off hev
      rw [hc] at hcc
      exact Option.noConfusion hcc
    · have h1 := hInv.acct.length_eq
      have h2 := hperm.length_eq
      have h3 : (SimpleUring.inFlightPaths
          (SimpleUring.get_checksums probe fsys choices files fuel).2.2.1).length =
          SimpleUring.occupiedCount
            (SimpleUring.get_checksums probe fsys choices files fuel).2.2.1 := by
        simp [SimpleUring.inFlightPaths, SimpleUring.occupiedCount]
      have h4 := hInv.count_eq
      simp only [List.nil_append, List.length_append] at h1
      omega
  · intro hdone
    obtain ⟨hInv, hperm⟩ :=
      WithRegisterFiles.get_checksums_done_perm_rf probe fsys choices files od fuel hdone
    refine ⟨WithRegisterFiles.sent_err_mem_rf hInv hperm hp hc, ?_, ?_,
      fun q c hq hqc => WithRegisterFiles.sent_ok_mem_rf hInv hperm hq hqc⟩
    · intro i len off hev
      obtain ⟨c, hcc, _, _⟩ := hInv.submits i p len off hev
      rw [hc] at hcc
      exact Option.noConfusion hcc
    · have h1 := hInv.acct.length_eq
      have h2 := hperm.length_eq
      have h3 : (WithRegisterFiles.inFlightPaths
          (WithRegisterFiles.get_checksums probe fsys choices files od
            fuel).2.2.1).length =
          WithRegisterFiles.occupiedCount
            (WithRegisterFiles.get_checksums probe fsys choices files od fuel).2.2.1 := by
        simp [WithRegisterFiles.inFlightPaths, WithRegisterFiles.occupiedCount]
      have h4 := hInv.count_eq
      simp only [List.map_nil, List.nil_append, List.length_append] at h1
      omega

/-- C7 applied to the unopenable path 2 of a concrete run on `[0, 2]`
under both cited variants. -/
theorem C7_open_error_isolated_witness :
    Msg.err 2 ∈ sentMsgs
      (SimpleUring.get_checksums probeW fsysW chW [0, 2] 10).2.2.1.events ∧
    Event.submitRead 15 2 0 0 ∉
      (SimpleUring.get_checksums probeW fsysW chW [0, 2] 10).2.2.1.events ∧
    (SimpleUring.get_checksums probeW fsysW chW [0, 2]
      10).2.2.1.free_index_list.length = RING_SIZE ∧
    Msg.ok 0 (Md5.mk [1, 2, 3]) ∈ sentMsgs
      (SimpleUring.get_checksums probeW fsysW chW [0, 2] 10).2.2.1.events ∧
    Msg.err 2 ∈ sentMsgs
      (WithRegisterFiles.get_checksums probeW fsysW chW [0, 2] false
        10).2.2.1.events ∧
    Msg.ok 0 (Md5.mk [1, 2, 3]) ∈ sentMsgs
      (WithRegisterFiles.get_checksums probeW fsysW chW [0, 2] false
        10).2.2.1.events := by
  have h := C7_open_error_isolated fsysW chW probeW [0, 2] false 10 2
    (by decide) (by decide)
  have h1 := h.1 (by decide)
  have h2 := h.2 (by decide)
  exact ⟨h1.1, h1.2.1 15 0 0, h1.2.2.1, h1.2.2.2 0 [1, 2, 3] (by decide) (by decide),
    h2.1, h2.2.2.2 0 [1, 2, 3] (by decide) (by decide)⟩

/-- The slot-15 buffer right after the first admission of the 3-byte file
at path 0, and the corresponding trace state, for each variant. -/
def C8bufW : SimpleUring.Buffer :=
  { path := 0, contents := [1, 2, 3], file_len := 3, buf := [0, 0, 0],
    position := 0, ctx := Md5.new }

def C8stateW : SimpleUring.SState :=
  { shared_buffers :=
      (List.replicate RING_SIZE (none : Option SimpleUring.Buffer)).set 15
        (some C8bufW),
    free_index_list := (List.range 15).reverse,
    events := [Event.probe, Event.openOk 0, Event.submitRead 15 0 3 0] }

def C8bufRF : WithRegisterFiles.Buffer :=
  { path := 0, contents := [1, 2, 3], file_len := 3, buf := ⟨fun _ => 0, 3⟩,
    position := 0, ctx := Md5.new, file_idx := 0 }

def C8traceRF : WithRegisterFiles.SState :=
  { shared_buffers :=
      (List.replicate RING_SIZE (none : Option WithRegisterFiles.Buffer)).set 15
        (some C8bufRF),
    free_index_list := (List.range 15).reverse,
    events := [Event.probe, Event.openOk 0, Event.submitRead 15 0 3 0] }

def C8stFB : WithFixedBuffers.ReadState :=
  { path := 0, contents := [1, 2, 3], file_len := 3, position := 0,
    ctx := Md5.new, file_idx := 0, buf := some ⟨fun _ => 0, 3⟩,
    buf_idx := some 15 }

def C8traceFB : WithFixedBuffers.SState :=
  { read_states :=
      (List.replicate RING_SIZE (none : Option WithFixedBuffers.ReadState)).set 15
        (some C8stFB),
    shared_buffers :=
      (List.replicate RING_SIZE (some AlignedBuffer.new)).set 15
        (none : Option AlignedBuffer),
    free_index_list := (List.range 15).reverse,
    events := [Event.probe, Event.openOk 0, Event.submitRead 15 0 3 0] }

/-- A slot mid-file (2-byte file, 1-byte chunks) and its state after one
more full-transfer completion: the cursor advances from 0 to 1. -/
def C8monoB : SimpleUring.Buffer :=
  { path := 0, contents := [1, 2], file_len := 2, buf := [5], position := 0,
    ctx := Md5.new }

def C8monoS : SimpleUring.SState :=
  { shared_buffers :=
      (List.replicate RING_SIZE (none : Option SimpleUring.Buffer)).set 0
        (some C8monoB),
    free_index_list := [],
    events := [] }

def C8monoB' : SimpleUring.Buffer :=
  { path := 0, contents := [1, 2], file_len := 2, buf := [1], position := 1,
    ctx := Md5.mk [1] }

/-- Two in-flight register-files slots; slot 0 completes, slot 1 is only
observed. -/
def C8monoRF0 : WithRegisterFiles.Buffer :=
  { path := 0, contents := [1, 2], file_len := 2, buf := ⟨fun _ => 5, 1⟩,
    position := 0, ctx := Md5.new, file_idx := 0 }

def C8monoRFobs : WithRegisterFiles.Buffer :=
  { path := 1, contents := [3], file_len := 1, buf := ⟨fun _ => 7, 1⟩,
    position := 0, ctx := Md5.new, file_idx := 1 }

def C8monoSRF : WithRegisterFiles.SState :=
  { shared_buffers :=
      ((List.replicate RING_SIZE (none : Option WithRegisterFiles.Buffer)).set 0
        (some C8monoRF0)).set 1 (some C8monoRFobs),
    free_index_list := [],
    events := [] }

def C8monoFB0 : WithFixedBuffers.ReadState :=
  { path := 0, contents := [1, 2], file_len := 2, position := 0, ctx := Md5.new,
    file_idx := 0, buf := some ⟨fun _ => 5, 1⟩, buf_idx := some 0 }

def C8monoFBobs : WithFixedBuffers.ReadState :=
  { path := 1, contents := [3], file_len := 1, position := 0, ctx := Md5.new,
    file_idx := 1, buf := some ⟨fun _ => 7, 1⟩, buf_idx := some 1 }

def C8monoSFB : WithFixedBuffers.SState :=
  { read_states :=
      ((List.replicate RING_SIZE (none : Option WithFixedBuffers.ReadState)).set 0
        (some C8monoFB0)).set 1 (some C8monoFBobs),
    shared_buffers := List.replicate RING_SIZE (none : Option AlignedBuffer),
    free_index_list := [],
    events := [] }

/-- Claim C8: for every in-flight slot at every point of a run of any
uring variant, the requested read length (the slot's logical buffer
length) equals `min(total_length - cursor, MAX_READ_SIZE)`, and
`cursor + requested ≤ total_length` and `cursor ≤ total_length` hold; and
the cursor is monotonically non-decreasing — the wait-and-handle step, the
only one that moves it, never decreases any slot's cursor. -/
theorem C8_chunk_size_invariant (fsys : FileSystem) (choices : Nat → Nat)
    (probe : Probe) (files : List FPath) (od bok : Bool) (fuel : Nat) :
    (∀ x ∈ (SimpleUring.get_checksums probe fsys choices files fuel).2.2.2,
      ∀ i b, SimpleUring.slotAt x i = some b →
        b.buf.length = min (b.file_len - b.position) MAX_READ_SIZE ∧
        b.position + b.buf.length ≤ b.file_len ∧
        b.position ≤ b.file_len) ∧
    (∀ x ∈ (WithRegisterFiles.get_checksums probe fsys choices files od
        fuel).2.2.2,
      ∀ i b, WithRegisterFiles.slotAt x i = some b →
        b.buf.len = min (b.file_len - b.position) MAX_READ_SIZE ∧
        b.position + b.buf.len ≤ b.file_len ∧
        b.position ≤ b.file_len) ∧
    (∀ x ∈ (WithFixedBuffers.get_checksums probe fsys choices bok files od
        fuel).2.2.2,
      ∀ i st, WithFixedBuffers.slotAt x i = some st →
        WithFixedBuffers.lentLen st =
          min (st.file_len - st.position) MAX_READ_SIZE ∧
        st.position + WithFixedBuffers.lentLen st ≤ st.file_len ∧
        st.position ≤ st.file_len) ∧
    (∀ s choice i b b', SimpleUring.slotAt s i = some b →
      SimpleUring.slotAt (SimpleUring.submit_wait_and_handle_result s choice) i =
        some b' →
      b.position ≤ b'.position) ∧
    (∀ s choice i b b', WithRegisterFiles.slotAt s i = some b →
      WithRegisterFiles.slotAt
          (WithRegisterFiles.submit_wait_and_handle_result s choice) i = some b' →
      b.position ≤ b'.position) ∧
    (∀ s choice i st st', WithFixedBuffers.slotAt s i = some st →
      WithFixedBuffers.slotAt
          (WithFixedBuffers.submit_wait_and_handle_result s choice) i = some st' →
      st.position ≤ st'.position) := by
  refine ⟨?_, ?_, ?_,
    fun s choice i b b' hb hb' => SimpleUring.swhr_position_mono s choice i hb hb',
    fun s choice i b b' hb hb' =>
      WithRegisterFiles.swhr_position_mono_rf s choice i hb hb',
    fun s choice i st st' hb hb' =>
      WithFixedBuffers.swhr_position_mono_fb s choice i hb hb'⟩
  · intro x hx i b hb
    cases hread : probe.read with
    | false => simp [SimpleUring.get_checksums, hread] at hx
    | true =>
      obtain ⟨fs', hInv⟩ :=
        SimpleUring.get_checksums_trace_inv fsys choices files fuel hread x hx
      obtain ⟨_, hfl, hpos, _, hlen⟩ := hInv.wf i b hb
      refine ⟨hlen, ?_, hpos⟩
      omega
  · intro x hx i b hb
    obtain ⟨fs', hInv⟩ :=
      WithRegisterFiles.get_checksums_trace_inv_rf probe fsys choices files od fuel x hx
    obtain ⟨_, hfl, hpos, _, hlen⟩ := hInv.wf i b hb
    refine ⟨hlen, ?_, hpos⟩
    omega
  · intro x hx i st hb
    obtain ⟨fs', hInv⟩ :=
      WithFixedBuffers.get_checksums_trace_inv_fb probe fsys choices bok files od fuel
        x hx
    obtain ⟨_, hfl, hpos, _, ab, hab, hablen⟩ := hInv.wf i st hb
    have hll : WithFixedBuffers.lentLen st = ab.len := by
      simp [WithFixedBuffers.lentLen, hab]
    rw [hll, hablen]
    refine ⟨rfl, ?_, hpos⟩
    omega

/-- C8 applied at the first in-flight trace state of a concrete run of
each variant, and at concrete one-step completions for monotonicity. -/
theorem C8_chunk_size_invariant_witness :
    (C8bufW.buf.length = min (C8bufW.file_len - C8bufW.position) MAX_READ_SIZE ∧
      C8bufW.position + C8bufW.buf.length ≤ C8bufW.file_len ∧
      C8bufW.position ≤ C8bufW.file_len) ∧
    (C8bufRF.buf.len = min (C8bufRF.file_len - C8bufRF.position) MAX_READ_SIZE ∧
      C8bufRF.position + C8bufRF.buf.len ≤ C8bufRF.file_len ∧
      C8bufRF.position ≤ C8bufRF.file_len) ∧
    (WithFixedBuffers.lentLen C8stFB =
        min (C8stFB.file_len - C8stFB.position) MAX_READ_SIZE ∧
      C8stFB.position + WithFixedBuffers.lentLen C8stFB ≤ C8stFB.file_len ∧
      C8stFB.position ≤ C8stFB.file_len) ∧
    C8monoB.position ≤ C8monoB'.position ∧
    C8monoRFobs.position ≤ C8monoRFobs.position ∧
    C8monoFBobs.position ≤ C8monoFBobs.position := by
  have h := C8_chunk_size_invariant fsysW chW probeW [0] false true 5
  have hgRF : (WithRegisterFiles.get_checksums probeW fsysW chW [0] false
      5).2.2.2.get? 1 = some C8traceRF := rfl
  have hgFB : (WithFixedBuffers.get_checksums probeW fsysW chW true [0] false
      5).2.2.2.get? 1 = some C8traceFB := rfl
  exact ⟨h.1 C8stateW (by decide) 15 C8bufW (by decide),
    h.2.1 C8traceRF (List.get?_mem hgRF) 15 C8bufRF rfl,
    h.2.2.1 C8traceFB (List.get?_mem hgFB) 15 C8stFB rfl,
    h.2.2.2.1 C8monoS 0 0 C8monoB C8monoB' (by decide) (by decide),
    h.2.2.2.2.1 C8monoSRF 0 1 C8monoRFobs C8monoRFobs rfl rfl,
    h.2.2.2.2.2 C8monoSFB 0 1 C8monoFBobs C8monoFBobs rfl rfl⟩

/-- Probes with exactly one capability missing. -/
def probeNoRead : Probe := ⟨false, true, true⟩

def probeNoReg : Probe := ⟨true, false, true⟩

def probeNoFixed : Probe := ⟨true, true, false⟩

/-- Claim C9: for every variant, a missing required capability makes
`get_checksums` return a fatal error naming it while the event log still
holds only the probe registration — no file opened, no read submitted, no
message sent, an empty trace — and in every run (whatever the probe or
outcome) the capability probe is registered exactly once. -/
theorem C9_probe_gating (fsys : FileSystem) (choices : Nat → Nat) (probe : Probe)
    (files : List FPath) (od bok : Bool) (fuel : Nat) :
    (probe.read = false →
      (SimpleUring.get_checksums probe fsys choices files fuel).1 =
        .fatal "Reading files is not supported. Try a newer kernel." ∧
      (SimpleUring.get_checksums probe fsys choices files fuel).2.2.1.events =
        [Event.probe] ∧
      (SimpleUring.get_checksums probe fsys choices files fuel).2.2.2 = []) ∧
    (probe.read = false →
      (WithRegisterFiles.get_checksums probe fsys choices files od fuel).1 =
        .fatal "Reading files is not supported. Try a newer kernel." ∧
      (WithRegisterFiles.get_checksums probe fsys choices files od
        fuel).2.2.1.events = [Event.probe] ∧
      (WithRegisterFiles.get_checksums probe fsys choices files od fuel).2.2.2 = []) ∧
    (probe.read = true → probe.register_files = false →
      (WithRegisterFiles.get_checksums probe fsys choices files od fuel).1 =
        .fatal "Registering files is not supported. Try a newer kernel." ∧
      (WithRegisterFiles.get_checksums probe fsys choices files od
        fuel).2.2.1.events = [Event.probe] ∧
      (WithRegisterFiles.get_checksums probe fsys choices files od fuel).2.2.2 = []) ∧
    (probe.read = false →
      (WithFixedBuffers.get_checksums probe fsys choices bok files od fuel).1 =
        .fatal "Reading files is not supported. Try a newer kernel." ∧
      (WithFixedBuffers.get_checksums probe fsys choices bok files od
        fuel).2.2.1.events = [Event.probe] ∧
      (WithFixedBuffers.get_checksums probe fsys choices bok files od fuel).2.2.2 =
        []) ∧
    (probe.read = true → probe.register_files = false →
      (WithFixedBuffers.get_checksums probe fsys choices bok files od fuel).1 =
        .fatal "Registering files is not supported. Try a newer kernel." ∧
      (WithFixedBuffers.get_checksums probe fsys choices bok files od
        fuel).2.2.1.events = [Event.probe] ∧
      (WithFixedBuffers.get_checksums probe fsys choices bok files od fuel).2.2.2 =
        []) ∧
    (probe.read = true → probe.register_files = true → probe.read_fixed = false →
      (WithFixedBuffers.get_checksums probe fsys choices bok files od fuel).1 =
        .fatal "Reading into fixed buffers is not supported. Try a newer kernel." ∧
      (WithFixedBuffers.get_checksums probe fsys choices bok files od
        fuel).2.2.1.events = [Event.probe] ∧
      (WithFixedBuffers.get_checksums probe fsys choices bok files od fuel).2.2.2 =
        []) ∧
    (SimpleUring.get_checksums probe fsys choices files
      fuel).2.2.1.events.count Event.probe = 1 ∧
    (WithRegisterFiles.get_checksums probe fsys choices files od
      fuel).2.2.1.events.count Event.probe = 1 ∧
    (WithFixedBuffers.get_checksums probe fsys choices bok files od
      fuel).2.2.1.events.count Event.probe = 1 := by
  refine ⟨?_, ?_, ?_, ?_, ?_, ?_, ?_, ?_, ?_⟩
  · intro h
    refine ⟨?_, ?_, ?_⟩ <;> simp [SimpleUring.get_checksums, SimpleUring.initState, h]
  · intro h
    refine ⟨?_, ?_, ?_⟩ <;>
      simp [WithRegisterFiles.get_checksums, WithRegisterFiles.initState, h]
  · intro h1 h2
    refine ⟨?_, ?_, ?_⟩ <;>
      simp [WithRegisterFiles.get_checksums, WithRegisterFiles.initState, h1, h2]
  · intro h
    refine ⟨?_, ?_, ?_⟩ <;>
      simp [WithFixedBuffers.get_checksums, WithFixedBuffers.initState, h]
  · intro h1 h2
    refine ⟨?_, ?_, ?_⟩ <;>
      simp [WithFixedBuffers.get_checksums, WithFixedBuffers.initState, h1, h2]
  · intro h1 h2 h3
    refine ⟨?_, ?_, ?_⟩ <;>
      simp [WithFixedBuffers.get_checksums, WithFixedBuffers.initState, h1, h2, h3]
  · cases hread : probe.read with
    | false =>
      have hev : (SimpleUring.get_checksums probe fsys choices files fuel).2.2.1.events =
          [Event.probe] := by
        simp [SimpleUring.get_checksums, SimpleUring.initState, hread]
      rw [hev]
      decide
    | true =>
      exact (SimpleUring.get_checksums_final_inv fsys choices files fuel
        hread).probe_once
  · cases h1 : probe.read with
    | false =>
      have hev : (WithRegisterFiles.get_checksums probe fsys choices files od
          fuel).2.2.1.events = [Event.probe] := by
        simp [WithRegisterFiles.get_checksums, WithRegisterFiles.initState, h1]
      rw [hev]
      decide
    | true =>
      cases h2 : probe.register_files with
      | false =>
        have hev : (WithRegisterFiles.get_checksums probe fsys choices files od
            fuel).2.2.1.events = [Event.probe] := by
          simp [WithRegisterFiles.get_checksums, WithRegisterFiles.initState, h1, h2]
        rw [hev]
        decide
      | true =>
        cases h3 : (WithRegisterFiles.setupFiles fsys od files 0).1.isEmpty with
        | true =>
          have hev : (WithRegisterFiles.get_checksums probe fsys choices files od
              fuel).2.2.1 =
              WithRegisterFiles.initState
                (Event.probe :: (WithRegisterFiles.setupFiles fsys od files 0).2) := by
            simp [WithRegisterFiles.get_checksums, h1, h2, h3]
          rw [hev]
          have h5 := (WithRegisterFiles.setupFiles_facts_rf fsys od files 0).2.2.2.2.1
          simp [WithRegisterFiles.initState, List.count_cons, h5]
        | false =>
          rw [WithRegisterFiles.get_checksums_run_eq_rf fsys choices files od fuel
            h1 h2 h3]
          exact (WithRegisterFiles.runLoop_inv_rf choices fuel 0 _ _
            (WithRegisterFiles.init_inv_rf fsys files od)).1.probe_once
  · cases h1 : probe.read with
    | false =>
      have hev : (WithFixedBuffers.get_checksums probe fsys choices bok files od
          fuel).2.2.1.events = [Event.probe] := by
        simp [WithFixedBuffers.get_checksums, WithFixedBuffers.initState, h1]
      rw [hev]
      decide
    | true =>
      cases h2 : probe.register_files with
      | false =>
        have hev : (WithFixedBuffers.get_checksums probe fsys choices bok files od
            fuel).2.2.1.events = [Event.probe] := by
          simp [WithFixedBuffers.get_checksums, WithFixedBuffers.initState, h1, h2]
        rw [hev]
        decide
      | true =>
        cases h3 : probe.read_fixed with
        | false =>
          have hev : (WithFixedBuffers.get_checksums probe fsys choices bok files od
              fuel).2.2.1.events = [Event.probe] := by
            simp [WithFixedBuffers.get_checksums, WithFixedBuffers.initState, h1, h2, h3]
          rw [hev]
          decide
        | true =>
          cases h4 : (!(WithFixedBuffers.setupFiles fsys od files 0).1.isEmpty &&
              !bok) with
          | true =>
            have hev : (WithFixedBuffers.get_checksums probe fsys choices bok files od
                fuel).2.2.1 =
                WithFixedBuffers.initState
                  (Event.probe :: (WithFixedBuffers.setupFiles fsys od files 0).2) := by
              simp [WithFixedBuffers.get_checksums, h1, h2, h3, h4]
            rw [hev]
            have h5 := (WithFixedBuffers.setupFiles_facts_fb fsys od files 0).2.2.2.2.1
            simp [WithFixedBuffers.initState, List.count_cons, h5]
          | false =>
            rw [WithFixedBuffers.get_checksums_run_eq_fb fsys choices bok files od fuel
              h1 h2 h3 h4]
            exact (WithFixedBuffers.runLoop_inv_fb choices fuel 0 _ _
              (WithFixedBuffers.init_inv_fb fsys files od)).1.probe_once

/-- C9 applied at probes each missing one capability, plus the probe-count
consequence of a fully supported run. -/
theorem C9_probe_gating_witness :
    (SimpleUring.get_checksums probeNoRead fsysW chW [0] 5).1 =
      .fatal "Reading files is not supported. Try a newer kernel." ∧
    (WithRegisterFiles.get_checksums probeNoReg fsysW chW [0] false 5).1 =
      .fatal "Registering files is not supported. Try a newer kernel." ∧
    (WithFixedBuffers.get_checksums probeNoFixed fsysW chW true [0] false 5).1 =
      .fatal "Reading into fixed buffers is not supported. Try a newer kernel." ∧
    (WithFixedBuffers.get_checksums probeNoFixed fsysW chW true [0] false
      5).2.2.1.events = [Event.probe] ∧
    (SimpleUring.get_checksums probeW fsysW chW [0] 5).2.2.1.events.count
      Event.probe = 1 ∧
    (WithRegisterFiles.get_checksums probeW fsysW chW [0] false
      5).2.2.1.events.count Event.probe = 1 ∧
    (WithFixedBuffers.get_checksums probeW fsysW chW true [0] false
      5).2.2.1.events.count Event.probe = 1 := by
  have hA := C9_probe_gating fsysW chW probeNoRead [0] false true 5
  have hB := C9_probe_gating fsysW chW probeNoReg [0] false true 5
  have hC := C9_probe_gating fsysW chW probeNoFixed [0] false true 5
  have hD := C9_probe_gating fsysW chW probeW [0] false true 5
  exact ⟨(hA.1 rfl).1, (hB.2.2.1 rfl rfl).1, (hC.2.2.2.2.2.1 rfl rfl rfl).1,
    (hC.2.2.2.2.2.1 rfl rfl rfl).2.1, hD.2.2.2.2.2.2.1, hD.2.2.2.2.2.2.2.1,
    hD.2.2.2.2.2.2.2.2⟩

/-- Claim C10: `AlignedBuffer::resize(len)` panics exactly when
`len > MAX_READ_SIZE`; otherwise it only sets the logical length, leaving
the storage (capacity and contents) untouched; a fresh buffer has logical
length `MAX_READ_SIZE`; and both engine call sites pass the chunk formula
`min(file_len - position, MAX_READ_SIZE) ≤ MAX_READ_SIZE`, so no engine
resize can panic. -/
theorem C10_resize_contract :
    (∀ b len, AlignedBuffer.resize b len = none ↔ MAX_READ_SIZE < len) ∧
    (∀ b len, len ≤ MAX_READ_SIZE →
      AlignedBuffer.resize b len = some { b with len := len }) ∧
    AlignedBuffer.new.len = MAX_READ_SIZE ∧
    (∀ b : WithRegisterFiles.Buffer,
      b.buf.resize (min (b.file_len - b.position) MAX_READ_SIZE) =
        some { b.buf with len := min (b.file_len - b.position) MAX_READ_SIZE }) ∧
    (∀ buf fl pos, AlignedBuffer.resize buf (min (fl - pos) MAX_READ_SIZE) =
      some { buf with len := min (fl - pos) MAX_READ_SIZE }) := by
  refine ⟨?_, ?_, rfl, fun b => WithRegisterFiles.set_buffer_size_resize_some_rf b,
    fun buf fl pos => WithFixedBuffers.set_buffer_size_resize_some_fb buf fl pos⟩
  · intro b len
    by_cases hle : len ≤ MAX_READ_SIZE
    · simp [AlignedBuffer.resize, hle]
    · simp [AlignedBuffer.resize, hle]
      omega
  · intro b len h
    simp [AlignedBuffer.resize, h]

/-- C10 applied at a fresh buffer (a panicking and a succeeding length)
and at each engine call-site shape. -/
theorem C10_resize_contract_witness :
    AlignedBuffer.resize AlignedBuffer.new (MAX_READ_SIZE + 1) = none ∧
    AlignedBuffer.resize AlignedBuffer.new 5 =
      some { AlignedBuffer.new with len := 5 } ∧
    AlignedBuffer.new.len = MAX_READ_SIZE ∧
    (⟨7, [1, 2], 2, ⟨fun _ => 3, 2⟩, 0, Md5.new, 0⟩ :
        WithRegisterFiles.Buffer).buf.resize
        (min (((⟨7, [1, 2], 2, ⟨fun _ => 3, 2⟩, 0, Md5.new, 0⟩ :
          WithRegisterFiles.Buffer)).file_len -
          ((⟨7, [1, 2], 2, ⟨fun _ => 3, 2⟩, 0, Md5.new, 0⟩ :
            WithRegisterFiles.Buffer)).position) MAX_READ_SIZE) =
      some ⟨fun _ => 3, min (2 - 0) MAX_READ_SIZE⟩ ∧
    AlignedBuffer.resize ⟨fun _ => 9, 4⟩ (min (10 - 2) MAX_READ_SIZE) =
      some ⟨fun _ => 9, min (10 - 2) MAX_READ_SIZE⟩ := by
  have h := C10_resize_contract
  exact ⟨(h.1 AlignedBuffer.new (MAX_READ_SIZE + 1)).mpr (by omega),
    h.2.1 AlignedBuffer.new 5 (by decide), h.2.2.1,
    h.2.2.2.1 ⟨7, [1, 2], 2, ⟨fun _ => 3, 2⟩, 0, Md5.new, 0⟩,
    h.2.2.2.2 ⟨fun _ => 9, 4⟩ 10 2⟩
